import Mathlib

/-!
# docker-volume-netshare: mount registry and metadata files

A shallow embedding of `netshare/drivers/mounts.go` (the in-memory mount
registry `mountManager`) and `netshare/drivers/mount_store.go` (the metadata
store `mountStore`) together with the part of the Go standard library they
call: `path/filepath` (Unix flavour), `os`, `io/ioutil`, `encoding/json` and
`strings`.

Modelling decisions, all visible in the definitions below:

* A Go `map[string]V` is an association list `GoMap V`; the first binding of a
  key is the one that counts, `set` and `del` drop every binding of the key.
  The order of the list has no meaning. A nil map is `none`, so
  `Opts = Option (GoMap String)`.
* Go's `int` is an `Int` kept within 64 bits, the width of `int` on the
  platforms the plugin is built for: `c.connections++` is `wrapInt` of the
  sum, so the counter goes from 2^63 - 1 to -2^63. `c.connections--` is only
  reached on a positive counter and cannot wrap.
* The file system is a finite map from cleaned path strings to nodes: a
  directory, a regular file, or a regular file that the process may not open
  (the one thing kept of permissions: `ioutil.ReadFile` and `ioutil.WriteFile`
  fail on it). Symbolic links are not modelled. The directories `/`, `.` and
  paths of `..` elements always exist; the empty path names nothing.
* `os.Stat`, `os.Mkdir`, `ioutil.ReadFile` and `filepath.Walk` are handed the
  path of the metadata store as the caller wrote it, so they resolve the path
  as the kernel does (`os.resolve`). `os.MkdirAll`, `ioutil.WriteFile` and
  `os.Remove` are only ever handed results of `filepath.Join`, which are
  cleaned paths.
* The bytes of a file are kept up to what `json.Unmarshal` into a
  `map[string]string` makes of them: either they decode to an options map, or
  they do not decode. Strings are Unicode text, so option keys and values that
  are not valid UTF-8 are outside the embedding.
* A Go panic is the result `none`.
* A pointer to a record is the record: `Create` returns the record it put in
  the map.
-/

namespace Netshare

/-! ## Go maps -/

/-- A Go map with string keys: an association list, first binding wins. -/
abbrev GoMap (V : Type) := List (String × V)

/-- The value bound to `key`, Go's `v, found := m[key]`. -/
def GoMap.get {V : Type} : GoMap V → String → Option V
  | [], _ => none
  | (k, v) :: rest, key => if k = key then some v else GoMap.get rest key

/-- Go's `delete(m, key)`. -/
def GoMap.del {V : Type} (m : GoMap V) (key : String) : GoMap V :=
  m.filter (fun e => decide (e.1 ≠ key))

/-- Go's `m[key] = v`. -/
def GoMap.set {V : Type} (m : GoMap V) (key : String) (v : V) : GoMap V :=
  (key, v) :: GoMap.del m key

/-- The distinct keys of a map. -/
def GoMap.keys {V : Type} : GoMap V → List String
  | [] => []
  | (k, _) :: rest => k :: (GoMap.keys rest).filter (fun k' => decide (k' ≠ k))

/-- Go's `len(m)`. -/
def GoMap.len {V : Type} (m : GoMap V) : Nat := (GoMap.keys m).length

/-- Options of a volume: Go's `map[string]string`, `none` being the nil map. -/
abbrev Opts := Option (GoMap String)

/-- Go's `len(opts)`, which is 0 for the nil map. -/
def Opts.len : Opts → Nat
  | none => 0
  | some m => GoMap.len m

/-- Go's `v, ok := opts[key]`; reading the nil map finds nothing. -/
def Opts.get : Opts → String → Option String
  | none, _ => none
  | some m, key => GoMap.get m key

/-! ## path/filepath on Unix -/

/-- The elements of a path between its separators; empty elements are kept. -/
def splitSep : List Char → List (List Char)
  | [] => [[]]
  | c :: cs =>
    if c = '/' then [] :: splitSep cs
    else
      match splitSep cs with
      | [] => [[c]]
      | e :: es => (c :: e) :: es

/-- One element of the loop of `filepath.Clean`; `out` is the output so far,
last element first. Empty and `.` elements vanish; `..` removes the element
before it when there is one that is not `..`, is dropped at the top of a
rooted path and is kept otherwise. -/
def cleanStep (rooted : Bool) (out : List (List Char)) (e : List Char) : List (List Char) :=
  if e = [] ∨ e = ['.'] then out
  else if e = ['.', '.'] then
    match out with
    | [] => if rooted then [] else [e]
    | top :: rest => if top = ['.', '.'] then (if rooted then out else e :: out) else rest
  else e :: out

/-- The elements `filepath.Clean` keeps, first element first. -/
def cleanElems (rooted : Bool) (es : List (List Char)) : List (List Char) :=
  (es.foldl (cleanStep rooted) []).reverse

/-- Elements joined by single separators. -/
def joinSep : List (List Char) → List Char
  | [] => []
  | [e] => e
  | e :: es => e ++ '/' :: joinSep es

/-- The text of a cleaned path: `/` before the elements of a rooted path, and
`.` for the relative path with no element. -/
def render (rooted : Bool) (es : List (List Char)) : List Char :=
  if rooted then '/' :: joinSep es
  else if es = [] then ['.'] else joinSep es

/-- Whether a path starts at the root directory. -/
def isRooted (cs : List Char) : Bool := cs.head? = some '/'

/-- Go's `filepath.Clean`. -/
def filepath.Clean (path : String) : String :=
  if path = "" then "."
  else ⟨render (isRooted path.data) (cleanElems (isRooted path.data) (splitSep path.data))⟩

/-- Go's `strings.Join(elem, "/")`. -/
def joinWithSep : List String → List Char
  | [] => []
  | [e] => e.data
  | e :: es => e.data ++ '/' :: joinWithSep es

/-- Go's `filepath.Join`: the elements from the first non-empty one on, joined
by separators and cleaned; the empty string when every element is empty. -/
def filepath.Join : List String → String
  | [] => ""
  | e :: es => if e = "" then filepath.Join es else filepath.Clean ⟨joinWithSep (e :: es)⟩

/-- The characters after the last separator, given the path reversed. -/
def lastElemRev : List Char → List Char
  | [] => []
  | c :: cs => if c = '/' then [] else c :: lastElemRev cs

/-- Go's `filepath.Split`: the path up to and including its last separator,
and the rest. -/
def filepath.Split (path : String) : String × String :=
  let file := (lastElemRev path.data.reverse).reverse
  (⟨path.data.take (path.data.length - file.length)⟩, ⟨file⟩)

/-- A path without its trailing separators, given the path reversed. -/
def dropSepRev : List Char → List Char
  | [] => []
  | c :: cs => if c = '/' then dropSepRev cs else c :: cs

/-- Go's `filepath.Base`: the last element of the path, `.` for the empty
path and `/` for a path of separators only. -/
def filepath.Base (path : String) : String :=
  if path = "" then "."
  else
    let file := (lastElemRev (dropSepRev path.data.reverse)).reverse
    if file = [] then "/" else ⟨file⟩

/-- Go's `filepath.Dir`: the cleaned directory part of `Split`. -/
def filepath.Dir (path : String) : String := filepath.Clean (filepath.Split path).1

/-- An element of a path that `filepath.Clean` keeps as it is: not empty, not
`.` and not `..`. -/
def normalElem (e : List Char) : Bool :=
  decide (e ≠ []) && decide (e ≠ ['.']) && decide (e ≠ ['.', '.'])

/-- The elements of a cleaned path: what stands between its separators, the
path `.` having none. -/
def pathElems (p : String) : List (List Char) :=
  (splitSep p.data).filter (fun e => decide (e ≠ []) && decide (e ≠ ['.']))

/-- The elements of `targ` after the elements of `base`, once what they have in
common at the front is dropped: `..` for every element of the base that is
left, then what is left of the target. `none` is the error of `filepath.Rel`:
the base goes on with `..`, and the way back is not known. -/
def relElems : List (List Char) → List (List Char) → Option (List (List Char))
  | [], ts => some ts
  | bh :: bs, [] =>
    if bh = ['.', '.'] then none else some (List.replicate (bs.length + 1) ['.', '.'])
  | bh :: bs, th :: ts =>
    if bh = th then relElems bs ts
    else if bh = ['.', '.'] then none
    else some (List.replicate (bs.length + 1) ['.', '.'] ++ th :: ts)

/-- Go's `filepath.Rel`: both paths cleaned; `.` when they are the same; an
error when one is rooted and the other is not; otherwise `relElems`. -/
def filepath.Rel (basepath targpath : String) : Option String :=
  let base := filepath.Clean basepath
  let targ := filepath.Clean targpath
  if targ = base then some "."
  else if isRooted base.data ≠ isRooted targ.data then none
  else (relElems (pathElems base) (pathElems targ)).map (fun es => ⟨joinSep es⟩)

/-! ## encoding/json -/

/-- The bytes of a regular file, up to what `json.Unmarshal` into a
`map[string]string` makes of them: a JSON document of some options (`null`
for the nil map), or bytes that do not decode. -/
inductive FileData where
  | json (opts : Opts)
  | garbage (bytes : String)
deriving DecidableEq, Repr

/-- Go's `json.Marshal` of a `map[string]string`; it cannot fail. -/
def json.Marshal (opts : Opts) : FileData := FileData.json opts

/-- Go's `json.Unmarshal` into a `map[string]string`; `none` is an error. -/
def json.Unmarshal : FileData → Option Opts
  | FileData.json opts => some opts
  | FileData.garbage _ => none

/-! ## os and io/ioutil -/

/-- What a path names: a directory, a regular file with its bytes, or a
regular file that the process has no permission to open (`locked`, a file of
mode 0 under a process that is not root): such a file is seen by `os.Stat`
and can be unlinked, reading and writing it fail. -/
inductive Node where
  | dir
  | file (data : FileData)
  | locked
deriving DecidableEq, Repr

/-- The file system: cleaned paths to nodes. It is a tree, every entry lies in
a directory; the operations below keep it so. -/
abbrev FS := GoMap Node

/-- The directories that are always there: `/`, `.`, and a path of `..`
elements (a cleaned path that ends in `..`). -/
def implicitDir (p : String) : Bool :=
  decide (filepath.Base p = "/") || decide (filepath.Base p = ".") || decide (filepath.Base p = "..")

/-- The node at a cleaned path, `none` when there is none. The empty path
names nothing. -/
def FS.stat (fs : FS) (p : String) : Option Node :=
  if p = "" then none
  else if implicitDir p then some Node.dir else GoMap.get fs p

/-- One element of the walk the kernel makes along a path. `acc` is the
directory reached so far, as the elements of its cleaned path, last first;
`none` when the walk has failed. An empty element, `.` and `..` are looked up
in the directory reached, which has to be there as a directory. Any other
element is a name taken on; whether it is there shows at the next look-up or
at the end. -/
def resolveStep (fs : FS) (rooted : Bool) (acc : Option (List (List Char))) (e : List Char) :
    Option (List (List Char)) :=
  match acc with
  | none => none
  | some out =>
    if normalElem e then some (e :: out)
    else if FS.stat fs ⟨render rooted out.reverse⟩ = some Node.dir then
      some (cleanStep rooted out e)
    else none

/-- The cleaned path that a path names, when the kernel can walk along it
(there are no symbolic links): `/tmp/r1/.meta/` and `/tmp/r1/./.meta` name
`/tmp/r1/.meta` when that is a directory, `x/../b` names `b` when `x` is a
directory, and a cleaned path names itself. `none` is the error. -/
def os.resolve (fs : FS) (p : String) : Option String :=
  if p = "" then none
  else
    ((splitSep p.data).foldl (resolveStep fs (isRooted p.data)) (some [])).map
      (fun out => ⟨render (isRooted p.data) out.reverse⟩)

/-- Go's `os.Stat` and `os.Lstat`: the node at the path, `none` being the
error. -/
def os.Stat (fs : FS) (p : String) : Option Node :=
  match os.resolve fs p with
  | some q => FS.stat fs q
  | none => none

/-- A new directory at a cleaned path, in an existing directory. The boolean
is `err == nil`. -/
def FS.mkdir (fs : FS) (p : String) : FS × Bool :=
  match FS.stat fs p with
  | some _ => (fs, false)
  | none =>
    if p ≠ "" ∧ FS.stat fs (filepath.Dir p) = some Node.dir then (GoMap.set fs p Node.dir, true)
    else (fs, false)

/-- A path without its trailing separators; a path of separators only is
kept as it is. -/
def trimSep (p : String) : String :=
  if (dropSepRev p.data.reverse).reverse = [] then p
  else ⟨(dropSepRev p.data.reverse).reverse⟩

/-- Go's `os.Mkdir`: a new directory in an existing directory; the name of
the new directory may be followed by separators. The boolean is
`err == nil`. -/
def os.Mkdir (fs : FS) (p : String) : FS × Bool :=
  match os.resolve fs (trimSep p) with
  | some q => FS.mkdir fs q
  | none => (fs, false)

/-- The recursion of `os.MkdirAll` on the elements of a cleaned path, last
element first: nothing to do when the path exists (an error when it is a
file), otherwise the parent first and then the directory itself. -/
def mkdirAllElems (rooted : Bool) : List (List Char) → FS → FS × Bool
  | [], fs => (fs, true)
  | e :: rest, fs =>
    match FS.stat fs ⟨render rooted (e :: rest).reverse⟩ with
    | some Node.dir => (fs, true)
    | some (Node.file _) => (fs, false)
    | some Node.locked => (fs, false)
    | none =>
      match mkdirAllElems rooted rest fs with
      | (fs1, true) => FS.mkdir fs1 ⟨render rooted (e :: rest).reverse⟩
      | (fs1, false) => (fs1, false)

/-- Go's `os.MkdirAll` on a cleaned path, which is what `filepath.Join` hands
it at every call in the two files. The boolean is `err == nil`. -/
def os.MkdirAll (fs : FS) (p : String) : FS × Bool :=
  if p = "" then (fs, false)
  else mkdirAllElems (isRooted p.data) (pathElems p).reverse fs

/-- Go's `ioutil.WriteFile` on a cleaned path, which is what `filepath.Join`
hands it at every call in the two files: creates or truncates the regular file
at `p`; `none` is the error (the path is a directory or a file that may not be
opened, or it is not in a directory). -/
def ioutil.WriteFile (fs : FS) (p : String) (data : FileData) : Option FS :=
  match FS.stat fs p with
  | some Node.dir => none
  | some Node.locked => none
  | _ =>
    if p ≠ "" ∧ FS.stat fs (filepath.Dir p) = some Node.dir then
      some (GoMap.set fs p (Node.file data))
    else none

/-- The bytes of the regular file at a cleaned path; `none` is the error. -/
def FS.read (fs : FS) (p : String) : Option FileData :=
  match FS.stat fs p with
  | some (Node.file data) => some data
  | _ => none

/-- Go's `ioutil.ReadFile`; `none` is the error. -/
def ioutil.ReadFile (fs : FS) (p : String) : Option FileData :=
  match os.resolve fs p with
  | some q => FS.read fs q
  | none => none

/-- Whether some entry lies directly in the directory `p`. -/
def hasChild (fs : FS) (p : String) : Bool :=
  fs.any (fun e => decide (e.1 ≠ p) && decide (filepath.Dir e.1 = p))

/-- Go's `os.Remove` on a cleaned path, which is what `filepath.Join` hands
it at every call in the two files: unlinks a regular file or removes an empty
directory; in every other case the file system stays as it is (the error is
dropped by every caller). -/
def os.Remove (fs : FS) (p : String) : FS :=
  if p = "" ∨ implicitDir p = true then fs
  else
    match GoMap.get fs p with
    | some (Node.file _) => GoMap.del fs p
    | some Node.locked => GoMap.del fs p
    | some Node.dir => if hasChild fs p then fs else GoMap.del fs p
    | none => fs

/-- Code-point order on strings; Go compares bytes, which orders UTF-8 text
the same way. -/
def ltChars : List Char → List Char → Bool
  | _, [] => false
  | [], _ :: _ => true
  | a :: as, b :: bs =>
    if a.val < b.val then true
    else if b.val < a.val then false
    else ltChars as bs

/-- The order in which `filepath.Walk` meets two paths below its root, given
by their elements: a directory before what it holds, the names in a directory
in increasing order. -/
def ltElems : List (List Char) → List (List Char) → Bool
  | _, [] => false
  | [], _ :: _ => true
  | a :: as, b :: bs =>
    if ltChars a b then true
    else if ltChars b a then false
    else ltElems as bs

/-- Insertion into a list sorted by `ltElems` on the first component. -/
def insertEntry (x : List (List Char) × String) :
    List (List (List Char) × String) → List (List (List Char) × String)
  | [] => [x]
  | y :: ys => if ltElems x.1 y.1 then x :: y :: ys else y :: insertEntry x ys

/-- Insertion sort by `ltElems` on the first component. -/
def sortEntries : List (List (List Char) × String) → List (List (List Char) × String)
  | [] => []
  | x :: xs => insertEntry x (sortEntries xs)

/-- The elements of a path below a root, given the elements of both. -/
def stripElems : List (List Char) → List (List Char) → Option (List (List Char))
  | [], rest => some rest
  | _ :: _, [] => none
  | a :: as, b :: bs => if a = b then stripElems as bs else none

/-- An entry of the file system strictly below `root`, with its elements
relative to the root: names of directory entries, so none of them `..`. Only
cleaned paths are entries. -/
def entryBelow (root : String) (k : String) : Option (List (List Char) × String) :=
  if filepath.Clean k = k ∧ isRooted k.data = isRooted root.data then
    match stripElems (pathElems root) (pathElems k) with
    | some (e :: es) => if (e :: es).all normalElem then some (e :: es, k) else none
    | _ => none
  else none

/-- The paths `filepath.Walk(root, fn)` hands to `fn`, in order: the root as
it is given, and when it is a directory everything below it, depth first with
the names of each directory sorted; what is below is handed over as
`filepath.Join(dir, name)`, a cleaned path. -/
def filepath.walkOrder (fs : FS) (root : String) : List String :=
  match os.Stat fs root with
  | none => []
  | some (Node.file _) => [root]
  | some Node.locked => [root]
  | some Node.dir =>
    root ::
      (sortEntries ((GoMap.keys fs).filterMap (entryBelow (filepath.Clean root)))).map Prod.snd

/-! ## mounts.go -/

/-- Go's `strings.ToLower` on the ASCII letters. Go also lowers letters outside
ASCII; none of those becomes a letter of `yes` or `true`. -/
def strings.ToLower (s : String) : String := ⟨s.data.map Char.toLower⟩

/-- Modelled from the spec: `mountpoint` is not in the source files at hand;
the host directory is `root/name`, normalized. -/
def mountpoint (root name : String) : String := filepath.Join [root, name]

/-- The record of a volume, Go's `mount`. -/
structure mount where
  name : String
  hostdir : String
  connections : Int
  opts : Opts
  managed : Bool
deriving DecidableEq, Repr

/-- The registry, Go's `mountManager`. The map holds the records themselves
where Go holds pointers to them. -/
structure mountManager where
  root : String
  mounts : GoMap mount
deriving DecidableEq, Repr

/-- A Go `error`: `none` is `nil`, otherwise the message. -/
abbrev GoError := Option String

def mountManager.HasMount (m : mountManager) (name : String) : Bool :=
  (GoMap.get m.mounts name).isSome

def mountManager.HasOptions (m : mountManager) (name : String) : Bool :=
  match GoMap.get m.mounts name with
  | some c => decide (c.opts ≠ none) && decide (Opts.len c.opts > 0)
  | none => false

def mountManager.HasOption (m : mountManager) (name key : String) : Bool :=
  if m.HasOptions name then
    match GoMap.get m.mounts name with
    | some c => (Opts.get c.opts key).isSome
    | none => false
  else false

def mountManager.GetOptions (m : mountManager) (name : String) : Opts :=
  if m.HasOptions name then
    match GoMap.get m.mounts name with
    | some c => c.opts
    | none => none
  else some []

def mountManager.GetOption (m : mountManager) (name key : String) : String :=
  if m.HasOption name key then
    match GoMap.get m.mounts name with
    | some c => (Opts.get c.opts key).getD ""
    | none => ""
  else ""

def mountManager.GetOptionAsBool (m : mountManager) (name key : String) : Bool :=
  let rv := strings.ToLower (m.GetOption name key)
  if rv = "yes" ∨ rv = "true" then true else false

def mountManager.IsActiveMount (m : mountManager) (name : String) : Bool :=
  match GoMap.get m.mounts name with
  | some c => decide (c.connections > 0)
  | none => false

def mountManager.Count (m : mountManager) (name : String) : Int :=
  match GoMap.get m.mounts name with
  | some c => c.connections
  | none => 0

/-- The largest value of Go's `int`, 2^63 - 1. -/
def maxInt : Int := 9223372036854775807

/-- Go's `int` arithmetic: a result taken into the 64 bits of two's
complement, so 2^63 becomes -2^63. -/
def wrapInt (x : Int) : Int :=
  (x + 9223372036854775808) % 18446744073709551616 - 9223372036854775808

/-- The new count (0 for an absent name) and the registry; `c.connections++`
wraps as Go's `int` does. -/
def mountManager.Increment (m : mountManager) (name : String) : Int × mountManager :=
  match GoMap.get m.mounts name with
  | some c =>
    (wrapInt (c.connections + 1),
      { m with
        mounts := GoMap.set m.mounts name { c with connections := wrapInt (c.connections + 1) } })
  | none => (0, m)

def mountManager.Decrement (m : mountManager) (name : String) : Int × mountManager :=
  match GoMap.get m.mounts name with
  | some c =>
    if c.connections > 0 then
      (0, { m with mounts := GoMap.set m.mounts name { c with connections := c.connections - 1 } })
    else (0, m)
  | none => (0, m)

def mountManager.Add (m : mountManager) (name : String) : mountManager :=
  match GoMap.get m.mounts name with
  | some _ => (m.Increment name).2
  | none =>
    let mnt : mount :=
      { name := name, hostdir := mountpoint m.root name, managed := false, connections := 1,
        opts := none }
    { m with mounts := GoMap.set m.mounts name mnt }

/-- The path of the metadata file `Create` writes. -/
def createFilePath (root name : String) : String :=
  filepath.Join [filepath.Join [root, ".meta", (filepath.Split name).1], filepath.Base name]

/-- The second half of `Create`, after the test for an active record: make
the directory, write the options, put a fresh managed record in the map.
`none` is the panic on a failed write. -/
def mountManager.createManaged (m : mountManager) (fs : FS) (name : String) (opts : Opts) :
    Option (mount × mountManager × FS) :=
  let subpath := (filepath.Split name).1
  let path := filepath.Join [m.root, ".meta", subpath]
  let fs1 := (os.MkdirAll fs path).1
  let filePath := filepath.Join [path, filepath.Base name]
  let data := json.Marshal opts
  match ioutil.WriteFile fs1 filePath data with
  | none => none
  | some fs2 =>
    let mnt : mount :=
      { name := name, hostdir := mountpoint m.root name, managed := true, opts := opts,
        connections := 0 }
    some (mnt, { m with mounts := GoMap.set m.mounts name mnt }, fs2)

/-- The record returned, the registry and the file system; `none` is the panic
on a failed write. -/
def mountManager.Create (m : mountManager) (fs : FS) (name : String) (opts : Opts) :
    Option (mount × mountManager × FS) :=
  match GoMap.get m.mounts name with
  | some c =>
    if c.connections > 0 then
      some ({ c with opts := opts },
        { m with mounts := GoMap.set m.mounts name { c with opts := opts } }, fs)
    else m.createManaged fs name opts
  | none => m.createManaged fs name opts

def mountManager.Delete (m : mountManager) (fs : FS) (name : String) :
    GoError × mountManager × FS :=
  if m.HasMount name then
    if m.Count name < 1 then
      (none, { m with mounts := GoMap.del m.mounts name },
        os.Remove fs (filepath.Join [m.root, ".meta", name]))
    else (some "Volume is currently in use", m, fs)
  else (none, m, fs)

/-- Go's `m.mounts[name].managed` behind the guard `m.HasMount(name)`. -/
def mountManager.isManaged (m : mountManager) (name : String) : Bool :=
  match GoMap.get m.mounts name with
  | some c => c.managed
  | none => false

def mountManager.DeleteIfNotManaged (m : mountManager) (fs : FS) (name : String) :
    GoError × mountManager × FS :=
  if m.HasMount name && !m.IsActiveMount name && !m.isManaged name then
    m.Delete fs name
  else (none, m, fs)

/-- The name and mount point of every record, Go's `[]*volume.Volume`. -/
def mountManager.GetVolumes (m : mountManager) : List (String × String) :=
  (GoMap.keys m.mounts).filterMap
    (fun k => (GoMap.get m.mounts k).map (fun c => (c.name, c.hostdir)))

/-- The callback `NewVolumeManager` gives to `filepath.Walk`, at one path:
a directory is passed over, a file that reads and decodes is handed to
`Create` under the base name of its path. `none` is a panic (of `Create`, or
of `f.IsDir()` when the path is gone and `f` is nil). -/
def loadEntry (st : mountManager × FS) (path : String) : Option (mountManager × FS) :=
  match os.Stat st.2 path with
  | none => none
  | some Node.dir => some st
  | some _ =>
    match ioutil.ReadFile st.2 path with
    | none => some st
    | some content =>
      match json.Unmarshal content with
      | some opts =>
        match st.1.Create st.2 (filepath.Base path) opts with
        | some r => some (r.2.1, r.2.2)
        | none => none
      | none => some st

/-- The callback along the paths of a walk. -/
def loadEntries : List String → mountManager × FS → Option (mountManager × FS)
  | [], st => some st
  | p :: ps, st =>
    match loadEntry st p with
    | some st1 => loadEntries ps st1
    | none => none

/-- The registry over `root` and the file system it leaves. `filepath.Walk`
reads the names in a directory before it visits them, and the callback only
ever writes regular files directly in the metadata directory, so the paths
visited are those of the file system at the start; what is read at each is
the file as it is by then. `none` is a panic. -/
def NewVolumeManager (root : String) (fs : FS) : Option (mountManager × FS) :=
  let m : mountManager := { root := root, mounts := [] }
  let metaPath := filepath.Join [root, ".meta"]
  match os.Stat fs metaPath with
  | none => some (m, (os.Mkdir fs metaPath).1)
  | some _ => loadEntries (filepath.walkOrder fs metaPath) (m, fs)

/-! ## Sequences of calls -/

/-- A call of one of the mutating operations of the registry. -/
inductive Op where
  | Add (name : String)
  | Create (name : String) (opts : Opts)
  | Increment (name : String)
  | Decrement (name : String)
  | Delete (name : String)
  | DeleteIfNotManaged (name : String)
deriving DecidableEq, Repr

/-- One call on a registry and its file system; `none` is a panic. -/
def step (st : mountManager × FS) : Op → Option (mountManager × FS)
  | Op.Add name => some (st.1.Add name, st.2)
  | Op.Create name opts =>
    match st.1.Create st.2 name opts with
    | some r => some (r.2.1, r.2.2)
    | none => none
  | Op.Increment name => some ((st.1.Increment name).2, st.2)
  | Op.Decrement name => some ((st.1.Decrement name).2, st.2)
  | Op.Delete name => some ((st.1.Delete st.2 name).2.1, (st.1.Delete st.2 name).2.2)
  | Op.DeleteIfNotManaged name =>
    some ((st.1.DeleteIfNotManaged st.2 name).2.1, (st.1.DeleteIfNotManaged st.2 name).2.2)

/-- A sequence of calls, stopping at the first panic. -/
def run : mountManager × FS → List Op → Option (mountManager × FS)
  | st, [] => some st
  | st, op :: ops =>
    match step st op with
    | some st1 => run st1 ops
    | none => none

/-! ## mount_store.go -/

/-- The metadata store, Go's `mountStore`; the path is kept as the caller
wrote it. -/
structure mountStore where
  metaDataPath : String
deriving DecidableEq, Repr

def NewVolumeStore (metaDataPath : String) : mountStore := { metaDataPath := metaDataPath }

/-- The callback `GetMounts` gives to `filepath.Walk`, at one path: a directory
is passed over, a file that reads and decodes is put in the map under its path
relative to the store (the empty name when `filepath.Rel` fails, its error
being dropped). `none` is the panic of `f.IsDir()` on a nil `f`. -/
def storeEntry (m : mountStore) (fs : FS) (mounts : GoMap Opts) (path : String) :
    Option (GoMap Opts) :=
  match os.Stat fs path with
  | none => none
  | some Node.dir => some mounts
  | some _ =>
    match ioutil.ReadFile fs path with
    | none => some mounts
    | some content =>
      match json.Unmarshal content with
      | some opts =>
        some (GoMap.set mounts ((filepath.Rel m.metaDataPath path).getD "") opts)
      | none => some mounts

/-- The callback along the paths of a walk. -/
def storeEntries (m : mountStore) (fs : FS) : List String → GoMap Opts → Option (GoMap Opts)
  | [], mounts => some mounts
  | p :: ps, mounts =>
    match storeEntry m fs mounts p with
    | some mounts1 => storeEntries m fs ps mounts1
    | none => none

/-- The map of names to options and the file system it leaves (with the
store's directory made when it was not there). `none` is a panic. -/
def mountStore.GetMounts (m : mountStore) (fs : FS) : Option (GoMap Opts × FS) :=
  match os.Stat fs m.metaDataPath with
  | none => some ([], (os.Mkdir fs m.metaDataPath).1)
  | some _ =>
    match storeEntries m fs (filepath.walkOrder fs m.metaDataPath) [] with
    | some mounts => some (mounts, fs)
    | none => none

/-- The path of the file `mountStore.Add` writes. -/
def storeFilePath (root name : String) : String :=
  filepath.Join [filepath.Join [root, (filepath.Split name).1], filepath.Base name]

/-- The file system after the write; `none` is the panic on a failed write. -/
def mountStore.Add (m : mountStore) (fs : FS) (name : String) (opts : Opts) : Option FS :=
  let subpath := (filepath.Split name).1
  let path := filepath.Join [m.metaDataPath, subpath]
  let fs1 := (os.MkdirAll fs path).1
  let filePath := filepath.Join [path, filepath.Base name]
  let data := json.Marshal opts
  ioutil.WriteFile fs1 filePath data

def mountStore.Remove (m : mountStore) (fs : FS) (name : String) : FS :=
  os.Remove fs (filepath.Join [m.metaDataPath, name])

/-! ## Volume names -/

/-- A clean relative name: elements joined by single separators, none of them
empty, `.` or `..`; so the name is not empty and neither starts nor ends with
a separator. -/
def cleanName (name : String) : Bool := (splitSep name.data).all normalElem

/-- The output of the loop of `filepath.Clean` on a path, last element first. -/
def stackOf (p : List Char) : List (List Char) :=
  (splitSep p).foldl (cleanStep (isRooted p)) []

/-- The shape of the output of `filepath.Clean`, last element first: kept
elements on top of a run of `..` elements, and no `..` in a rooted path. -/
def StackOK (r : Bool) (out : List (List Char)) : Prop :=
  ∃ ns ds, out = ns ++ ds ∧ (∀ e ∈ ns, normalElem e = true) ∧ (∀ e ∈ ds, e = ['.', '.'])
    ∧ (r = true → ds = [])

/-- The text that `filepath.Join` cleans for the metadata directory of a
root: `root/.meta`, or `.meta` when the root is the empty string. -/
def metaChars (root : String) : List Char :=
  if root = "" then ['.', 'm', 'e', 't', 'a'] else root.data ++ '/' :: ['.', 'm', 'e', 't', 'a']

/-! ## Invariants -/

/-- No record has a negative number of connections. -/
def NonNeg (m : mountManager) : Prop :=
  ∀ name c, GoMap.get m.mounts name = some c → 0 ≤ c.connections

/-- Two option maps with the same bindings; the nil map and the empty map
have the same bindings, none. -/
def Opts.same (a b : Opts) : Prop := ∀ key, Opts.get a key = Opts.get b key

/-- The keys of an options map, none for the nil map. -/
def Opts.keys : Opts → List String
  | none => []
  | some m => GoMap.keys m

/-- `Opts.same`, decided on the keys of the two maps. -/
def Opts.sameb (a b : Opts) : Bool :=
  (Opts.keys a ++ Opts.keys b).all (fun key => decide (Opts.get a key = Opts.get b key))

/-- The options decoded from the file at `Join(root, ".meta", name)`; `none`
when there is no regular file there or its bytes do not decode. -/
def metaFileOpts (st : mountManager × FS) (name : String) : Option Opts :=
  (ioutil.ReadFile st.2 (filepath.Join [st.1.root, ".meta", name])).bind json.Unmarshal

/-- Every managed record has a metadata file at `Join(root, ".meta", name)`
whose decoded content is, as a map, `GetOptions(name)`. -/
def ManagedFilesOK (st : mountManager × FS) : Prop :=
  ∀ name c, GoMap.get st.1.mounts name = some c → c.managed = true →
    ∃ o, metaFileOpts st name = some o ∧ Opts.same o (st.1.GetOptions name)

/-- The invariant behind `ManagedFilesOK`: a managed record has a clean name,
and its metadata file holds the JSON of options that are, as a map, its
options. -/
def ManagedInv (st : mountManager × FS) : Prop :=
  ∀ name c, GoMap.get st.1.mounts name = some c → c.managed = true →
    cleanName name = true ∧
      ∃ o, FS.read st.2 (filepath.Join [st.1.root, ".meta", name]) = some (json.Marshal o)
        ∧ Opts.same o c.opts

/-- No record has a connection. -/
def Idle (m : mountManager) : Prop :=
  ∀ name c, GoMap.get m.mounts name = some c → c.connections ≤ 0

/-- A call that keeps metadata files and managed records in step: `Delete`
and `DeleteIfNotManaged` on a clean name; `Create` on a clean name when the
name has no record with connections, and otherwise, on a record with
connections, `Create` when the record is not managed or the options given are,
as a map, the ones it has; any `Add`, `Increment` and `Decrement`. -/
def stepOK (st : mountManager × FS) : Op → Bool
  | Op.Create name opts =>
    match GoMap.get st.1.mounts name with
    | some c =>
      if c.connections > 0 then !c.managed || Opts.sameb c.opts opts else cleanName name
    | none => cleanName name
  | Op.Delete name => cleanName name
  | Op.DeleteIfNotManaged name => cleanName name
  | _ => true

/-- Every call of a run is `stepOK` in the state it is made in. -/
def runOK : mountManager × FS → List Op → Bool
  | _, [] => true
  | st, op :: ops =>
    stepOK st op &&
      match step st op with
      | some st1 => runOK st1 ops
      | none => true

/-- A call that does not take a counter past the largest `int`: `Add` and
`Increment` on a name whose count is below 2^63 - 1, and every other call. -/
def stepNoWrap (st : mountManager × FS) : Op → Bool
  | Op.Add name => decide (st.1.Count name < maxInt)
  | Op.Increment name => decide (st.1.Count name < maxInt)
  | _ => true

/-- Every call of a run is `stepNoWrap` in the state it is made in. -/
def runNoWrap : mountManager × FS → List Op → Bool
  | _, [] => true
  | st, op :: ops =>
    stepNoWrap st op &&
      match step st op with
      | some st1 => runNoWrap st1 ops
      | none => true

/-! ## Example states -/

/-- A file system with the directory `/tmp/r1` and nothing in it. -/
def demoFS : FS := [("/tmp", Node.dir), ("/tmp/r1", Node.dir)]

/-- A registry over `/tmp/r1` holding one unmanaged record with one connection. -/
def demoActive : mountManager :=
  { root := "/tmp/r1",
    mounts := [("v3", { name := "v3", hostdir := "/tmp/r1/v3", connections := 1, opts := none,
                        managed := false })] }

/-- A registry over `/tmp/r1` holding one unmanaged record without connections. -/
def demoIdle : mountManager :=
  { root := "/tmp/r1",
    mounts := [("v4", { name := "v4", hostdir := "/tmp/r1/v4", connections := 0, opts := none,
                        managed := false })] }

/-- The empty registry over `/tmp/r1`. -/
def demoEmpty : mountManager := { root := "/tmp/r1", mounts := [] }

/-- The options of scenario S5. -/
def demoOpts : Opts := some [("share", "x")]

/-- The registry after `Create("tenantA/v6", demoOpts)` on a new registry over
`/tmp/r1`. -/
def demoNested : mountManager :=
  { root := "/tmp/r1",
    mounts := [("tenantA/v6", { name := "tenantA/v6", hostdir := "/tmp/r1/tenantA/v6",
                                connections := 0, opts := demoOpts, managed := true })] }

/-- The file system after `Create("tenantA/v6", demoOpts)` on a new registry
over `/tmp/r1`. -/
def demoNestedFS : FS :=
  [("/tmp/r1/.meta/tenantA/v6", Node.file (FileData.json demoOpts)),
   ("/tmp/r1/.meta/tenantA", Node.dir), ("/tmp/r1/.meta", Node.dir),
   ("/tmp", Node.dir), ("/tmp/r1", Node.dir)]

/-- The new registry over `/tmp/r1` on `demoFS`, with the metadata directory
it makes. -/
def demoNew : mountManager × FS := (demoEmpty, ("/tmp/r1/.meta", Node.dir) :: demoFS)

/-- The state after `Create("v1", {share: a})`, `Increment("v1")` and
`Create("v1", {share: b})` on `demoNew`. -/
def demoStale : mountManager × FS :=
  ({ root := "/tmp/r1",
     mounts := [("v1", { name := "v1", hostdir := "/tmp/r1/v1", connections := 1,
                         opts := some [("share", "b")], managed := true })] },
   [("/tmp/r1/.meta/v1", Node.file (FileData.json (some [("share", "a")]))),
    ("/tmp/r1/.meta", Node.dir), ("/tmp", Node.dir), ("/tmp/r1", Node.dir)])

/-- The state after `Create("v1", {share: a})` and `Create("./v1", {share: b})`
on `demoNew`. -/
def demoShared : mountManager × FS :=
  ({ root := "/tmp/r1",
     mounts := [("./v1", { name := "./v1", hostdir := "/tmp/r1/v1", connections := 0,
                           opts := some [("share", "b")], managed := true }),
                ("v1", { name := "v1", hostdir := "/tmp/r1/v1", connections := 0,
                         opts := some [("share", "a")], managed := true })] },
   [("/tmp/r1/.meta/v1", Node.file (FileData.json (some [("share", "b")]))),
    ("/tmp/r1/.meta", Node.dir), ("/tmp", Node.dir), ("/tmp/r1", Node.dir)])

/-- The state after `Create("v1", {share: a})`, `Add("./v1")`,
`Decrement("./v1")` and `Delete("./v1")` on `demoNew`. -/
def demoRemoved : mountManager × FS :=
  ({ root := "/tmp/r1",
     mounts := [("v1", { name := "v1", hostdir := "/tmp/r1/v1", connections := 0,
                         opts := some [("share", "a")], managed := true })] },
   [("/tmp/r1/.meta", Node.dir), ("/tmp", Node.dir), ("/tmp/r1", Node.dir)])

/-- A registry whose record `v1` has the options of scenario S1, in capitals,
and a flag set to `1`. -/
def demoBool : mountManager :=
  { root := "/tmp/r1",
    mounts := [("v1", { name := "v1", hostdir := "/tmp/r1/v1", connections := 0,
                        opts := some [("share", "a/b"), ("create", "TRUE"), ("flag", "1")],
                        managed := true })] }

/-- The name an operation is called with. -/
def Op.name : Op → String
  | Op.Add name => name
  | Op.Create name _ => name
  | Op.Increment name => name
  | Op.Decrement name => name
  | Op.Delete name => name
  | Op.DeleteIfNotManaged name => name

/-- A registry with an idle managed record `v1` and an active unmanaged record
`v2`. -/
def demoTwo : mountManager :=
  { root := "/tmp/r1",
    mounts := [("v1", { name := "v1", hostdir := "/tmp/r1/v1", connections := 0,
                        opts := some [("share", "a")], managed := true }),
               ("v2", { name := "v2", hostdir := "/tmp/r1/v2", connections := 2, opts := none,
                        managed := false })] }

/-- The state after `Create("v7/", demoOpts)` on `demoNew`: the file is
`/tmp/r1/.meta/v7/v7`. -/
def demoTrailing : mountManager × FS :=
  ({ root := "/tmp/r1",
     mounts := [("v7/", { name := "v7/", hostdir := "/tmp/r1/v7", connections := 0,
                          opts := demoOpts, managed := true })] },
   [("/tmp/r1/.meta/v7/v7", Node.file (FileData.json demoOpts)),
    ("/tmp/r1/.meta/v7", Node.dir), ("/tmp/r1/.meta", Node.dir), ("/tmp", Node.dir),
    ("/tmp/r1", Node.dir)])

/-- A path strictly below a directory, as texts: the directory, a separator,
and more. -/
def pathBelow (dir p : String) : Prop := ∃ rest, p.data = dir.data ++ '/' :: rest

/-- What stands before the last element in the text of a cleaned path. -/
def renderFront (r : Bool) (es : List (List Char)) : List Char :=
  if es = [] then (if r then ['/'] else []) else render r es ++ ['/']

/-- The state after `Create("../x", demoOpts)` on `demoNew`: the file is
`/tmp/r1/x`, next to the metadata directory. -/
def demoEscaped : mountManager × FS :=
  ({ root := "/tmp/r1",
     mounts := [("../x", { name := "../x", hostdir := "/tmp/x", connections := 0,
                           opts := demoOpts, managed := true })] },
   [("/tmp/r1/x", Node.file (FileData.json demoOpts)), ("/tmp/r1/.meta", Node.dir),
    ("/tmp", Node.dir), ("/tmp/r1", Node.dir)])

/-- The registry over `/tmp/r1` with the one unmanaged record `v2` and the
given number of connections: what calls of `Add("v2")` on a new registry
leave. -/
def demoCounted (connections : Int) : mountManager :=
  { root := "/tmp/r1",
    mounts := [("v2", { name := "v2", hostdir := "/tmp/r1/v2", connections := connections,
                        opts := none, managed := false })] }

/-- The registry after 2^63 - 1 calls of `Add("v2")` on a new registry over
`/tmp/r1`: the counter is the largest `int`. -/
def demoFull : mountManager := demoCounted 9223372036854775807

/-- The registry after 2^63 calls of `Add("v2")`: the counter has wrapped. -/
def demoWrapped : mountManager := demoCounted (-9223372036854775808)

/-- The paths of the walk that hold a regular file whose content decodes. -/
def decodableFiles (fs : FS) (metaPath : String) : List String :=
  (filepath.walkOrder fs metaPath).filter
    (fun p =>
      match ioutil.ReadFile fs p with
      | some content => (json.Unmarshal content).isSome
      | none => false)

/-- The file system after `Create("a/x", {share: a})` and
`Create("b/x", {share: b})` on a new registry over `/tmp/r1`. -/
def demoTwinsFS : FS :=
  [("/tmp/r1/.meta/b/x", Node.file (FileData.json (some [("share", "b")]))),
   ("/tmp/r1/.meta/b", Node.dir),
   ("/tmp/r1/.meta/a/x", Node.file (FileData.json (some [("share", "a")]))),
   ("/tmp/r1/.meta/a", Node.dir), ("/tmp/r1/.meta", Node.dir),
   ("/tmp", Node.dir), ("/tmp/r1", Node.dir)]

/-- The file system after `Create("a/a", demoOpts)` on a new registry over
`/tmp/r1`. -/
def demoSelfNestedFS : FS :=
  [("/tmp/r1/.meta/a/a", Node.file (FileData.json demoOpts)),
   ("/tmp/r1/.meta/a", Node.dir), ("/tmp/r1/.meta", Node.dir),
   ("/tmp", Node.dir), ("/tmp/r1", Node.dir)]

/-- The record `Create` puts in the map when it writes the metadata file. -/
def freshRecord (root name : String) (opts : Opts) : mount :=
  { name := name, hostdir := mountpoint root name, connections := 0, opts := opts,
    managed := true }

/-- A name of one element that `filepath.Clean` keeps: what `filepath.Base`
gives for a path of the walk. -/
def plainName (b : String) : Prop := normalElem b.data = true ∧ '/' ∉ b.data

/-- How a load over a file system with a file `k` that does not decode (the
state `st`) stands to the load over the file system without `k` (the state
`st2`): the same records; no connections; the metadata path there; the same
nodes at every path but `k`; and at `k` either the file that does not decode
on one side and nothing on the other, or on both sides the options of the
record of its base name, written there by `Create`. -/
def SkipSim (root k : String) (st st2 : mountManager × FS) : Prop :=
  st.1.root = root ∧ st2.1.root = root
    ∧ (∀ n, GoMap.get st.1.mounts n = GoMap.get st2.1.mounts n)
    ∧ Idle st.1
    ∧ FS.stat st.2 (filepath.Join [root, ".meta"]) ≠ none
    ∧ FS.stat st2.2 (filepath.Join [root, ".meta"]) ≠ none
    ∧ (∀ p, p ≠ k → FS.stat st.2 p = FS.stat st2.2 p)
    ∧ (((∃ b, FS.stat st.2 k = some (Node.file (FileData.garbage b))) ∧ FS.stat st2.2 k = none)
        ∨ ∃ o, FS.stat st.2 k = some (Node.file (FileData.json o))
            ∧ FS.stat st2.2 k = some (Node.file (FileData.json o))
            ∧ FS.stat st.2 (filepath.Dir k) = some Node.dir
            ∧ plainName (filepath.Base k)
            ∧ createFilePath root (filepath.Base k) = k
            ∧ GoMap.get st.1.mounts (filepath.Base k)
                = some (freshRecord root (filepath.Base k) o))

/-- A metadata directory with the decodable file `a/x` and a file `x` that the
process may not open. -/
def demoLockedFS : FS :=
  [("/tmp/r1/.meta/x", Node.locked),
   ("/tmp/r1/.meta/a/x", Node.file (FileData.json (some [("share", "a")]))),
   ("/tmp/r1/.meta/a", Node.dir),
   ("/tmp/r1/.meta", Node.dir), ("/tmp", Node.dir), ("/tmp/r1", Node.dir)]

/-- A metadata directory with a file that decodes and one that does not. -/
def demoCorruptFS : FS :=
  [("/tmp/r1/.meta/bad", Node.file (FileData.garbage "not-json")),
   ("/tmp/r1/.meta/v1", Node.file (FileData.json demoOpts)),
   ("/tmp/r1/.meta", Node.dir), ("/tmp", Node.dir), ("/tmp/r1", Node.dir)]

/-- What holds of a state of the load over the file system `fs0` along the
paths `all`: no connections; the metadata path there; every record has the base
name of a path of the walk whose file decoded in `fs0`; and a path whose node
is not as in `fs0` has a record under its base name. -/
def Supplied (fs0 : FS) (all : List String) (st : mountManager × FS) : Prop :=
  Idle st.1
    ∧ FS.stat st.2 (filepath.Join [st.1.root, ".meta"]) ≠ none
    ∧ (∀ n, GoMap.get st.1.mounts n ≠ none →
        ∃ p o, p ∈ all ∧ FS.read fs0 p = some (FileData.json o) ∧ filepath.Base p = n)
    ∧ (∀ q, FS.stat st.2 q ≠ FS.stat fs0 q → GoMap.get st.1.mounts (filepath.Base q) ≠ none)

/-! ## Go maps: lookups after updates -/

theorem GoMap.get_cons {V : Type} (k : String) (v : V) (rest : GoMap V) (key : String) :
    GoMap.get ((k, v) :: rest) key = if k = key then some v else GoMap.get rest key := rfl

theorem GoMap.del_cons {V : Type} (k : String) (v : V) (rest : GoMap V) (key : String) :
    GoMap.del ((k, v) :: rest) key
      = if k = key then GoMap.del rest key else (k, v) :: GoMap.del rest key := by
  by_cases h : k = key <;> simp [GoMap.del, List.filter, h]

theorem GoMap.get_del_self {V : Type} (m : GoMap V) (k : String) :
    GoMap.get (GoMap.del m k) k = none := by
  induction m with
  | nil => rfl
  | cons e rest ih =>
    obtain ⟨k', v⟩ := e
    rw [GoMap.del_cons]
    by_cases h : k' = k
    · rw [if_pos h]; exact ih
    · rw [if_neg h, GoMap.get_cons, if_neg h]; exact ih

theorem GoMap.get_del_ne {V : Type} (m : GoMap V) (k k' : String) (hne : k' ≠ k) :
    GoMap.get (GoMap.del m k) k' = GoMap.get m k' := by
  induction m with
  | nil => rfl
  | cons e rest ih =>
    obtain ⟨k'', v⟩ := e
    rw [GoMap.del_cons, GoMap.get_cons]
    by_cases h : k'' = k
    · have h2 : k'' ≠ k' := fun h3 => hne (h3 ▸ h)
      rw [if_pos h, if_neg h2]; exact ih
    · rw [if_neg h, GoMap.get_cons]
      by_cases h2 : k'' = k'
      · rw [if_pos h2, if_pos h2]
      · rw [if_neg h2, if_neg h2]; exact ih

theorem GoMap.get_set_self {V : Type} (m : GoMap V) (k : String) (v : V) :
    GoMap.get (GoMap.set m k v) k = some v := by
  simp [GoMap.set, GoMap.get]

theorem GoMap.get_set_ne {V : Type} (m : GoMap V) (k k' : String) (v : V) (hne : k' ≠ k) :
    GoMap.get (GoMap.set m k v) k' = GoMap.get m k' := by
  have h : k ≠ k' := fun h => hne h.symm
  simp [GoMap.set, GoMap.get, h, GoMap.get_del_ne m k k' hne]

theorem GoMap.mem_keys {V : Type} (m : GoMap V) (k : String) :
    k ∈ GoMap.keys m ↔ GoMap.get m k ≠ none := by
  induction m with
  | nil => simp [GoMap.keys, GoMap.get]
  | cons e rest ih =>
    obtain ⟨k1, v⟩ := e
    simp only [GoMap.keys, GoMap.get, List.mem_cons, List.mem_filter]
    by_cases h : k1 = k
    · subst h
      simp
    · have h2 : k ≠ k1 := fun e => h e.symm
      simp [h, h2, ih]

theorem GoMap.len_pos_of_get {V : Type} (m : GoMap V) (k : String) (v : V)
    (h : GoMap.get m k = some v) : 0 < GoMap.len m := by
  cases m with
  | nil => simp [GoMap.get] at h
  | cons e rest =>
    obtain ⟨k', v'⟩ := e
    simp [GoMap.len, GoMap.keys]

/-! ## Paths: elements and separators -/

theorem splitSep_ne_nil (x : List Char) : splitSep x ≠ [] := by
  cases x with
  | nil => simp [splitSep]
  | cons c cs =>
    unfold splitSep
    by_cases hc : c = '/'
    · simp [hc]
    · simp only [hc, if_false]
      cases splitSep cs <;> simp

theorem splitSep_cons_ne (c : Char) (cs e : List Char) (es : List (List Char)) (hc : c ≠ '/')
    (h : splitSep cs = e :: es) : splitSep (c :: cs) = (c :: e) :: es := by
  simp [splitSep, hc, h]

theorem splitSep_append_sep (a b : List Char) :
    splitSep (a ++ '/' :: b) = splitSep a ++ splitSep b := by
  induction a with
  | nil => simp [splitSep]
  | cons c cs ih =>
    by_cases hc : c = '/'
    · subst hc
      simp [splitSep, ih]
    · cases hs : splitSep cs with
      | nil => exact absurd hs (splitSep_ne_nil cs)
      | cons e es =>
        rw [splitSep_cons_ne c cs e es hc hs]
        have h2 : splitSep (cs ++ '/' :: b) = e :: (es ++ splitSep b) := by rw [ih, hs]; rfl
        rw [List.cons_append, splitSep_cons_ne c _ e _ hc h2]
        rfl

theorem splitSep_of_no_sep (x : List Char) (h : '/' ∉ x) : splitSep x = [x] := by
  induction x with
  | nil => rfl
  | cons c cs ih =>
    have hc : c ≠ '/' := fun e => h (by simp [e])
    have hcs : '/' ∉ cs := fun e => h (by simp [e])
    exact splitSep_cons_ne c cs cs [] hc (ih hcs)

theorem no_sep_of_mem_splitSep (x e : List Char) (h : e ∈ splitSep x) : '/' ∉ e := by
  induction x generalizing e with
  | nil =>
    simp [splitSep] at h
    subst h
    simp
  | cons c cs ih =>
    by_cases hc : c = '/'
    · subst hc
      simp only [splitSep, if_true, List.mem_cons] at h
      rcases h with h | h
      · subst h; simp
      · exact ih e h
    · cases hs : splitSep cs with
      | nil => exact absurd hs (splitSep_ne_nil cs)
      | cons e1 es =>
        rw [splitSep_cons_ne c cs e1 es hc hs, List.mem_cons] at h
        rcases h with h | h
        · subst h
          have h1 := ih e1 (by rw [hs]; simp)
          intro hm
          rcases List.mem_cons.1 hm with h2 | h2
          · exact hc h2.symm
          · exact h1 h2
        · exact ih e (by rw [hs]; simp [h])

theorem joinSep_cons_cons (e e1 : List Char) (es : List (List Char)) :
    joinSep (e :: e1 :: es) = e ++ '/' :: joinSep (e1 :: es) := rfl

theorem joinSep_splitSep (x : List Char) : joinSep (splitSep x) = x := by
  induction x with
  | nil => rfl
  | cons c cs ih =>
    by_cases hc : c = '/'
    · subst hc
      cases hs : splitSep cs with
      | nil => exact absurd hs (splitSep_ne_nil cs)
      | cons e es =>
        have h1 : splitSep ('/' :: cs) = [] :: e :: es := by simp [splitSep, hs]
        rw [h1, joinSep_cons_cons, ← hs, ih]
        rfl
    · cases hs : splitSep cs with
      | nil => exact absurd hs (splitSep_ne_nil cs)
      | cons e es =>
        rw [splitSep_cons_ne c cs e es hc hs]
        rw [hs] at ih
        cases es with
        | nil =>
          simp only [joinSep] at ih ⊢
          rw [ih]
        | cons e2 es2 =>
          rw [joinSep_cons_cons] at ih ⊢
          rw [← ih]
          rfl

theorem joinSep_append (a b : List (List Char)) (ha : a ≠ []) (hb : b ≠ []) :
    joinSep (a ++ b) = joinSep a ++ '/' :: joinSep b := by
  induction a with
  | nil => exact absurd rfl ha
  | cons e es ih =>
    cases es with
    | nil =>
      cases b with
      | nil => exact absurd rfl hb
      | cons b1 bs => rfl
    | cons e2 es2 =>
      have h := ih (by simp)
      rw [List.cons_append, List.cons_append, joinSep_cons_cons, ← List.cons_append, h,
        joinSep_cons_cons]
      simp

theorem splitSep_joinSep (es : List (List Char)) (hne : es ≠ [])
    (h : ∀ e ∈ es, '/' ∉ e) : splitSep (joinSep es) = es := by
  induction es with
  | nil => exact absurd rfl hne
  | cons e es ih =>
    cases es with
    | nil => exact splitSep_of_no_sep e (h e (by simp))
    | cons e2 es2 =>
      rw [joinSep_cons_cons, splitSep_append_sep, splitSep_of_no_sep e (h e (by simp)),
        ih (by simp) (fun x hx => h x (by simp [hx]))]
      rfl

/-! ## Paths: the loop of Clean -/

theorem normalElem_iff (e : List Char) :
    normalElem e = true ↔ e ≠ [] ∧ e ≠ ['.'] ∧ e ≠ ['.', '.'] := by
  simp [normalElem, and_assoc]

theorem cleanStep_normal (r : Bool) (out : List (List Char)) (e : List Char)
    (h : normalElem e = true) : cleanStep r out e = e :: out := by
  obtain ⟨h1, h2, h3⟩ := (normalElem_iff e).1 h
  simp [cleanStep, h1, h2, h3]

theorem cleanStep_nil (r : Bool) (out : List (List Char)) : cleanStep r out [] = out := by
  simp [cleanStep]

theorem cleanStep_dot (r : Bool) (out : List (List Char)) : cleanStep r out ['.'] = out := by
  simp [cleanStep]

theorem foldl_cleanStep_normal (r : Bool) (es out : List (List Char))
    (h : ∀ e ∈ es, normalElem e = true) :
    es.foldl (cleanStep r) out = es.reverse ++ out := by
  induction es generalizing out with
  | nil => rfl
  | cons e es ih =>
    rw [List.foldl_cons, cleanStep_normal r out e (h e (by simp)),
      ih (e :: out) (fun x hx => h x (by simp [hx]))]
    simp

theorem StackOK_nil (r : Bool) : StackOK r [] :=
  ⟨[], [], rfl, by simp, by simp, fun _ => rfl⟩

theorem StackOK_step (r : Bool) (out : List (List Char)) (e : List Char) (h : StackOK r out) :
    StackOK r (cleanStep r out e) := by
  obtain ⟨ns, ds, hout, hns, hds, hr⟩ := h
  by_cases h1 : e = [] ∨ e = ['.']
  · have : cleanStep r out e = out := by simp [cleanStep, h1]
    rw [this]
    exact ⟨ns, ds, hout, hns, hds, hr⟩
  · by_cases h2 : e = ['.', '.']
    · subst h2
      cases ns with
      | nil =>
        simp only [List.nil_append] at hout
        subst hout
        cases r with
        | true =>
          have hd : out = [] := hr rfl
          subst hd
          exact ⟨[], [], by simp [cleanStep], by simp, by simp, fun _ => rfl⟩
        | false =>
          refine ⟨[], ['.', '.'] :: out, ?_, by simp, ?_, by simp⟩
          · cases out with
            | nil => simp [cleanStep]
            | cons top rest =>
              have ht : top = ['.', '.'] := hds top (by simp)
              simp [cleanStep, ht]
          · intro x hx
            rcases List.mem_cons.1 hx with hx | hx
            · exact hx
            · exact hds x hx
      | cons top ns1 =>
        have ht := (normalElem_iff top).1 (hns top (by simp))
        refine ⟨ns1, ds, ?_, fun x hx => hns x (by simp [hx]), hds, hr⟩
        subst hout
        simp [cleanStep, ht.2.2]
    · have hn : normalElem e = true := by
        rw [normalElem_iff]
        exact ⟨fun h => h1 (Or.inl h), fun h => h1 (Or.inr h), h2⟩
      rw [cleanStep_normal r out e hn]
      refine ⟨e :: ns, ds, by simp [hout], ?_, hds, hr⟩
      intro x hx
      rcases List.mem_cons.1 hx with hx | hx
      · subst hx; exact hn
      · exact hns x hx

theorem StackOK_foldl (r : Bool) (es out : List (List Char)) (h : StackOK r out) :
    StackOK r (es.foldl (cleanStep r) out) := by
  induction es generalizing out with
  | nil => exact h
  | cons e es ih => exact ih _ (StackOK_step r out e h)

theorem StackOK_stackOf (p : List Char) : StackOK (isRooted p) (stackOf p) :=
  StackOK_foldl _ _ _ (StackOK_nil _)

theorem dots_eq_replicate (ds : List (List Char)) (h : ∀ e ∈ ds, e = ['.', '.']) :
    ds = List.replicate ds.length ['.', '.'] := by
  induction ds with
  | nil => rfl
  | cons d ds ih =>
    rw [List.length_cons, List.replicate_succ, ← ih (fun x hx => h x (by simp [hx])),
      h d (by simp)]

theorem foldl_cleanStep_dots (j k : Nat) :
    (List.replicate k ['.', '.']).foldl (cleanStep false) (List.replicate j ['.', '.'])
      = List.replicate (j + k) ['.', '.'] := by
  induction k generalizing j with
  | zero => rfl
  | succ k ih =>
    rw [List.replicate_succ, List.foldl_cons]
    have h1 : cleanStep false (List.replicate j ['.', '.']) ['.', '.']
        = List.replicate (j + 1) ['.', '.'] := by
      cases j with
      | zero => simp [cleanStep]
      | succ j => simp [cleanStep, List.replicate_succ]
    rw [h1, ih (j + 1)]
    congr 1
    omega

/-- Cleaning the elements of a cleaned path gives the same elements. -/
theorem foldl_cleanStep_reverse (r : Bool) (out : List (List Char)) (h : StackOK r out) :
    out.reverse.foldl (cleanStep r) [] = out := by
  obtain ⟨ns, ds, hout, hns, hds, hr⟩ := h
  subst hout
  rw [List.reverse_append, List.foldl_append]
  have hd : ds.reverse.foldl (cleanStep r) [] = ds := by
    cases r with
    | true => rw [hr rfl]; rfl
    | false =>
      have h1 := dots_eq_replicate ds hds
      have h2 : ds.reverse = ds := by rw [h1, List.reverse_replicate]
      rw [h2]
      have h3 := foldl_cleanStep_dots 0 ds.length
      simp only [List.replicate_zero, Nat.zero_add] at h3
      rw [← h1] at h3
      exact h3
  rw [hd, foldl_cleanStep_normal r ns.reverse ds (fun e he => hns e (List.mem_reverse.1 he))]
  simp

/-! ## Paths: Clean on cleaned paths and on appended names -/

theorem mk_ne_empty (p : List Char) (h : p ≠ []) : (⟨p⟩ : String) ≠ "" := by
  intro e
  exact h (congrArg String.data e)

theorem data_ne_nil (s : String) (h : s ≠ "") : s.data ≠ [] := by
  intro e
  apply h
  cases s
  simp only at e
  subst e
  rfl

theorem Clean_mk (p : List Char) (h : p ≠ []) :
    filepath.Clean ⟨p⟩ = ⟨render (isRooted p) (stackOf p).reverse⟩ := by
  unfold filepath.Clean
  rw [if_neg (mk_ne_empty p h)]
  rfl

theorem mem_cleanStep (r : Bool) (out : List (List Char)) (e x : List Char)
    (h : x ∈ cleanStep r out e) : x = e ∨ x ∈ out := by
  unfold cleanStep at h
  split at h
  · exact Or.inr h
  · split at h
    · split at h
      · split at h
        · cases h
        · simp only [List.mem_singleton] at h
          exact Or.inl h
      · split at h
        · split at h
          · exact Or.inr h
          · rcases List.mem_cons.1 h with h | h
            · exact Or.inl h
            · exact Or.inr h
        · exact Or.inr (List.mem_cons_of_mem _ h)
    · rcases List.mem_cons.1 h with h | h
      · exact Or.inl h
      · exact Or.inr h

theorem no_sep_foldl (r : Bool) (es out : List (List Char)) (hes : ∀ e ∈ es, '/' ∉ e)
    (hout : ∀ e ∈ out, '/' ∉ e) : ∀ e ∈ es.foldl (cleanStep r) out, '/' ∉ e := by
  induction es generalizing out with
  | nil => exact hout
  | cons e es ih =>
    apply ih _ (fun x hx => hes x (by simp [hx]))
    intro x hx
    rcases mem_cleanStep r out e x hx with h | h
    · subst h; exact hes x (by simp)
    · exact hout x h

theorem no_sep_stackOf (p : List Char) : ∀ e ∈ stackOf p, '/' ∉ e :=
  no_sep_foldl _ _ _ (fun e he => no_sep_of_mem_splitSep p e he) (by simp)

theorem StackOK_ne_nil (r : Bool) (out : List (List Char)) (h : StackOK r out) :
    ∀ e ∈ out, e ≠ [] := by
  obtain ⟨ns, ds, hout, hns, hds, _⟩ := h
  intro e he
  subst hout
  rcases List.mem_append.1 he with h1 | h1
  · exact ((normalElem_iff e).1 (hns e h1)).1
  · rw [hds e h1]; simp

theorem head_joinSep (e : List Char) (es : List (List Char)) (h : e ≠ []) :
    (joinSep (e :: es)).head? = e.head? := by
  cases e with
  | nil => exact absurd rfl h
  | cons c cs =>
    cases es with
    | nil => rfl
    | cons e2 es2 => rfl

theorem isRooted_render (r : Bool) (es : List (List Char)) (hne : ∀ e ∈ es, e ≠ [])
    (hns : ∀ e ∈ es, '/' ∉ e) : isRooted (render r es) = r := by
  cases r with
  | true => simp [render, isRooted]
  | false =>
    cases es with
    | nil => simp [render, isRooted]
    | cons e es =>
      have h1 : e ≠ [] := hne e (by simp)
      have h2 : '/' ∉ e := hns e (by simp)
      simp only [render, isRooted, List.cons_ne_nil, if_false, Bool.false_eq_true]
      rw [head_joinSep e es h1]
      cases e with
      | nil => exact absurd rfl h1
      | cons c cs =>
        have hc : c ≠ '/' := fun hc => h2 (by simp [hc])
        simp [hc]

theorem foldl_splitSep_render (r : Bool) (es : List (List Char)) (hns : ∀ e ∈ es, '/' ∉ e) :
    (splitSep (render r es)).foldl (cleanStep r) [] = es.foldl (cleanStep r) [] := by
  cases r with
  | true =>
    have h1 : splitSep (render true es) = [] :: splitSep (joinSep es) := by
      simp [render, splitSep]
    rw [h1, List.foldl_cons, cleanStep_nil]
    cases es with
    | nil => simp [joinSep, splitSep, cleanStep_nil]
    | cons e es => rw [splitSep_joinSep _ (by simp) hns]
  | false =>
    cases es with
    | nil => simp [render, splitSep, cleanStep]
    | cons e es =>
      have h1 : render false (e :: es) = joinSep (e :: es) := by simp [render]
      rw [h1, splitSep_joinSep _ (by simp) hns]

theorem render_ne_nil (r : Bool) (es : List (List Char)) (hne : ∀ e ∈ es, e ≠ []) :
    render r es ≠ [] := by
  cases r with
  | true => simp [render]
  | false =>
    cases es with
    | nil => simp [render]
    | cons e es =>
      have h1 : e ≠ [] := hne e (by simp)
      simp only [render, List.cons_ne_nil, if_false, Bool.false_eq_true]
      cases es with
      | nil => simpa [joinSep] using h1
      | cons e2 es2 => simp [joinSep, h1]

/-- A cleaned path has the rootedness and the elements of the path it came
from. -/
theorem stackOf_Clean (p : List Char) (h : p ≠ []) :
    (filepath.Clean ⟨p⟩).data ≠ []
      ∧ isRooted (filepath.Clean ⟨p⟩).data = isRooted p
      ∧ stackOf (filepath.Clean ⟨p⟩).data = stackOf p := by
  rw [Clean_mk p h]
  have hok := StackOK_stackOf p
  have hne : ∀ e ∈ (stackOf p).reverse, e ≠ [] :=
    fun e he => StackOK_ne_nil _ _ hok e (List.mem_reverse.1 he)
  have hns : ∀ e ∈ (stackOf p).reverse, '/' ∉ e :=
    fun e he => no_sep_stackOf p e (List.mem_reverse.1 he)
  have hr := isRooted_render (isRooted p) _ hne hns
  refine ⟨render_ne_nil _ _ hne, hr, ?_⟩
  show (splitSep (render (isRooted p) (stackOf p).reverse)).foldl
    (cleanStep (isRooted (render (isRooted p) (stackOf p).reverse))) [] = stackOf p
  rw [hr, foldl_splitSep_render _ _ hns, foldl_cleanStep_reverse _ _ hok]

theorem Clean_idem (p : List Char) (h : p ≠ []) :
    filepath.Clean (filepath.Clean ⟨p⟩) = filepath.Clean ⟨p⟩ := by
  obtain ⟨h1, h2, h3⟩ := stackOf_Clean p h
  have e : filepath.Clean ⟨p⟩ = ⟨(filepath.Clean ⟨p⟩).data⟩ := rfl
  rw [e, Clean_mk _ h1, h2, h3, ← Clean_mk p h]

theorem isRooted_append (p q : List Char) (h : p ≠ []) : isRooted (p ++ q) = isRooted p := by
  cases p with
  | nil => exact absurd rfl h
  | cons c cs => rfl

theorem stackOf_append_sep (p n : List Char) (hp : p ≠ []) :
    stackOf (p ++ '/' :: n) = (splitSep n).foldl (cleanStep (isRooted p)) (stackOf p) := by
  unfold stackOf
  rw [isRooted_append p _ hp, splitSep_append_sep, List.foldl_append]

theorem render_append (r : Bool) (a b : List (List Char)) (ha : a ≠ []) (hb : b ≠ []) :
    render r (a ++ b) = render r a ++ '/' :: joinSep b := by
  have hab : a ++ b ≠ [] := by simp [ha]
  cases r with
  | true => simp [render, joinSep_append a b ha hb]
  | false => simp [render, ha, hab, joinSep_append a b ha hb]

/-- Cleaning `p/n`, for a name `n` of kept elements only and a path `p` that
does not clean to `/` or `.`, appends `/n` to the cleaned `p`. -/
theorem Clean_append_name (p n : List Char) (hp : p ≠ []) (hs : stackOf p ≠ [])
    (hn : ∀ e ∈ splitSep n, normalElem e = true) :
    filepath.Clean ⟨p ++ '/' :: n⟩ = ⟨(filepath.Clean ⟨p⟩).data ++ '/' :: n⟩ := by
  rw [Clean_mk _ (by simp [hp]), Clean_mk p hp, isRooted_append p _ hp,
    stackOf_append_sep p n hp, foldl_cleanStep_normal _ _ _ hn, List.reverse_append,
    List.reverse_reverse,
    render_append _ _ _ (by simpa using hs) (splitSep_ne_nil n), joinSep_splitSep]

/-- A trailing separator does not change what a path cleans to. -/
theorem Clean_append_sep (p : List Char) (hp : p ≠ []) :
    filepath.Clean ⟨p ++ ['/']⟩ = filepath.Clean ⟨p⟩ := by
  rw [Clean_mk _ (by simp [hp]), Clean_mk p hp, isRooted_append p _ hp,
    stackOf_append_sep p [] hp]
  simp [splitSep, cleanStep_nil]

theorem StackOK_elem (r : Bool) (out : List (List Char)) (h : StackOK r out) :
    ∀ e ∈ out, e ≠ [] ∧ e ≠ ['.'] := by
  obtain ⟨ns, ds, ho, hns, hds, _⟩ := h
  intro e he
  rw [ho, List.mem_append] at he
  rcases he with he | he
  · have := (normalElem_iff e).1 (hns e he)
    exact ⟨this.1, this.2.1⟩
  · rw [hds e he]
    exact ⟨by decide, by decide⟩

theorem pathElems_render (r : Bool) (es : List (List Char))
    (h : ∀ e ∈ es, e ≠ [] ∧ e ≠ ['.']) (hns : ∀ e ∈ es, '/' ∉ e) :
    pathElems ⟨render r es⟩ = es := by
  have hf : es.filter (fun e => decide (e ≠ []) && decide (e ≠ ['.'])) = es := by
    rw [List.filter_eq_self]
    intro e he
    simp [(h e he).1, (h e he).2]
  unfold pathElems render
  by_cases he : es = []
  · subst he
    cases r <;> decide
  · have hs : splitSep (joinSep es) = es := splitSep_joinSep es he hns
    cases r
    · simp only [Bool.false_eq_true, if_false, if_neg he, hs, hf]
    · simp only [if_true]
      have h2 : splitSep ('/' :: joinSep es) = [] :: es := by
        rw [← hs]
        simp [splitSep, hs]
      rw [h2, List.filter_cons]
      simpa using h

theorem Clean_ne_empty (k : String) (hk : filepath.Clean k = k) : k ≠ "" := by
  intro h
  subst h
  exact absurd hk (by decide)

/-- A cleaned path is the text of its elements. -/
theorem clean_repr (k : String) (hk : filepath.Clean k = k) :
    k = ⟨render (isRooted k.data) (stackOf k.data).reverse⟩
      ∧ pathElems k = (stackOf k.data).reverse := by
  have hne := Clean_ne_empty k hk
  have hd := data_ne_nil k hne
  have h1 : k = ⟨render (isRooted k.data) (stackOf k.data).reverse⟩ := by
    have h2 := Clean_mk k.data hd
    have h3 : (⟨k.data⟩ : String) = k := rfl
    rw [h3, hk] at h2
    exact h2
  refine ⟨h1, ?_⟩
  have h4 := pathElems_render (isRooted k.data) (stackOf k.data).reverse
    (fun e he => StackOK_elem _ _ (StackOK_stackOf k.data) e (List.mem_reverse.1 he))
    (fun e he => no_sep_stackOf k.data e (List.mem_reverse.1 he))
  exact (congrArg pathElems h1).trans h4

/-! ## Paths: the metadata file of a clean name -/

theorem metaChars_ne_nil (root : String) : metaChars root ≠ [] := by
  unfold metaChars
  split <;> simp

theorem stackOf_metaChars_ne_nil (root : String) : stackOf (metaChars root) ≠ [] := by
  have hm : normalElem ['.', 'm', 'e', 't', 'a'] = true := by decide
  have hs : splitSep ['.', 'm', 'e', 't', 'a'] = [['.', 'm', 'e', 't', 'a']] := by decide
  unfold metaChars
  split
  · have h : stackOf ['.', 'm', 'e', 't', 'a'] = [['.', 'm', 'e', 't', 'a']] := by decide
    rw [h]
    simp
  · rename_i hr
    rw [stackOf_append_sep _ _ (data_ne_nil root hr), hs, List.foldl_cons, List.foldl_nil,
      cleanStep_normal _ _ _ hm]
    simp

theorem Join_meta (root : String) :
    filepath.Join [root, ".meta"] = filepath.Clean ⟨metaChars root⟩ := by
  unfold metaChars
  by_cases hr : root = ""
  · subst hr
    rfl
  · simp only [filepath.Join, hr, if_false]
    rfl

theorem Join_meta_sub (root t : String) :
    filepath.Join [root, ".meta", t] = filepath.Clean ⟨metaChars root ++ '/' :: t.data⟩ := by
  unfold metaChars
  by_cases hr : root = ""
  · subst hr
    rfl
  · simp only [filepath.Join, hr, if_false]
    congr 1
    simp [joinWithSep]

theorem cleanName_iff (n : String) :
    cleanName n = true ↔ ∀ e ∈ splitSep n.data, normalElem e = true := by
  simp [cleanName]

/-- The metadata path `Join(root, ".meta", name)` of a clean name is the
metadata directory followed by `/name`. -/
theorem Join_meta_name (root n : String) (hn : cleanName n = true) :
    filepath.Join [root, ".meta", n]
      = ⟨(filepath.Join [root, ".meta"]).data ++ '/' :: n.data⟩ := by
  rw [Join_meta_sub, Join_meta,
    Clean_append_name _ _ (metaChars_ne_nil root) (stackOf_metaChars_ne_nil root)
      ((cleanName_iff n).1 hn)]

theorem Join_Clean_elem (p b : List Char) (hp : p ≠ []) (hs : stackOf p ≠ [])
    (hb : normalElem b = true) (hnb : '/' ∉ b) :
    filepath.Join [filepath.Clean ⟨p⟩, ⟨b⟩] = ⟨(filepath.Clean ⟨p⟩).data ++ '/' :: b⟩ := by
  obtain ⟨h1, _, h3⟩ := stackOf_Clean p hp
  have hne : filepath.Clean ⟨p⟩ ≠ "" := by
    intro e
    exact h1 (congrArg String.data e)
  have hsb : ∀ e ∈ splitSep b, normalElem e = true := by
    rw [splitSep_of_no_sep b hnb]
    intro e he
    rw [List.mem_singleton.1 he]
    exact hb
  simp only [filepath.Join, hne, if_false]
  show filepath.Clean ⟨(filepath.Clean ⟨p⟩).data ++ '/' :: b⟩ = _
  rw [Clean_append_name _ b h1 (by rw [h3]; exact hs) hsb]
  have e : (⟨(filepath.Clean ⟨p⟩).data⟩ : String) = filepath.Clean ⟨p⟩ := rfl
  rw [e, Clean_idem p hp]

theorem lastElemRev_of_no_sep (x : List Char) (h : '/' ∉ x) : lastElemRev x = x := by
  induction x with
  | nil => rfl
  | cons c cs ih =>
    have hc : c ≠ '/' := fun e => h (by simp [e])
    simp [lastElemRev, hc, ih (fun e => h (by simp [e]))]

theorem lastElemRev_append_sep (x y : List Char) (h : '/' ∉ x) :
    lastElemRev (x ++ '/' :: y) = x := by
  induction x with
  | nil => simp [lastElemRev]
  | cons c cs ih =>
    have hc : c ≠ '/' := fun e => h (by simp [e])
    simp [lastElemRev, hc, ih (fun e => h (by simp [e]))]

theorem Split_elem (b : List Char) (hnb : '/' ∉ b) : filepath.Split ⟨b⟩ = ("", ⟨b⟩) := by
  have h1 : lastElemRev b.reverse = b.reverse :=
    lastElemRev_of_no_sep _ (by simpa using hnb)
  simp only [filepath.Split, h1, List.reverse_reverse, Nat.sub_self, List.take_zero]

theorem Split_append_elem (q b : List Char) (hnb : '/' ∉ b) :
    filepath.Split ⟨q ++ '/' :: b⟩ = (⟨q ++ ['/']⟩, ⟨b⟩) := by
  have h1 : lastElemRev (q ++ '/' :: b).reverse = b.reverse := by
    rw [List.reverse_append, List.reverse_cons, List.append_assoc]
    exact lastElemRev_append_sep _ _ (by simpa using hnb)
  have h2 : (q ++ '/' :: b).length - b.length = (q ++ ['/']).length := by
    simp only [List.length_append, List.length_cons, List.length_nil]
    omega
  have h3 : q ++ '/' :: b = (q ++ ['/']) ++ b := by simp
  simp only [filepath.Split, h1, List.reverse_reverse, h2]
  rw [h3, List.take_left]

theorem dropSepRev_of_head (c : Char) (cs : List Char) (hc : c ≠ '/') :
    dropSepRev (c :: cs) = c :: cs := by
  simp [dropSepRev, hc]

theorem Base_of_last (pre b : List Char) (hb : b ≠ []) (hnb : '/' ∉ b)
    (hpre : pre = [] ∨ ∃ q, pre = q ++ ['/']) : filepath.Base ⟨pre ++ b⟩ = ⟨b⟩ := by
  have hne : (⟨pre ++ b⟩ : String) ≠ "" := mk_ne_empty _ (by simp [hb])
  have hrev : b.reverse ≠ [] := by simpa using hb
  have hnr : '/' ∉ b.reverse := by simpa using hnb
  have h1 : dropSepRev (pre ++ b).reverse = (pre ++ b).reverse := by
    rw [List.reverse_append]
    cases hbr : b.reverse with
    | nil => exact absurd hbr hrev
    | cons c cs =>
      have hc : c ≠ '/' := fun e => hnr (by rw [hbr]; simp [e])
      exact dropSepRev_of_head c _ hc
  have h2 : lastElemRev (pre ++ b).reverse = b.reverse := by
    rw [List.reverse_append]
    rcases hpre with h | ⟨q, h⟩
    · subst h
      simpa using lastElemRev_of_no_sep _ hnr
    · subst h
      rw [List.reverse_append]
      exact lastElemRev_append_sep _ _ hnr
  unfold filepath.Base
  rw [if_neg hne]
  simp only [h1, h2, List.reverse_reverse, hb, if_false]

/-- A clean name is a single kept element, or a clean name, a separator and a
kept element. -/
theorem cleanName_cases (d : List Char) (h : ∀ e ∈ splitSep d, normalElem e = true) :
    ∃ b, normalElem b = true ∧ '/' ∉ b ∧
      (d = b ∨ ∃ q, d = q ++ '/' :: b ∧ ∀ e ∈ splitSep q, normalElem e = true) := by
  rcases List.eq_nil_or_concat (splitSep d) with h0 | ⟨init, b, hib⟩
  · exact absurd h0 (splitSep_ne_nil d)
  · rw [List.concat_eq_append] at hib
    have hb : b ∈ splitSep d := by rw [hib]; simp
    refine ⟨b, h b hb, no_sep_of_mem_splitSep d b hb, ?_⟩
    have hd : d = joinSep (init ++ [b]) := by rw [← hib, joinSep_splitSep]
    cases init with
    | nil => left; simpa [joinSep] using hd
    | cons i0 is =>
      right
      have hin : ∀ e ∈ i0 :: is, e ∈ splitSep d := by
        intro e he
        rw [hib]
        exact List.mem_append_left _ he
      refine ⟨joinSep (i0 :: is), ?_, ?_⟩
      · rw [hd, joinSep_append _ _ (by simp) (by simp)]
        rfl
      · rw [splitSep_joinSep _ (by simp) (fun e he => no_sep_of_mem_splitSep d e (hin e he))]
        exact fun e he => h e (hin e he)

/-- On clean names the file `Create` writes,
`Join(Join(root, ".meta", dir), Base(name))`, is the file `Delete` removes,
`Join(root, ".meta", name)`. -/
theorem createFilePath_eq (root n : String) (hn : cleanName n = true) :
    createFilePath root n = filepath.Join [root, ".meta", n] := by
  have hall := (cleanName_iff n).1 hn
  rw [Join_meta_name root n hn]
  obtain ⟨b, hb, hnb, hd | ⟨q, hd, hq⟩⟩ := cleanName_cases n.data hall
  · have hn2 : n = ⟨b⟩ := by cases n; simp only at hd; rw [hd]
    subst hn2
    unfold createFilePath
    have hbase : filepath.Base ⟨b⟩ = ⟨b⟩ :=
      Base_of_last [] b ((normalElem_iff b).1 hb).1 hnb (Or.inl rfl)
    rw [Split_elem b hnb, hbase]
    have h1 : filepath.Join [root, ".meta", ""] = filepath.Clean ⟨metaChars root⟩ := by
      rw [Join_meta_sub]
      exact Clean_append_sep _ (metaChars_ne_nil root)
    show filepath.Join [filepath.Join [root, ".meta", ""], ⟨b⟩] = _
    rw [h1, Join_Clean_elem _ b (metaChars_ne_nil root) (stackOf_metaChars_ne_nil root) hb hnb,
      Join_meta]
  · have hn2 : n = ⟨q ++ '/' :: b⟩ := by cases n; simp only at hd; rw [hd]
    subst hn2
    unfold createFilePath
    have hbase : filepath.Base ⟨q ++ '/' :: b⟩ = ⟨b⟩ := by
      have h := Base_of_last (q ++ ['/']) b ((normalElem_iff b).1 hb).1 hnb (Or.inr ⟨q, rfl⟩)
      simpa using h
    rw [Split_append_elem q b hnb, hbase]
    have hp : metaChars root ++ '/' :: q ≠ [] := by simp [metaChars_ne_nil root]
    have h1 : filepath.Join [root, ".meta", ⟨q ++ ['/']⟩]
        = filepath.Clean ⟨metaChars root ++ '/' :: q⟩ := by
      rw [Join_meta_sub]
      have e : metaChars root ++ '/' :: (⟨q ++ ['/']⟩ : String).data
          = (metaChars root ++ '/' :: q) ++ ['/'] := by simp
      rw [e]
      exact Clean_append_sep _ hp
    have hs : stackOf (metaChars root ++ '/' :: q) ≠ [] := by
      rw [stackOf_append_sep _ _ (metaChars_ne_nil root), foldl_cleanStep_normal _ _ _ hq]
      simp [stackOf_metaChars_ne_nil root]
    show filepath.Join [filepath.Join [root, ".meta", ⟨q ++ ['/']⟩], ⟨b⟩] = _
    rw [h1, Join_Clean_elem _ b hp hs hb hnb,
      Clean_append_name _ q (metaChars_ne_nil root) (stackOf_metaChars_ne_nil root) hq, Join_meta]
    simp

/-- Two clean names with the same metadata path are the same name. -/
theorem Join_meta_name_inj (root n1 n2 : String) (h1 : cleanName n1 = true)
    (h2 : cleanName n2 = true)
    (h : filepath.Join [root, ".meta", n1] = filepath.Join [root, ".meta", n2]) : n1 = n2 := by
  rw [Join_meta_name root n1 h1, Join_meta_name root n2 h2] at h
  have h3 := congrArg String.data h
  simp only [List.append_cancel_left_eq, List.cons.injEq, true_and] at h3
  cases n1
  cases n2
  simp only at h3
  rw [h3]

/-! ## Paths: what a path names -/

theorem stat_empty (fs : FS) : FS.stat fs "" = none := by
  simp [FS.stat]

theorem stat_root (fs : FS) : FS.stat fs ⟨render true []⟩ = some Node.dir := by
  have h : (⟨render true []⟩ : String) = "/" := by decide
  rw [h]
  unfold FS.stat
  rw [if_neg (by decide), if_pos (by decide)]

theorem stat_dot (fs : FS) : FS.stat fs ⟨render false []⟩ = some Node.dir := by
  have h : (⟨render false []⟩ : String) = "." := by decide
  rw [h]
  unfold FS.stat
  rw [if_neg (by decide), if_pos (by decide)]

theorem stat_dots (fs : FS) (j : Nat) :
    FS.stat fs ⟨render false (List.replicate j ['.', '.'])⟩ = some Node.dir := by
  cases j with
  | zero => exact stat_dot fs
  | succ j =>
    have hb : filepath.Base ⟨render false (List.replicate (j + 1) ['.', '.'])⟩ = ".." := by
      have hr : render false (List.replicate (j + 1) ['.', '.'])
          = joinSep (List.replicate (j + 1) ['.', '.']) := by
        simp [render, List.replicate_succ]
      rw [hr]
      cases j with
      | zero => decide
      | succ j =>
        rw [List.replicate_succ', joinSep_append _ _ (by simp [List.replicate_succ]) (by simp)]
        have e : joinSep (List.replicate (j + 1) ['.', '.']) ++ '/' :: joinSep [['.', '.']]
            = (joinSep (List.replicate (j + 1) ['.', '.']) ++ ['/']) ++ ['.', '.'] := by
          simp [joinSep]
        rw [e]
        exact Base_of_last _ _ (by simp) (by decide) (Or.inr ⟨_, rfl⟩)
    have hne : (⟨render false (List.replicate (j + 1) ['.', '.'])⟩ : String) ≠ "" :=
      mk_ne_empty _ (render_ne_nil _ _ (by
        intro e he
        rw [List.eq_of_mem_replicate he]
        decide))
    unfold FS.stat
    rw [if_neg hne, if_pos (by simp [implicitDir, hb])]

theorem foldl_resolveStep_none (fs : FS) (r : Bool) (es : List (List Char)) :
    es.foldl (resolveStep fs r) none = none := by
  induction es with
  | nil => rfl
  | cons e es ih => exact ih

/-- The path a path names is the cleaned path. -/
theorem foldl_resolveStep_some (fs : FS) (r : Bool) (es out out2 : List (List Char))
    (h : es.foldl (resolveStep fs r) (some out) = some out2) :
    out2 = es.foldl (cleanStep r) out := by
  induction es generalizing out with
  | nil => exact (Option.some.inj h).symm
  | cons e es ih =>
    rw [List.foldl_cons] at h
    rw [List.foldl_cons]
    by_cases hn : normalElem e = true
    · have h1 : resolveStep fs r (some out) e = some (e :: out) := by
        simp [resolveStep, hn]
      rw [h1] at h
      rw [cleanStep_normal r out e hn]
      exact ih _ h
    · by_cases hd : FS.stat fs ⟨render r out.reverse⟩ = some Node.dir
      · have h1 : resolveStep fs r (some out) e = some (cleanStep r out e) := by
          simp [resolveStep, hn, hd]
        rw [h1] at h
        exact ih _ h
      · have h1 : resolveStep fs r (some out) e = none := by
          simp [resolveStep, hn, hd]
        rw [h1, foldl_resolveStep_none] at h
        exact absurd h (by simp)

theorem resolve_some (fs : FS) (p q : String) (h : os.resolve fs p = some q) :
    p ≠ "" ∧ q = filepath.Clean p := by
  unfold os.resolve at h
  by_cases hp : p = ""
  · rw [if_pos hp] at h
    exact absurd h (by simp)
  · rw [if_neg hp] at h
    refine ⟨hp, ?_⟩
    cases hf : (splitSep p.data).foldl (resolveStep fs (isRooted p.data)) (some []) with
    | none =>
      rw [hf] at h
      exact absurd h (by simp)
    | some out =>
      rw [hf] at h
      have h2 := foldl_resolveStep_some fs _ _ _ _ hf
      have h3 : q = ⟨render (isRooted p.data) out.reverse⟩ := (Option.some.inj h).symm
      rw [h3, h2]
      unfold filepath.Clean cleanElems
      rw [if_neg hp]

theorem foldl_resolveStep_normal (fs : FS) (r : Bool) (es out : List (List Char))
    (h : ∀ e ∈ es, normalElem e = true) :
    es.foldl (resolveStep fs r) (some out) = some (es.reverse ++ out) := by
  induction es generalizing out with
  | nil => rfl
  | cons e es ih =>
    have h1 : resolveStep fs r (some out) e = some (e :: out) := by
      simp [resolveStep, h e (by simp)]
    rw [List.foldl_cons, h1, ih (e :: out) (fun x hx => h x (by simp [hx]))]
    simp

theorem foldl_resolveStep_dots (fs : FS) (j k : Nat) :
    (List.replicate k ['.', '.']).foldl (resolveStep fs false)
        (some (List.replicate j ['.', '.']))
      = some (List.replicate (j + k) ['.', '.']) := by
  induction k generalizing j with
  | zero => rfl
  | succ k ih =>
    rw [List.replicate_succ, List.foldl_cons]
    have h0 : cleanStep false (List.replicate j ['.', '.']) ['.', '.']
        = List.replicate (j + 1) ['.', '.'] := by
      cases j with
      | zero => simp [cleanStep]
      | succ j => simp [cleanStep, List.replicate_succ]
    have h1 : resolveStep fs false (some (List.replicate j ['.', '.'])) ['.', '.']
        = some (List.replicate (j + 1) ['.', '.']) := by
      unfold resolveStep
      simp only []
      rw [if_neg (by decide), List.reverse_replicate, if_pos (stat_dots fs j), h0]
    rw [h1, ih (j + 1)]
    congr 2
    omega

theorem foldl_resolveStep_reverse (fs : FS) (r : Bool) (out : List (List Char))
    (h : StackOK r out) :
    out.reverse.foldl (resolveStep fs r) (some []) = some out := by
  obtain ⟨ns, ds, hout, hns, hds, hr⟩ := h
  subst hout
  rw [List.reverse_append, List.foldl_append]
  have hd : ds.reverse.foldl (resolveStep fs r) (some []) = some ds := by
    cases r with
    | true => rw [hr rfl]; rfl
    | false =>
      have h1 := dots_eq_replicate ds hds
      have h2 : ds.reverse = ds := by rw [h1, List.reverse_replicate]
      rw [h2]
      have h3 := foldl_resolveStep_dots fs 0 ds.length
      simp only [List.replicate_zero, Nat.zero_add] at h3
      rw [← h1] at h3
      exact h3
  rw [hd, foldl_resolveStep_normal fs r ns.reverse ds
    (fun e he => hns e (List.mem_reverse.1 he))]
  simp

theorem resolveStep_nil_top (fs : FS) (r : Bool) (e : List Char) (he : e = [] ∨ e = ['.']) :
    resolveStep fs r (some []) e = some [] := by
  have hn : normalElem e = false := by
    rcases he with he | he <;> subst he <;> decide
  have hs : FS.stat fs ⟨render r ([] : List (List Char)).reverse⟩ = some Node.dir := by
    cases r
    · exact stat_dot fs
    · exact stat_root fs
  have hc : cleanStep r [] e = [] := by simp [cleanStep, he]
  unfold resolveStep
  simp only []
  rw [if_neg (by simp [hn]), if_pos hs, hc]

theorem foldl_resolveStep_render (fs : FS) (r : Bool) (es : List (List Char))
    (hns : ∀ e ∈ es, '/' ∉ e) :
    (splitSep (render r es)).foldl (resolveStep fs r) (some [])
      = es.foldl (resolveStep fs r) (some []) := by
  cases r with
  | true =>
    have h1 : splitSep (render true es) = [] :: splitSep (joinSep es) := by
      simp [render, splitSep]
    rw [h1, List.foldl_cons, resolveStep_nil_top fs true [] (Or.inl rfl)]
    cases es with
    | nil =>
      have h2 : splitSep (joinSep ([] : List (List Char))) = [[]] := by decide
      rw [h2, List.foldl_cons, resolveStep_nil_top fs true [] (Or.inl rfl)]
    | cons e es => rw [splitSep_joinSep _ (by simp) hns]
  | false =>
    cases es with
    | nil =>
      have h2 : splitSep (render false ([] : List (List Char))) = [['.']] := by decide
      rw [h2, List.foldl_cons, resolveStep_nil_top fs false ['.'] (Or.inr rfl)]
    | cons e es =>
      have h1 : render false (e :: es) = joinSep (e :: es) := by simp [render]
      rw [h1, splitSep_joinSep _ (by simp) hns]

/-- A cleaned path names itself. -/
theorem resolve_clean (fs : FS) (p : String) (h : filepath.Clean p = p) :
    os.resolve fs p = some p := by
  have hne := Clean_ne_empty p h
  obtain ⟨h1, _⟩ := clean_repr p h
  have hns : ∀ e ∈ (stackOf p.data).reverse, '/' ∉ e :=
    fun e he => no_sep_stackOf p.data e (List.mem_reverse.1 he)
  have h2 : splitSep p.data = splitSep (render (isRooted p.data) (stackOf p.data).reverse) :=
    congrArg (fun s : String => splitSep s.data) h1
  unfold os.resolve
  rw [if_neg hne, h2, foldl_resolveStep_render fs _ _ hns,
    foldl_resolveStep_reverse fs _ _ (StackOK_stackOf p.data)]
  exact congrArg some h1.symm

theorem Stat_clean (fs : FS) (p : String) (h : filepath.Clean p = p) :
    os.Stat fs p = FS.stat fs p := by
  unfold os.Stat
  rw [resolve_clean fs p h]

theorem ReadFile_clean (fs : FS) (p : String) (h : filepath.Clean p = p) :
    ioutil.ReadFile fs p = FS.read fs p := by
  unfold ioutil.ReadFile
  rw [resolve_clean fs p h]

theorem resolve_empty (fs : FS) : os.resolve fs "" = none := by
  simp [os.resolve]

/-- What `filepath.Join` gives is a cleaned path, or the empty string. -/
theorem Join_clean (l : List String) :
    filepath.Join l = "" ∨ filepath.Clean (filepath.Join l) = filepath.Join l := by
  induction l with
  | nil => exact Or.inl rfl
  | cons e es ih =>
    unfold filepath.Join
    by_cases he : e = ""
    · rw [if_pos he]
      exact ih
    · rw [if_neg he]
      right
      have hd : joinWithSep (e :: es) ≠ [] := by
        have := data_ne_nil e he
        cases es with
        | nil => simpa [joinWithSep] using this
        | cons e2 es2 => simp [joinWithSep, this]
      exact Clean_idem _ hd

theorem Stat_Join (fs : FS) (l : List String) :
    os.Stat fs (filepath.Join l) = FS.stat fs (filepath.Join l) := by
  rcases Join_clean l with h | h
  · rw [h]
    simp [os.Stat, resolve_empty, stat_empty]
  · exact Stat_clean fs _ h

theorem ReadFile_Join (fs : FS) (l : List String) :
    ioutil.ReadFile fs (filepath.Join l) = FS.read fs (filepath.Join l) := by
  rcases Join_clean l with h | h
  · rw [h]
    simp [ioutil.ReadFile, resolve_empty, FS.read, stat_empty]
  · exact ReadFile_clean fs _ h

theorem ReadFile_createFilePath (fs : FS) (root name : String) :
    ioutil.ReadFile fs (createFilePath root name) = FS.read fs (createFilePath root name) :=
  ReadFile_Join fs _

/-- What a path names, when it names something, is in the file system under
the cleaned path. -/
theorem Stat_some (fs : FS) (p : String) (nd : Node) (h : os.Stat fs p = some nd) :
    p ≠ "" ∧ os.resolve fs p = some (filepath.Clean p)
      ∧ FS.stat fs (filepath.Clean p) = some nd := by
  unfold os.Stat at h
  cases hr : os.resolve fs p with
  | none =>
    rw [hr] at h
    exact absurd h (by simp)
  | some q =>
    rw [hr] at h
    obtain ⟨h1, h2⟩ := resolve_some fs p q hr
    subst h2
    exact ⟨h1, rfl, h⟩

/-! ## The walk: which paths it visits -/

theorem mem_insertEntry (x y : List (List Char) × String)
    (l : List (List (List Char) × String)) : y ∈ insertEntry x l ↔ y = x ∨ y ∈ l := by
  induction l with
  | nil => simp [insertEntry]
  | cons z zs ih =>
    unfold insertEntry
    split
    · simp
    · simp only [List.mem_cons, ih]
      tauto

theorem mem_sortEntries (y : List (List Char) × String)
    (l : List (List (List Char) × String)) : y ∈ sortEntries l ↔ y ∈ l := by
  induction l with
  | nil => simp [sortEntries]
  | cons z zs ih =>
    simp only [sortEntries, mem_insertEntry, ih, List.mem_cons]

theorem stripElems_some (a b c : List (List Char)) (h : stripElems a b = some c) :
    b = a ++ c := by
  induction a generalizing b with
  | nil =>
    simp only [stripElems] at h
    simpa using Option.some.inj h
  | cons x xs ih =>
    cases b with
    | nil => simp [stripElems] at h
    | cons y ys =>
      simp only [stripElems] at h
      split at h
      · rename_i hxy
        rw [ih ys h, hxy]
        rfl
      · cases h

theorem stripElems_append (a c : List (List Char)) : stripElems a (a ++ c) = some c := by
  induction a with
  | nil => simp [stripElems]
  | cons x xs ih => simp [stripElems, ih]

theorem relElems_append (a c : List (List Char)) : relElems a (a ++ c) = some c := by
  induction a with
  | nil => simp [relElems]
  | cons x xs ih => simp [relElems, ih]

theorem entryBelow_some (R k : String) (x : List (List Char) × String)
    (h : entryBelow R k = some x) :
    x.2 = k ∧ filepath.Clean k = k ∧ isRooted k.data = isRooted R.data
      ∧ pathElems k = pathElems R ++ x.1 ∧ x.1 ≠ []
      ∧ ∀ e ∈ x.1, normalElem e = true := by
  unfold entryBelow at h
  split at h
  · rename_i hc
    split at h
    · rename_i e es hs
      split at h
      · rename_i hall
        cases h
        refine ⟨rfl, hc.1, hc.2, stripElems_some _ _ _ hs, by simp, ?_⟩
        intro e1 he1
        exact (List.all_eq_true.1 hall) e1 he1
      · cases h
    · cases h
  · cases h

theorem entryBelow_of_elems (R k : String) (es : List (List Char))
    (hc : filepath.Clean k = k) (hr : isRooted k.data = isRooted R.data)
    (hp : pathElems k = pathElems R ++ es) (hne : es ≠ [])
    (hn : ∀ e ∈ es, normalElem e = true) : entryBelow R k = some (es, k) := by
  unfold entryBelow
  rw [if_pos ⟨hc, hr⟩, hp, stripElems_append]
  cases es with
  | nil => exact absurd rfl hne
  | cons e es1 =>
    have hall : (e :: es1).all normalElem = true := List.all_eq_true.2 hn
    simp only [hall, if_true]

theorem mem_walkOrder (fs : FS) (R p : String) (hR : filepath.Clean R = R)
    (hd : FS.stat fs R = some Node.dir) :
    p ∈ filepath.walkOrder fs R
      ↔ p = R ∨ (GoMap.get fs p ≠ none ∧ ∃ es, entryBelow R p = some (es, p)) := by
  unfold filepath.walkOrder
  rw [Stat_clean fs R hR, hd, hR]
  simp only [List.mem_cons, List.mem_map, mem_sortEntries, List.mem_filterMap, GoMap.mem_keys]
  constructor
  · rintro (h | ⟨x, ⟨k, hk, hx⟩, hxp⟩)
    · exact Or.inl h
    · have h2 := (entryBelow_some R k x hx).1
      have hkp : k = p := by rw [← h2, hxp]
      subst hkp
      refine Or.inr ⟨hk, x.1, ?_⟩
      rw [hx]
      cases x
      simp only at h2
      rw [h2]
  · rintro (h | ⟨hk, es, hes⟩)
    · exact Or.inl h
    · exact Or.inr ⟨(es, p), ⟨p, hk, hes⟩, rfl⟩

/-- The walk from a cleaned path visits cleaned paths. -/
theorem walkOrder_clean (fs : FS) (R : String) (hR : filepath.Clean R = R) :
    ∀ p ∈ filepath.walkOrder fs R, filepath.Clean p = p := by
  intro p hp
  unfold filepath.walkOrder at hp
  rw [Stat_clean fs R hR, hR] at hp
  split at hp
  · cases hp
  · rw [List.mem_singleton.1 hp]; exact hR
  · rw [List.mem_singleton.1 hp]; exact hR
  · simp only [List.mem_cons, List.mem_map, mem_sortEntries, List.mem_filterMap] at hp
    rcases hp with h | ⟨x, ⟨k, _, hx⟩, hxp⟩
    · rw [h]; exact hR
    · obtain ⟨h1, h2, _⟩ := entryBelow_some R k x hx
      rw [← hxp, h1]
      exact h2

theorem Clean_Join_meta (root : String) :
    filepath.Clean (filepath.Join [root, ".meta"]) = filepath.Join [root, ".meta"] := by
  rw [Join_meta]
  exact Clean_idem _ (metaChars_ne_nil root)

/-! ## The queries, in terms of the record -/

theorem HasMount_eq_true (m : mountManager) (name : String) :
    m.HasMount name = true ↔ ∃ c, GoMap.get m.mounts name = some c := by
  unfold mountManager.HasMount
  cases GoMap.get m.mounts name <;> simp

theorem HasMount_eq_false (m : mountManager) (name : String) :
    m.HasMount name = false ↔ GoMap.get m.mounts name = none := by
  unfold mountManager.HasMount
  cases GoMap.get m.mounts name <;> simp

theorem HasOption_eq_true (m : mountManager) (name key : String) :
    m.HasOption name key = true ↔
      ∃ c v, GoMap.get m.mounts name = some c ∧ Opts.get c.opts key = some v := by
  unfold mountManager.HasOption mountManager.HasOptions
  cases hg : GoMap.get m.mounts name with
  | none => simp
  | some c =>
    cases ho : c.opts with
    | none => simp [Opts.get, ho]
    | some l =>
      cases hk : GoMap.get l key with
      | none => simp [Opts.get, ho, hk]
      | some v =>
        have hpos : 0 < GoMap.len l := GoMap.len_pos_of_get l key v hk
        simp [Opts.get, Opts.len, ho, hk, hpos]

theorem GetOption_of_get (m : mountManager) (name key : String) (c : mount) (v : String)
    (hc : GoMap.get m.mounts name = some c) (hv : Opts.get c.opts key = some v) :
    m.GetOption name key = v := by
  have h : m.HasOption name key = true := (HasOption_eq_true m name key).2 ⟨c, v, hc, hv⟩
  simp [mountManager.GetOption, h, hc, hv]

theorem GetOption_of_not_HasOption (m : mountManager) (name key : String)
    (h : m.HasOption name key = false) : m.GetOption name key = "" := by
  simp [mountManager.GetOption, h]

/-! ## Claims C1, C6, C7, C8, C9, C10: single calls -/

/-- C1: when `IsActiveMount(name)` holds, `Delete(name)` returns the error
"Volume is currently in use" and hands back the registry and the file system
exactly as they were: the record of `name`, every other record and every
metadata file. -/
theorem Delete_active_in_use (m : mountManager) (fs : FS) (name : String)
    (h : m.IsActiveMount name = true) :
    m.Delete fs name = (some "Volume is currently in use", m, fs) := by
  unfold mountManager.IsActiveMount at h
  cases hg : GoMap.get m.mounts name with
  | none => simp [hg] at h
  | some c =>
    simp [hg] at h
    have h1 : ¬ c.connections < 1 := by omega
    simp [mountManager.Delete, mountManager.HasMount, mountManager.Count, hg, h1]

/-- The witness of C1: scenario S3, a delete while one connection is open. -/
theorem Delete_active_in_use_witness :
    demoActive.IsActiveMount "v3" = true ∧
      demoActive.Delete demoFS "v3" = (some "Volume is currently in use", demoActive, demoFS) :=
  ⟨by decide, Delete_active_in_use demoActive demoFS "v3" (by decide)⟩

theorem Add_of_absent (m : mountManager) (name : String)
    (h : GoMap.get m.mounts name = none) :
    m.Add name =
      { m with
        mounts := GoMap.set m.mounts name
          { name := name, hostdir := mountpoint m.root name, connections := 1, opts := none,
            managed := false } } := by
  simp [mountManager.Add, h]

theorem wrapInt_of_range (x : Int) (h1 : -9223372036854775808 ≤ x) (h2 : x ≤ maxInt) :
    wrapInt x = x := by
  unfold wrapInt
  unfold maxInt at h2
  omega

theorem wrapInt_succ (x : Int) (h1 : 0 ≤ x) (h2 : x < maxInt) : wrapInt (x + 1) = x + 1 := by
  apply wrapInt_of_range
  · omega
  · unfold maxInt at h2 ⊢
    omega

theorem Add_of_present (m : mountManager) (name : String) (c : mount)
    (h : GoMap.get m.mounts name = some c) :
    m.Add name =
      { m with
        mounts :=
          GoMap.set m.mounts name { c with connections := wrapInt (c.connections + 1) } } := by
  simp [mountManager.Add, mountManager.Increment, h]

theorem Increment_of_present (m : mountManager) (name : String) (c : mount)
    (h : GoMap.get m.mounts name = some c) :
    m.Increment name =
      (wrapInt (c.connections + 1),
        { m with
          mounts :=
            GoMap.set m.mounts name { c with connections := wrapInt (c.connections + 1) } }) := by
  simp [mountManager.Increment, h]

theorem Count_of_get (m : mountManager) (name : String) (c : mount)
    (h : GoMap.get m.mounts name = some c) : m.Count name = c.connections := by
  simp [mountManager.Count, h]

/-- C6, amended: `Add(name)` on an absent name inserts the record with
`managed = false`, `connections = 1` and nil options, so that a second `Add`
gives `Count = 2`; on a present name it is `Increment(name)`, after which the
record is the same but for its counter, which is Go's `connections++`: one
more below 2^63 - 1, and -2^63 at 2^63 - 1; records of other names are
untouched; and `Add` hands the file system on as it was. -/
theorem Add_spec (m : mountManager) (fs : FS) (name : String) :
    (GoMap.get m.mounts name = none →
        GoMap.get (m.Add name).mounts name
            = some { name := name, hostdir := mountpoint m.root name, connections := 1,
                     opts := none, managed := false }
          ∧ (m.Add name).Count name = 1
          ∧ ((m.Add name).Add name).Count name = 2)
      ∧ (∀ c, GoMap.get m.mounts name = some c →
          m.Add name = (m.Increment name).2
            ∧ GoMap.get (m.Add name).mounts name
                = some { c with connections := wrapInt (c.connections + 1) }
            ∧ (-9223372036854775808 ≤ c.connections → c.connections < maxInt →
                GoMap.get (m.Add name).mounts name
                  = some { c with connections := c.connections + 1 })
            ∧ (c.connections = maxInt →
                GoMap.get (m.Add name).mounts name
                  = some { c with connections := -9223372036854775808 }))
      ∧ (∀ other, other ≠ name →
          GoMap.get (m.Add name).mounts other = GoMap.get m.mounts other)
      ∧ step (m, fs) (Op.Add name) = some (m.Add name, fs) := by
  refine ⟨?_, ?_, ?_, rfl⟩
  · intro h
    have h1 : GoMap.get (m.Add name).mounts name
        = some { name := name, hostdir := mountpoint m.root name, connections := 1,
                 opts := none, managed := false } := by
      rw [Add_of_absent m name h, GoMap.get_set_self]
    refine ⟨h1, ?_, ?_⟩
    · rw [Count_of_get _ _ _ h1]
    · have h2 := Add_of_present (m.Add name) name _ h1
      rw [h2, Count_of_get _ name _ (GoMap.get_set_self _ _ _)]
      rfl
  · intro c h
    refine ⟨?_, ?_, ?_, ?_⟩
    · rw [Add_of_present m name c h, Increment_of_present m name c h]
    · rw [Add_of_present m name c h, GoMap.get_set_self]
    · intro h1 h2
      have hw : wrapInt (c.connections + 1) = c.connections + 1 := by
        apply wrapInt_of_range
        · omega
        · unfold maxInt at h2 ⊢
          omega
      rw [Add_of_present m name c h, GoMap.get_set_self, hw]
    · intro h1
      have hw : wrapInt (c.connections + 1) = -9223372036854775808 := by
        rw [h1]
        decide
      rw [Add_of_present m name c h, GoMap.get_set_self, hw]
  · intro other hne
    cases h : GoMap.get m.mounts name with
    | none => rw [Add_of_absent m name h, GoMap.get_set_ne _ _ _ _ hne]
    | some c => rw [Add_of_present m name c h, GoMap.get_set_ne _ _ _ _ hne]

/-- The witness of C6: scenario S2, two calls of `Add` on the empty registry. -/
theorem Add_spec_witness :
    (demoEmpty.Add "v2").Count "v2" = 1 ∧ ((demoEmpty.Add "v2").Add "v2").Count "v2" = 2 :=
  ⟨((Add_spec demoEmpty demoFS "v2").1 (by decide)).2.1,
   ((Add_spec demoEmpty demoFS "v2").1 (by decide)).2.2⟩

theorem Stat_implicit (fs : FS) (p : String) (hp : p ≠ "") (hi : implicitDir p = true) :
    FS.stat fs p = some Node.dir := by
  simp [FS.stat, hp, hi]

theorem Stat_eq_get (fs : FS) (p : String) (hp : p ≠ "") (hi : implicitDir p = false) :
    FS.stat fs p = GoMap.get fs p := by
  simp [FS.stat, hp, hi]

theorem Stat_file (fs : FS) (p : String) (d : FileData)
    (h : FS.stat fs p = some (Node.file d)) :
    p ≠ "" ∧ implicitDir p = false ∧ GoMap.get fs p = some (Node.file d) := by
  by_cases hp : p = ""
  · rw [hp, stat_empty] at h; cases h
  · by_cases hi : implicitDir p = true
    · rw [Stat_implicit fs p hp hi] at h; cases h
    · have hi2 : implicitDir p = false := by simpa using hi
      rw [Stat_eq_get fs p hp hi2] at h
      exact ⟨hp, hi2, h⟩

theorem ReadFile_Remove (fs : FS) (p : String) : FS.read (os.Remove fs p) p = none := by
  unfold FS.read
  by_cases hp : p = ""
  · rw [hp, stat_empty]
  · by_cases hi : implicitDir p = true
    · rw [Stat_implicit _ p hp hi]
    · have hi2 : implicitDir p = false := by simpa using hi
      rw [Stat_eq_get _ p hp hi2]
      unfold os.Remove
      simp only [hp, hi2, Bool.false_eq_true, or_self, if_false]
      cases hg : GoMap.get fs p with
      | none => simp [hg]
      | some nd =>
        cases nd with
        | dir =>
          by_cases hc : hasChild fs p = true
          · simp [hc, hg]
          · simp [hc, GoMap.get_del_self]
        | file d => simp [GoMap.get_del_self]
        | locked => simp [GoMap.get_del_self]

/-- C7: with `Count(name) < 1`, `Delete(name)` returns nil; a present name is
taken out of the map (`HasMount` is false afterwards), `os.Remove` is called
on `Join(root, ".meta", name)` and no regular file is left at that path; for
an absent name registry and file system stay as they were. `Delete` returns an
error exactly when the name is present with at least one connection. -/
theorem Delete_spec (m : mountManager) (fs : FS) (name : String) :
    (m.Count name < 1 →
        (m.Delete fs name).1 = none
          ∧ (m.HasMount name = true →
              (m.Delete fs name).2.1.HasMount name = false
                ∧ (m.Delete fs name).2.1.mounts = GoMap.del m.mounts name
                ∧ (m.Delete fs name).2.2
                    = os.Remove fs (filepath.Join [m.root, ".meta", name])
                ∧ ioutil.ReadFile (m.Delete fs name).2.2
                    (filepath.Join [m.root, ".meta", name]) = none)
          ∧ (m.HasMount name = false → (m.Delete fs name).2 = (m, fs)))
      ∧ ((m.Delete fs name).1 ≠ none ↔
          ∃ c, GoMap.get m.mounts name = some c ∧ 1 ≤ c.connections) := by
  constructor
  · intro hlt
    refine ⟨?_, ?_, ?_⟩
    · by_cases hm : m.HasMount name = true <;> simp [mountManager.Delete, hm, hlt]
    · intro hm
      refine ⟨?_, ?_, ?_, ?_⟩
      · have h1 : m.Delete fs name = (none, { m with mounts := GoMap.del m.mounts name },
            os.Remove fs (filepath.Join [m.root, ".meta", name])) := by
          simp [mountManager.Delete, hm, hlt]
        rw [h1]
        simp [mountManager.HasMount, GoMap.get_del_self]
      · simp [mountManager.Delete, hm, hlt]
      · simp [mountManager.Delete, hm, hlt]
      · simp [mountManager.Delete, hm, hlt, ReadFile_Join, ReadFile_Remove]
    · intro hm
      simp [mountManager.Delete, hm]
  · cases hg : GoMap.get m.mounts name with
    | none => simp [mountManager.Delete, mountManager.HasMount, hg]
    | some c =>
      by_cases hlt : c.connections < 1
      · have h1 : ¬ 1 ≤ c.connections := by omega
        simp [mountManager.Delete, mountManager.HasMount, mountManager.Count, hg, hlt, h1]
      · have h1 : 1 ≤ c.connections := by omega
        simp [mountManager.Delete, mountManager.HasMount, mountManager.Count, hg, hlt, h1]

/-- The witness of C7: deleting the idle record `v4`. -/
theorem Delete_spec_witness :
    demoIdle.Count "v4" < 1 ∧ (demoIdle.Delete demoFS "v4").1 = none
      ∧ (demoIdle.Delete demoFS "v4").2.1.HasMount "v4" = false :=
  ⟨by decide, ((Delete_spec demoIdle demoFS "v4").1 (by decide)).1,
   (((Delete_spec demoIdle demoFS "v4").1 (by decide)).2.1 (by decide)).1⟩

theorem Decrement_get_of_pos (m : mountManager) (name : String) (c : mount)
    (hg : GoMap.get m.mounts name = some c) (hc : c.connections > 0) :
    GoMap.get (m.Decrement name).2.mounts name
      = some { c with connections := c.connections - 1 } := by
  simp [mountManager.Decrement, hg, hc, GoMap.get_set_self]

/-- C8: `Decrement(name)` returns 0; a record with `connections > 0` loses
exactly one connection and keeps its other fields; with `connections = 0` the
registry stays as it is, so the count stays 0; for an absent name the registry
stays as it is and no record appears. -/
theorem Decrement_spec (m : mountManager) (name : String) :
    (m.Decrement name).1 = 0
      ∧ (∀ c, GoMap.get m.mounts name = some c → c.connections > 0 →
          GoMap.get (m.Decrement name).2.mounts name
              = some { c with connections := c.connections - 1 }
            ∧ (m.Decrement name).2.Count name = m.Count name - 1)
      ∧ (∀ c, GoMap.get m.mounts name = some c → c.connections = 0 →
          (m.Decrement name).2 = m ∧ (m.Decrement name).2.Count name = 0)
      ∧ (GoMap.get m.mounts name = none →
          (m.Decrement name).2 = m ∧ (m.Decrement name).2.HasMount name = false) := by
  refine ⟨?_, ?_, ?_, ?_⟩
  · unfold mountManager.Decrement
    cases hg : GoMap.get m.mounts name with
    | none => rfl
    | some c => by_cases hc : c.connections > 0 <;> simp [hc]
  · intro c hg hc
    simp [mountManager.Decrement, mountManager.Count, hg, hc, GoMap.get_set_self]
  · intro c hg hc
    simp [mountManager.Decrement, mountManager.Count, hg, hc]
  · intro hg
    simp [mountManager.Decrement, mountManager.HasMount, hg]

/-- The witness of C8: the three cases on concrete registries. -/
theorem Decrement_spec_witness :
    (demoActive.Decrement "v3").2.Count "v3" = demoActive.Count "v3" - 1
      ∧ (demoIdle.Decrement "v4").2 = demoIdle
      ∧ (demoEmpty.Decrement "v4").2 = demoEmpty :=
  ⟨(((Decrement_spec demoActive "v3").2.1 _ rfl (by decide)).2),
   (((Decrement_spec demoIdle "v4").2.2.1 _ rfl (by decide)).1),
   (((Decrement_spec demoEmpty "v4").2.2.2 rfl).1)⟩

theorem IsActiveMount_of_get (m : mountManager) (name : String) (c : mount)
    (h : GoMap.get m.mounts name = some c) :
    m.IsActiveMount name = decide (c.connections > 0) := by
  simp [mountManager.IsActiveMount, h]

theorem IsActiveMount_of_absent (m : mountManager) (name : String)
    (h : GoMap.get m.mounts name = none) : m.IsActiveMount name = false := by
  simp [mountManager.IsActiveMount, h]

/-! ## Create -/

theorem Create_of_active (m : mountManager) (fs : FS) (name : String) (opts : Opts) (c : mount)
    (hg : GoMap.get m.mounts name = some c) (hc : c.connections > 0) :
    m.Create fs name opts =
      some ({ c with opts := opts },
        { m with mounts := GoMap.set m.mounts name { c with opts := opts } }, fs) := by
  simp [mountManager.Create, hg, hc]

theorem Create_of_inactive (m : mountManager) (fs : FS) (name : String) (opts : Opts)
    (h : m.IsActiveMount name = false) :
    m.Create fs name opts = m.createManaged fs name opts := by
  unfold mountManager.Create
  cases hg : GoMap.get m.mounts name with
  | none => rfl
  | some c =>
    rw [IsActiveMount_of_get m name c hg] at h
    have hc : ¬ c.connections > 0 := by simpa using h
    simp [hc]

theorem createManaged_eq (m : mountManager) (fs : FS) (name : String) (opts : Opts) :
    m.createManaged fs name opts =
      (ioutil.WriteFile (os.MkdirAll fs (filepath.Join [m.root, ".meta", (filepath.Split name).1])).1
        (createFilePath m.root name) (json.Marshal opts)).map
        (fun fs2 =>
          ({ name := name, hostdir := mountpoint m.root name, connections := 0, opts := opts,
             managed := true },
           { m with
             mounts := GoMap.set m.mounts name
               { name := name, hostdir := mountpoint m.root name, connections := 0,
                 opts := opts, managed := true } },
           fs2)) := by
  unfold mountManager.createManaged createFilePath
  dsimp only
  generalize ioutil.WriteFile _ _ _ = w
  cases w <;> rfl

theorem WriteFile_some (fs fs2 : FS) (p : String) (data : FileData)
    (h : ioutil.WriteFile fs p data = some fs2) :
    p ≠ "" ∧ FS.stat fs p ≠ some Node.dir ∧ fs2 = GoMap.set fs p (Node.file data) := by
  unfold ioutil.WriteFile at h
  cases hs : FS.stat fs p with
  | none =>
    simp only [hs] at h
    split at h
    · rename_i hc
      exact ⟨hc.1, by simp, (Option.some.inj h).symm⟩
    · cases h
  | some nd =>
    cases nd with
    | dir => simp [hs] at h
    | locked => simp [hs] at h
    | file d =>
      simp only [hs] at h
      split at h
      · rename_i hc
        exact ⟨hc.1, by simp, (Option.some.inj h).symm⟩
      · cases h

theorem WriteFile_eq_set (fs fs2 : FS) (p : String) (data : FileData)
    (h : ioutil.WriteFile fs p data = some fs2) : fs2 = GoMap.set fs p (Node.file data) :=
  (WriteFile_some fs fs2 p data h).2.2

theorem ReadFile_WriteFile (fs fs2 : FS) (p : String) (data : FileData)
    (h : ioutil.WriteFile fs p data = some fs2) : FS.read fs2 p = some data := by
  obtain ⟨hp, hs, hfs2⟩ := WriteFile_some fs fs2 p data h
  have hni : implicitDir p = false := by
    by_contra hi
    have hi2 : implicitDir p = true := by simpa using hi
    exact hs (Stat_implicit fs p hp hi2)
  unfold FS.read
  rw [Stat_eq_get fs2 p hp hni, hfs2, GoMap.get_set_self]

/-- What `Create` leaves behind on the path that writes: the managed record
with no connections under `name`, the other names as before, and the options
in the metadata file. -/
theorem createManaged_some (m : mountManager) (fs : FS) (name : String) (opts : Opts)
    (r : mount × mountManager × FS) (h : m.createManaged fs name opts = some r) :
    r.1 = { name := name, hostdir := mountpoint m.root name, connections := 0, opts := opts,
            managed := true }
      ∧ r.2.1.root = m.root
      ∧ GoMap.get r.2.1.mounts name = some r.1
      ∧ (∀ other, other ≠ name → GoMap.get r.2.1.mounts other = GoMap.get m.mounts other)
      ∧ ioutil.WriteFile
          (os.MkdirAll fs (filepath.Join [m.root, ".meta", (filepath.Split name).1])).1
          (createFilePath m.root name) (json.Marshal opts) = some r.2.2
      ∧ FS.read r.2.2 (createFilePath m.root name) = some (json.Marshal opts) := by
  rw [createManaged_eq] at h
  cases hw : ioutil.WriteFile
      (os.MkdirAll fs (filepath.Join [m.root, ".meta", (filepath.Split name).1])).1
      (createFilePath m.root name) (json.Marshal opts) with
  | none => rw [hw] at h; cases h
  | some fs2 =>
    rw [hw] at h
    have hr := (Option.some.inj h).symm
    subst hr
    refine ⟨rfl, rfl, GoMap.get_set_self _ _ _, ?_, rfl, ReadFile_WriteFile _ _ _ _ hw⟩
    intro other hne
    exact GoMap.get_set_ne _ _ _ _ hne

/-- C5, amended: on a record with `connections > 0`, `Create(name, opts)`
returns that record with its options replaced by `opts`, the record in the map
changes in nothing else, the other names and the file system stay as they
were. Otherwise `Create` makes the directory and writes the options to the
metadata file; it panics exactly when that write fails, and when it returns,
it returns the record with `managed = true`, `connections = 0` and the options
`opts`, `name` maps to that record, the other names are as before and the
metadata file holds the JSON of `opts`. -/
theorem Create_spec (m : mountManager) (fs : FS) (name : String) (opts : Opts) :
    (∀ c, GoMap.get m.mounts name = some c → c.connections > 0 →
        ∃ r, m.Create fs name opts = some r
          ∧ r.1 = { c with opts := opts }
          ∧ GoMap.get r.2.1.mounts name = some r.1
          ∧ (∀ other, other ≠ name → GoMap.get r.2.1.mounts other = GoMap.get m.mounts other)
          ∧ r.2.2 = fs)
      ∧ (m.IsActiveMount name = false →
          (m.Create fs name opts = none ↔
              ioutil.WriteFile
                (os.MkdirAll fs (filepath.Join [m.root, ".meta", (filepath.Split name).1])).1
                (createFilePath m.root name) (json.Marshal opts) = none)
            ∧ ∀ r, m.Create fs name opts = some r →
                r.1 = { name := name, hostdir := mountpoint m.root name, connections := 0,
                        opts := opts, managed := true }
                  ∧ GoMap.get r.2.1.mounts name = some r.1
                  ∧ (∀ other, other ≠ name →
                      GoMap.get r.2.1.mounts other = GoMap.get m.mounts other)
                  ∧ (ioutil.ReadFile r.2.2 (createFilePath m.root name)).bind json.Unmarshal
                      = some opts) := by
  constructor
  · intro c hg hc
    refine ⟨_, Create_of_active m fs name opts c hg hc, rfl, GoMap.get_set_self _ _ _, ?_, rfl⟩
    intro other hne
    exact GoMap.get_set_ne _ _ _ _ hne
  · intro hna
    rw [Create_of_inactive m fs name opts hna]
    constructor
    · rw [createManaged_eq]
      cases ioutil.WriteFile
        (os.MkdirAll fs (filepath.Join [m.root, ".meta", (filepath.Split name).1])).1
        (createFilePath m.root name) (json.Marshal opts) <;> simp
    · intro r hr
      obtain ⟨h1, _, h3, h4, _, h6⟩ := createManaged_some m fs name opts r hr
      refine ⟨h1, h3, h4, ?_⟩
      rw [ReadFile_createFilePath, h6]
      rfl

/-- The witness of C5: scenario S5, `Create("tenantA/v6", ...)` on the empty
registry over `/tmp/r1` writes `/tmp/r1/.meta/tenantA/v6`. -/
theorem Create_spec_witness :
    createFilePath "/tmp/r1" "tenantA/v6" = "/tmp/r1/.meta/tenantA/v6"
      ∧ (demoEmpty.Create demoFS "tenantA/v6" demoOpts).isSome = true
      ∧ ∀ r, demoEmpty.Create demoFS "tenantA/v6" demoOpts = some r →
          (ioutil.ReadFile r.2.2 (createFilePath "/tmp/r1" "tenantA/v6")).bind json.Unmarshal
            = some demoOpts :=
  ⟨by decide, by decide,
   fun r hr => (((Create_spec demoEmpty demoFS "tenantA/v6" demoOpts).2 (by decide)).2 r hr).2.2.2⟩

/-- The counterexample to C5: after `Create("tenantA/v6", ...)` on a new
registry over `/tmp/r1`, the name `tenantA` is not in the registry, and
`Create("tenantA", {})` neither writes a file nor returns a record: the path
of its metadata file is a directory, the write fails and `Create` panics. -/
theorem Create_panics_when_write_fails :
    (NewVolumeManager "/tmp/r1" demoFS).bind
        (fun st => run st [Op.Create "tenantA/v6" demoOpts]) = some (demoNested, demoNestedFS)
      ∧ demoNested.HasMount "tenantA" = false
      ∧ demoNested.Create demoNestedFS "tenantA" (some []) = none := by
  decide

/-! ## DeleteIfNotManaged -/

/-- C10: `GetOptionAsBool(name, key)` is true exactly when the record exists,
its options bind `key`, and the lower-cased value is `yes` or `true`. An
absent name, an absent key, and the values `1`, `on`, `y` and the empty string
give false. -/
theorem GetOptionAsBool_spec (m : mountManager) (name key : String) :
    (m.GetOptionAsBool name key = true ↔
        ∃ c v, GoMap.get m.mounts name = some c ∧ Opts.get c.opts key = some v
          ∧ (strings.ToLower v = "yes" ∨ strings.ToLower v = "true"))
      ∧ (GoMap.get m.mounts name = none → m.GetOptionAsBool name key = false)
      ∧ (∀ c, GoMap.get m.mounts name = some c → Opts.get c.opts key = none →
          m.GetOptionAsBool name key = false)
      ∧ (∀ c v, GoMap.get m.mounts name = some c → Opts.get c.opts key = some v →
          v ∈ ["1", "on", "y", ""] → m.GetOptionAsBool name key = false) := by
  have hiff : m.GetOptionAsBool name key = true ↔
      ∃ c v, GoMap.get m.mounts name = some c ∧ Opts.get c.opts key = some v
        ∧ (strings.ToLower v = "yes" ∨ strings.ToLower v = "true") := by
    by_cases ho : m.HasOption name key = true
    · obtain ⟨c, v, hc, hv⟩ := (HasOption_eq_true m name key).1 ho
      have hgo := GetOption_of_get m name key c v hc hv
      unfold mountManager.GetOptionAsBool
      rw [hgo]
      constructor
      · intro h
        refine ⟨c, v, hc, hv, ?_⟩
        by_contra hn
        simp [hn] at h
      · rintro ⟨c', v', hc', hv', hl⟩
        have hcc : c' = c := by rw [hc] at hc'; exact (Option.some.inj hc').symm
        subst hcc
        have hvv : v' = v := by rw [hv] at hv'; exact (Option.some.inj hv').symm
        subst hvv
        simp [hl]
    · have ho2 : m.HasOption name key = false := by simpa using ho
      have hgo := GetOption_of_not_HasOption m name key ho2
      constructor
      · intro h
        unfold mountManager.GetOptionAsBool at h
        rw [hgo] at h
        have hd : (if strings.ToLower "" = "yes" ∨ strings.ToLower "" = "true" then true
            else false) = false := by decide
        rw [hd] at h
        cases h
      · rintro ⟨c, v, hc, hv, _⟩
        exact absurd ((HasOption_eq_true m name key).2 ⟨c, v, hc, hv⟩) ho
  have hfalse : ∀ {P : Prop}, (m.GetOptionAsBool name key = true ↔ P) → ¬ P →
      m.GetOptionAsBool name key = false := by
    intro P h hn
    cases hb : m.GetOptionAsBool name key with
    | false => rfl
    | true => exact absurd (h.1 hb) hn
  refine ⟨hiff, ?_, ?_, ?_⟩
  · intro hg
    apply hfalse hiff
    rintro ⟨c, v, hc, _⟩
    rw [hg] at hc; cases hc
  · intro c hg hk
    apply hfalse hiff
    rintro ⟨c', v, hc', hv, _⟩
    have hcc : c' = c := by rw [hg] at hc'; exact (Option.some.inj hc').symm
    subst hcc
    rw [hk] at hv; cases hv
  · intro c v hg hk hv
    apply hfalse hiff
    rintro ⟨c', v', hc', hv', hl⟩
    have hcc : c' = c := by rw [hg] at hc'; exact (Option.some.inj hc').symm
    subst hcc
    have hvv : v' = v := by rw [hk] at hv'; exact (Option.some.inj hv').symm
    subst hvv
    simp only [List.mem_cons, List.mem_singleton, List.not_mem_nil, or_false] at hv
    rcases hv with h | h | h | h <;> subst h <;> revert hl <;> decide

/-- The witness of C10: `create = TRUE` is true, `flag = 1` is false, and so is
a key that is not there. -/
theorem GetOptionAsBool_spec_witness :
    demoBool.GetOptionAsBool "v1" "create" = true
      ∧ demoBool.GetOptionAsBool "v1" "flag" = false
      ∧ demoBool.GetOptionAsBool "v1" "missing" = false
      ∧ demoBool.GetOptionAsBool "v2" "create" = false :=
  ⟨(GetOptionAsBool_spec demoBool "v1" "create").1.2
      ⟨_, "TRUE", rfl, rfl, Or.inr (by decide)⟩,
   (GetOptionAsBool_spec demoBool "v1" "flag").2.2.2 _ "1" rfl rfl (by decide),
   (GetOptionAsBool_spec demoBool "v1" "missing").2.2.1 _ rfl rfl,
   (GetOptionAsBool_spec demoBool "v2" "create").2.1 rfl⟩

/-! ## The reference count is never negative -/

theorem NonNeg_set (m : mountManager) (name : String) (c : mount) (h : NonNeg m)
    (hc : 0 ≤ c.connections) : NonNeg { m with mounts := GoMap.set m.mounts name c } := by
  intro n c' hg
  by_cases hn : n = name
  · subst hn
    rw [GoMap.get_set_self] at hg
    cases hg
    exact hc
  · rw [GoMap.get_set_ne _ _ _ _ hn] at hg
    exact h n c' hg

theorem NonNeg_del (m : mountManager) (name : String) (h : NonNeg m) :
    NonNeg { m with mounts := GoMap.del m.mounts name } := by
  intro n c' hg
  by_cases hn : n = name
  · subst hn
    rw [GoMap.get_del_self] at hg
    cases hg
  · rw [GoMap.get_del_ne _ _ _ hn] at hg
    exact h n c' hg

theorem NonNeg_Add (m : mountManager) (name : String) (h : NonNeg m)
    (hw : m.Count name < maxInt) : NonNeg (m.Add name) := by
  cases hg : GoMap.get m.mounts name with
  | none =>
    rw [Add_of_absent m name hg]
    exact NonNeg_set m name _ h (by show (0 : Int) ≤ 1; decide)
  | some c =>
    rw [Add_of_present m name c hg]
    have hc := h name c hg
    rw [Count_of_get m name c hg] at hw
    exact NonNeg_set m name _ h (by
      show 0 ≤ wrapInt (c.connections + 1)
      rw [wrapInt_succ _ hc hw]
      omega)

theorem NonNeg_Increment (m : mountManager) (name : String) (h : NonNeg m)
    (hw : m.Count name < maxInt) : NonNeg (m.Increment name).2 := by
  cases hg : GoMap.get m.mounts name with
  | none => simpa [mountManager.Increment, hg] using h
  | some c =>
    rw [Increment_of_present m name c hg]
    have hc := h name c hg
    rw [Count_of_get m name c hg] at hw
    exact NonNeg_set m name _ h (by
      show 0 ≤ wrapInt (c.connections + 1)
      rw [wrapInt_succ _ hc hw]
      omega)

theorem NonNeg_Decrement (m : mountManager) (name : String) (h : NonNeg m) :
    NonNeg (m.Decrement name).2 := by
  unfold mountManager.Decrement
  cases hg : GoMap.get m.mounts name with
  | none => exact h
  | some c =>
    by_cases hc : c.connections > 0
    · simp only [hc, if_true]
      exact NonNeg_set m name _ h (by show 0 ≤ c.connections - 1; omega)
    · simp only [hc, if_false]
      exact h

theorem NonNeg_Delete (m : mountManager) (fs : FS) (name : String) (h : NonNeg m) :
    NonNeg (m.Delete fs name).2.1 := by
  unfold mountManager.Delete
  split
  · split
    · exact NonNeg_del m name h
    · exact h
  · exact h

theorem NonNeg_DeleteIfNotManaged (m : mountManager) (fs : FS) (name : String)
    (h : NonNeg m) : NonNeg (m.DeleteIfNotManaged fs name).2.1 := by
  unfold mountManager.DeleteIfNotManaged
  split
  · exact NonNeg_Delete m fs name h
  · exact h

theorem NonNeg_Create (m : mountManager) (fs : FS) (name : String) (opts : Opts)
    (r : mount × mountManager × FS) (h : NonNeg m) (hr : m.Create fs name opts = some r) :
    NonNeg r.2.1 := by
  by_cases ha : m.IsActiveMount name = true
  · unfold mountManager.IsActiveMount at ha
    cases hg : GoMap.get m.mounts name with
    | none => simp [hg] at ha
    | some c =>
      have hc : c.connections > 0 := by simpa [hg] using ha
      rw [Create_of_active m fs name opts c hg hc] at hr
      have hr2 := (Option.some.inj hr).symm
      subst hr2
      exact NonNeg_set m name _ h (by show 0 ≤ c.connections; omega)
  · have ha2 : m.IsActiveMount name = false := by simpa using ha
    rw [Create_of_inactive m fs name opts ha2, createManaged_eq] at hr
    cases hw : ioutil.WriteFile
        (os.MkdirAll fs (filepath.Join [m.root, ".meta", (filepath.Split name).1])).1
        (createFilePath m.root name) (json.Marshal opts) with
    | none => rw [hw] at hr; cases hr
    | some fs2 =>
      rw [hw] at hr
      have hr2 := (Option.some.inj hr).symm
      subst hr2
      exact NonNeg_set m name _ h (by show (0 : Int) ≤ 0; decide)

theorem NonNeg_step (st st1 : mountManager × FS) (op : Op) (h : NonNeg st.1)
    (hw : stepNoWrap st op = true) (hs : step st op = some st1) : NonNeg st1.1 := by
  cases op with
  | Add name =>
    have e := (Option.some.inj hs).symm
    subst e
    exact NonNeg_Add _ name h (by simpa [stepNoWrap] using hw)
  | Create name opts =>
    unfold step at hs
    cases hc : st.1.Create st.2 name opts with
    | none => simp [hc] at hs
    | some r =>
      simp only [hc] at hs
      have e := (Option.some.inj hs).symm
      subst e
      exact NonNeg_Create _ _ name opts r h hc
  | Increment name =>
    have e := (Option.some.inj hs).symm
    subst e
    exact NonNeg_Increment _ name h (by simpa [stepNoWrap] using hw)
  | Decrement name =>
    have e := (Option.some.inj hs).symm
    subst e
    exact NonNeg_Decrement _ name h
  | Delete name =>
    have e := (Option.some.inj hs).symm
    subst e
    exact NonNeg_Delete _ _ name h
  | DeleteIfNotManaged name =>
    have e := (Option.some.inj hs).symm
    subst e
    exact NonNeg_DeleteIfNotManaged _ _ name h

theorem NonNeg_run (ops : List Op) (st st1 : mountManager × FS) (h : NonNeg st.1)
    (hw : runNoWrap st ops = true) (hr : run st ops = some st1) : NonNeg st1.1 := by
  induction ops generalizing st with
  | nil =>
    have e := (Option.some.inj hr).symm
    subst e
    exact h
  | cons op ops ih =>
    unfold run at hr
    unfold runNoWrap at hw
    cases hs : step st op with
    | none => simp [hs] at hr
    | some st2 =>
      simp only [hs, Bool.and_eq_true] at hr hw
      exact ih st2 (NonNeg_step st st2 op h hw.1 hs) hw.2 hr

theorem NonNeg_loadEntry (st st1 : mountManager × FS) (path : String) (h : NonNeg st.1)
    (hl : loadEntry st path = some st1) : NonNeg st1.1 := by
  unfold loadEntry at hl
  split at hl
  · cases hl
  · cases hl; exact h
  · split at hl
    · cases hl; exact h
    · split at hl
      · split at hl
        · rename_i r hc
          cases hl
          exact NonNeg_Create _ _ _ _ r h hc
        · cases hl
      · cases hl; exact h

theorem NonNeg_loadEntries (ps : List String) (st st1 : mountManager × FS) (h : NonNeg st.1)
    (hl : loadEntries ps st = some st1) : NonNeg st1.1 := by
  induction ps generalizing st with
  | nil =>
    have e := (Option.some.inj hl).symm
    subst e
    exact h
  | cons p ps ih =>
    unfold loadEntries at hl
    cases hs : loadEntry st p with
    | none => simp [hs] at hl
    | some st2 =>
      simp only [hs] at hl
      exact ih st2 (NonNeg_loadEntry st st2 p h hs) hl

theorem NonNeg_NewVolumeManager (root : String) (fs : FS) (st : mountManager × FS)
    (h : NewVolumeManager root fs = some st) : NonNeg st.1 := by
  have h0 : NonNeg { root := root, mounts := [] } := by
    intro n c hg
    cases hg
  unfold NewVolumeManager at h
  dsimp only at h
  split at h
  · cases h; exact h0
  · exact NonNeg_loadEntries _ _ st h0 h

/-- The run of `k` calls of `Add("v2")` on the registry that holds `v2` with
`c0` connections, as long as the counter stays within `int`. -/
theorem run_Add_demoCounted (fs : FS) (k : Nat) (c0 : Int) (h0 : 0 ≤ c0)
    (hk : c0 + k ≤ maxInt) :
    run (demoCounted c0, fs) (List.replicate k (Op.Add "v2"))
      = some (demoCounted (c0 + k), fs) := by
  induction k generalizing c0 with
  | zero =>
    have e : c0 + ((0 : Nat) : Int) = c0 := by simp
    rw [e]
    rfl
  | succ k ih =>
    have hlt : c0 < maxInt := by
      have : (0 : Int) ≤ (k : Int) := Int.ofNat_nonneg k
      push_cast at hk
      omega
    have hs : step (demoCounted c0, fs) (Op.Add "v2") = some (demoCounted (c0 + 1), fs) := by
      have hg : GoMap.get (demoCounted c0).mounts "v2"
          = some { name := "v2", hostdir := "/tmp/r1/v2", connections := c0, opts := none,
                   managed := false } := by
        simp [demoCounted, GoMap.get]
      show some ((demoCounted c0).Add "v2", fs) = _
      rw [Add_of_present _ _ _ hg]
      simp only [wrapInt_succ c0 h0 hlt]
      simp [demoCounted, GoMap.set, GoMap.del]
    have e : c0 + ((k + 1 : Nat) : Int) = c0 + 1 + (k : Int) := by
      push_cast
      omega
    rw [List.replicate_succ, e]
    show (match step (demoCounted c0, fs) (Op.Add "v2") with
      | some st1 => run st1 (List.replicate k (Op.Add "v2"))
      | none => none) = _
    rw [hs]
    exact ih (c0 + 1) (by omega) (by rw [← e]; exact hk)

theorem run_cons (op : Op) (ops : List Op) (st : mountManager × FS) :
    run st (op :: ops) = (step st op).bind (fun s => run s ops) := by
  show (match step st op with
    | some st1 => run st1 ops
    | none => none) = _
  cases step st op <;> rfl

theorem run_append (ops1 ops2 : List Op) (st : mountManager × FS) :
    run st (ops1 ++ ops2) = (run st ops1).bind (fun s => run s ops2) := by
  induction ops1 generalizing st with
  | nil => rfl
  | cons op ops ih =>
    show (match step st op with
      | some st1 => run st1 (ops ++ ops2)
      | none => none) = (match step st op with
      | some st1 => run st1 ops
      | none => none).bind (fun s => run s ops2)
    cases step st op with
    | none => rfl
    | some st1 => exact ih st1

/-- The state after 2^63 - 1 calls of `Add("v2")` on a new registry over
`/tmp/r1`. -/
theorem run_to_demoFull :
    (NewVolumeManager "/tmp/r1" demoFS).bind
        (fun st0 => run st0
          (Op.Add "v2" :: List.replicate 9223372036854775806 (Op.Add "v2")))
      = some (demoFull, demoNew.2) := by
  have h1 : NewVolumeManager "/tmp/r1" demoFS = some demoNew := by decide
  have h2 : step demoNew (Op.Add "v2") = some (demoCounted 1, demoNew.2) := by decide
  have h3 := run_Add_demoCounted demoNew.2 9223372036854775806 1 (by decide) (by decide)
  have e : (1 : Int) + ((9223372036854775806 : Nat) : Int) = 9223372036854775807 := by decide
  rw [e] at h3
  rw [h1, Option.some_bind, run_cons, h2, Option.some_bind]
  exact h3

/-- The state after 2^63 calls of `Add("v2")` on a new registry over
`/tmp/r1`. -/
theorem run_to_demoWrapped :
    (NewVolumeManager "/tmp/r1" demoFS).bind
        (fun st0 => run st0
          (Op.Add "v2" :: (List.replicate 9223372036854775806 (Op.Add "v2") ++ [Op.Add "v2"])))
      = some (demoWrapped, demoNew.2) := by
  have h1 : NewVolumeManager "/tmp/r1" demoFS = some demoNew := by decide
  have h2 : step demoNew (Op.Add "v2") = some (demoCounted 1, demoNew.2) := by decide
  have h3 := run_Add_demoCounted demoNew.2 9223372036854775806 1 (by decide) (by decide)
  have e : (1 : Int) + ((9223372036854775806 : Nat) : Int) = 9223372036854775807 := by decide
  rw [e] at h3
  have h4 : run (demoCounted 9223372036854775807, demoNew.2) [Op.Add "v2"]
      = some (demoWrapped, demoNew.2) := by decide
  rw [h1, Option.some_bind, run_cons, h2, Option.some_bind, run_append, h3, Option.some_bind]
  exact h4

/-- C4, amended: in every state reached from a newly constructed registry by a
sequence of `Add`, `Create`, `Increment`, `Decrement`, `Delete` and
`DeleteIfNotManaged` calls of which no `Add` or `Increment` is made on a name
whose count is 2^63 - 1 or more, `Count(name)` is at least 0 for every name,
and no record has a negative `connections` field. -/
theorem Count_nonneg (root : String) (fs : FS) (ops : List Op) (st0 st : mountManager × FS)
    (name : String) (h0 : NewVolumeManager root fs = some st0)
    (hw : runNoWrap st0 ops = true) (hr : run st0 ops = some st) :
    0 ≤ st.1.Count name ∧ NonNeg st.1 := by
  have hn : NonNeg st.1 :=
    NonNeg_run ops st0 st (NonNeg_NewVolumeManager root fs st0 h0) hw hr
  refine ⟨?_, hn⟩
  unfold mountManager.Count
  cases hg : GoMap.get st.1.mounts name with
  | none => exact le_refl 0
  | some c => exact hn name c hg

/-- The witness of C4: scenario S2 with one `Decrement` too many. -/
theorem Count_nonneg_witness :
    0 ≤ ((((demoEmpty.Add "v2").Decrement "v2").2.Decrement "v2").2.Decrement "v2").2.Count "v2" :=
  (Count_nonneg "/tmp/r1" demoFS
    [Op.Add "v2", Op.Decrement "v2", Op.Decrement "v2", Op.Decrement "v2"]
    (demoEmpty, ("/tmp/r1/.meta", Node.dir) :: demoFS)
    (((((demoEmpty.Add "v2").Decrement "v2").2.Decrement "v2").2.Decrement "v2").2,
      ("/tmp/r1/.meta", Node.dir) :: demoFS) "v2" (by decide) (by decide) (by decide)).1

/-- C4, counterexample: 2^63 calls of `Add("v2")` on a new registry over
`/tmp/r1`. The first inserts the record with one connection, the next
2^63 - 2 take the counter to 2^63 - 1, and the last one wraps it:
`Count("v2")` is -2^63. -/
theorem Count_negative_after_wrap :
    (NewVolumeManager "/tmp/r1" demoFS).bind
        (fun st0 => run st0
          (Op.Add "v2" :: (List.replicate 9223372036854775806 (Op.Add "v2") ++ [Op.Add "v2"])))
        = some (demoWrapped, demoNew.2)
      ∧ demoWrapped.Count "v2" = -9223372036854775808
      ∧ demoWrapped.Count "v2" < 0 :=
  ⟨run_to_demoWrapped, by decide, by decide⟩

/-- C6, counterexample: 2^63 - 1 calls of `Add("v2")` on a new registry over
`/tmp/r1` leave `Count("v2") = 2^63 - 1`, and one more `Add("v2")`, which is
`Increment("v2")`, does not make it grow by 1: the counter wraps to -2^63. -/
theorem Add_wraps_Count_at_maxInt :
    (NewVolumeManager "/tmp/r1" demoFS).bind
        (fun st0 => run st0
          (Op.Add "v2" :: List.replicate 9223372036854775806 (Op.Add "v2")))
        = some (demoFull, demoNew.2)
      ∧ demoFull.Count "v2" = 9223372036854775807
      ∧ demoFull.Add "v2" = (demoFull.Increment "v2").2
      ∧ (demoFull.Increment "v2").1 = -9223372036854775808
      ∧ (demoFull.Add "v2").Count "v2" = -9223372036854775808 :=
  ⟨run_to_demoFull, by decide, by decide, by decide, by decide⟩

/-! ## Reload -/

/-- C3 at the input of scenario S5: `Create("tenantA/v6", ...)` on a new
registry over `/tmp/r1` writes `/tmp/r1/.meta/tenantA/v6`; a second registry
over the same root then has no record `tenantA/v6`. The walk hands `Create`
the base name of the file, so the record is `v6`. -/
theorem reload_loses_nested_name :
    (NewVolumeManager "/tmp/r1" demoFS).bind
        (fun st => run st [Op.Create "tenantA/v6" demoOpts]) = some (demoNested, demoNestedFS)
      ∧ (NewVolumeManager "/tmp/r1" demoNestedFS).map
          (fun st => (st.1.HasMount "tenantA/v6", st.1.HasMount "v6", st.1.GetOptions "v6"))
          = some (false, true, demoOpts) := by
  decide

/-! ## The file system away from the path of a call -/

theorem Stat_set_ne (fs : FS) (p q : String) (nd : Node) (h : p ≠ q) :
    FS.stat (GoMap.set fs q nd) p = FS.stat fs p := by
  unfold FS.stat
  rw [GoMap.get_set_ne _ _ _ _ h]

theorem Stat_del_ne (fs : FS) (p q : String) (h : p ≠ q) :
    FS.stat (GoMap.del fs q) p = FS.stat fs p := by
  unfold FS.stat
  rw [GoMap.get_del_ne _ _ _ h]

theorem Stat_Mkdir (fs : FS) (q p : String) (nd : Node) (h : FS.stat fs p = some nd) :
    FS.stat (FS.mkdir fs q).1 p = some nd := by
  unfold FS.mkdir
  cases hq : FS.stat fs q with
  | some _ => exact h
  | none =>
    have hne : p ≠ q := by
      intro e
      rw [e, hq] at h
      cases h
    dsimp only
    split
    · rw [Stat_set_ne _ _ _ _ hne]; exact h
    · exact h

theorem Stat_mkdirAllElems (r : Bool) (es : List (List Char)) (fs : FS) (p : String) (nd : Node)
    (h : FS.stat fs p = some nd) : FS.stat (mkdirAllElems r es fs).1 p = some nd := by
  induction es generalizing fs with
  | nil => exact h
  | cons e rest ih =>
    unfold mkdirAllElems
    split
    · exact h
    · exact h
    · exact h
    · have h1 := ih fs h
      split
      · rename_i fs1 heq
        rw [heq] at h1
        exact Stat_Mkdir fs1 _ p nd h1
      · rename_i fs1 heq
        rw [heq] at h1
        exact h1

theorem Stat_MkdirAll (fs : FS) (q p : String) (nd : Node) (h : FS.stat fs p = some nd) :
    FS.stat (os.MkdirAll fs q).1 p = some nd := by
  unfold os.MkdirAll
  split
  · exact h
  · exact Stat_mkdirAllElems _ _ fs p nd h

theorem Stat_WriteFile_ne (fs fs2 : FS) (p q : String) (data : FileData)
    (h : ioutil.WriteFile fs q data = some fs2) (hne : p ≠ q) :
    FS.stat fs2 p = FS.stat fs p := by
  rw [WriteFile_eq_set fs fs2 q data h, Stat_set_ne _ _ _ _ hne]

theorem Stat_Remove_ne (fs : FS) (p q : String) (hne : p ≠ q) :
    FS.stat (os.Remove fs q) p = FS.stat fs p := by
  unfold os.Remove
  split
  · rfl
  · split
    · exact Stat_del_ne fs p q hne
    · exact Stat_del_ne fs p q hne
    · split
      · rfl
      · exact Stat_del_ne fs p q hne
    · rfl

theorem ReadFile_eq_some (fs : FS) (p : String) (d : FileData) :
    FS.read fs p = some d ↔ FS.stat fs p = some (Node.file d) := by
  unfold FS.read
  cases hs : FS.stat fs p with
  | none => simp
  | some nd =>
    cases nd with
    | dir => simp
    | file d2 => simp
    | locked => simp

theorem ReadFile_of_Stat_eq (fs1 fs2 : FS) (p : String) (h : FS.stat fs1 p = FS.stat fs2 p) :
    FS.read fs1 p = FS.read fs2 p := by
  unfold FS.read
  rw [h]

/-! ## Managed records and their metadata files -/

theorem no_sep_lastElemRev (x : List Char) : '/' ∉ lastElemRev x := by
  induction x with
  | nil => simp [lastElemRev]
  | cons c cs ih =>
    by_cases hc : c = '/'
    · simp [lastElemRev, hc]
    · simp only [lastElemRev, hc, if_false, List.mem_cons, not_or]
      exact ⟨fun e => hc e.symm, ih⟩

/-- The base name of a path that is not one of the directories always there
is a clean name. -/
theorem cleanName_Base (p : String) (h : implicitDir p = false) :
    cleanName (filepath.Base p) = true := by
  simp only [implicitDir, Bool.or_eq_false_iff, decide_eq_false_iff_not] at h
  obtain ⟨⟨h1, h2⟩, h3⟩ := h
  unfold filepath.Base at h1 h2 h3 ⊢
  by_cases hp : p = ""
  · simp [hp] at h2
  · simp only [hp, if_false] at h1 h2 h3 ⊢
    by_cases hf : (lastElemRev (dropSepRev p.data.reverse)).reverse = []
    · simp [hf] at h1
    · simp only [hf, if_false] at h1 h2 h3 ⊢
      have hns : '/' ∉ (lastElemRev (dropSepRev p.data.reverse)).reverse := by
        rw [List.mem_reverse]
        exact no_sep_lastElemRev _
      rw [cleanName_iff]
      intro e he
      rw [splitSep_of_no_sep _ hns, List.mem_singleton] at he
      subst he
      rw [normalElem_iff]
      refine ⟨hf, ?_, ?_⟩
      · intro e
        apply h2
        rw [e]
      · intro e
        apply h3
        rw [e]

theorem Opts.get_of_len_zero (o : Opts) (key : String) (h : ¬ (o ≠ none ∧ Opts.len o > 0)) :
    Opts.get o key = none := by
  cases o with
  | none => rfl
  | some l =>
    cases hg : GoMap.get l key with
    | none => simpa [Opts.get] using hg
    | some v =>
      exfalso
      apply h
      exact ⟨by simp, GoMap.len_pos_of_get l key v hg⟩

theorem GetOptions_same (m : mountManager) (name : String) (c : mount)
    (hg : GoMap.get m.mounts name = some c) : Opts.same c.opts (m.GetOptions name) := by
  intro key
  unfold mountManager.GetOptions mountManager.HasOptions
  simp only [hg]
  by_cases h : c.opts ≠ none ∧ Opts.len c.opts > 0
  · simp [h.1, h.2]
  · have h1 := Opts.get_of_len_zero c.opts key h
    rw [h1]
    have h2 : (decide (c.opts ≠ none) && decide (Opts.len c.opts > 0)) = false := by
      rw [Bool.and_eq_false_iff]
      by_cases h3 : c.opts ≠ none
      · right
        simpa using fun h4 => h ⟨h3, h4⟩
      · left
        simpa using h3
    rw [h2]
    rfl

theorem Opts.key_mem_iff (a : Opts) (key : String) :
    key ∈ Opts.keys a ↔ Opts.get a key ≠ none := by
  cases a with
  | none => simp [Opts.keys, Opts.get]
  | some m => exact GoMap.mem_keys m key

theorem Opts.sameb_iff (a b : Opts) : Opts.sameb a b = true ↔ Opts.same a b := by
  unfold Opts.sameb Opts.same
  rw [List.all_eq_true]
  constructor
  · intro h key
    by_cases hk : key ∈ Opts.keys a ++ Opts.keys b
    · simpa using h key hk
    · rw [List.mem_append, not_or, Opts.key_mem_iff, Opts.key_mem_iff] at hk
      have h1 : Opts.get a key = none := by simpa using hk.1
      have h2 : Opts.get b key = none := by simpa using hk.2
      rw [h1, h2]
  · intro h key _
    simpa using h key

theorem Opts.same_trans (a b c : Opts) (h1 : Opts.same a b) (h2 : Opts.same b c) :
    Opts.same a c := fun key => (h1 key).trans (h2 key)

theorem ManagedFilesOK_of_Inv (st : mountManager × FS) (h : ManagedInv st) :
    ManagedFilesOK st := by
  intro name c hg hm
  obtain ⟨_, o, hr, hs⟩ := h name c hg hm
  refine ⟨o, ?_, Opts.same_trans _ _ _ hs (GetOptions_same st.1 name c hg)⟩
  unfold metaFileOpts
  rw [ReadFile_Join, hr]
  rfl

/-- A record put in place of a managed one with, as a map, the same options,
or an unmanaged record, keeps the invariant. -/
theorem ManagedInv_set (m : mountManager) (fs : FS) (name : String) (c1 : mount)
    (h : ManagedInv (m, fs))
    (hc : c1.managed = true →
      ∃ c, GoMap.get m.mounts name = some c ∧ c.managed = true ∧ Opts.same c.opts c1.opts) :
    ManagedInv ({ m with mounts := GoMap.set m.mounts name c1 }, fs) := by
  intro n c hg hm
  by_cases hn : n = name
  · subst hn
    have hg1 : GoMap.get (GoMap.set m.mounts n c1) n = some c := hg
    rw [GoMap.get_set_self] at hg1
    have e := Option.some.inj hg1
    subst e
    obtain ⟨c0, hg0, hm0, ho0⟩ := hc hm
    obtain ⟨h1, o, h2, h3⟩ := h n c0 hg0 hm0
    exact ⟨h1, o, h2, Opts.same_trans _ _ _ h3 ho0⟩
  · have hg1 : GoMap.get (GoMap.set m.mounts name c1) n = some c := hg
    rw [GoMap.get_set_ne _ _ _ _ hn] at hg1
    exact h n c hg1 hm

theorem ManagedInv_Add (m : mountManager) (fs : FS) (name : String)
    (h : ManagedInv (m, fs)) : ManagedInv (m.Add name, fs) := by
  cases hg : GoMap.get m.mounts name with
  | none =>
    rw [Add_of_absent m name hg]
    exact ManagedInv_set m fs name _ h (fun hm => by cases hm)
  | some c =>
    rw [Add_of_present m name c hg]
    exact ManagedInv_set m fs name _ h (fun hm => ⟨c, hg, hm, fun _ => rfl⟩)

theorem ManagedInv_Increment (m : mountManager) (fs : FS) (name : String)
    (h : ManagedInv (m, fs)) : ManagedInv ((m.Increment name).2, fs) := by
  cases hg : GoMap.get m.mounts name with
  | none =>
    have e : m.Increment name = (0, m) := by simp [mountManager.Increment, hg]
    rw [e]
    exact h
  | some c =>
    rw [Increment_of_present m name c hg]
    exact ManagedInv_set m fs name _ h (fun hm => ⟨c, hg, hm, fun _ => rfl⟩)

theorem ManagedInv_Decrement (m : mountManager) (fs : FS) (name : String)
    (h : ManagedInv (m, fs)) : ManagedInv ((m.Decrement name).2, fs) := by
  unfold mountManager.Decrement
  cases hg : GoMap.get m.mounts name with
  | none => exact h
  | some c =>
    by_cases hc : c.connections > 0
    · simp only [hc, if_true]
      exact ManagedInv_set m fs name _ h (fun hm => ⟨c, hg, hm, fun _ => rfl⟩)
    · simp only [hc, if_false]
      exact h

theorem ManagedInv_remove (m : mountManager) (fs : FS) (name : String)
    (hn : cleanName name = true) (h : ManagedInv (m, fs)) :
    ManagedInv ({ m with mounts := GoMap.del m.mounts name },
      os.Remove fs (filepath.Join [m.root, ".meta", name])) := by
  intro n c hg hm
  by_cases hnn : n = name
  · subst hnn
    have hg1 : GoMap.get (GoMap.del m.mounts n) n = some c := hg
    rw [GoMap.get_del_self] at hg1
    cases hg1
  · have hg1 : GoMap.get (GoMap.del m.mounts name) n = some c := hg
    rw [GoMap.get_del_ne _ _ _ hnn] at hg1
    obtain ⟨h1, o, h2, h3⟩ := h n c hg1 hm
    refine ⟨h1, o, ?_, h3⟩
    have hp : filepath.Join [m.root, ".meta", n] ≠ filepath.Join [m.root, ".meta", name] :=
      fun e => hnn (Join_meta_name_inj m.root n name h1 hn e)
    show FS.read (os.Remove fs _) (filepath.Join [m.root, ".meta", n]) = _
    rw [ReadFile_of_Stat_eq _ fs _ (Stat_Remove_ne fs _ _ hp)]
    exact h2

theorem ManagedInv_Delete (m : mountManager) (fs : FS) (name : String)
    (hn : cleanName name = true) (h : ManagedInv (m, fs)) :
    ManagedInv ((m.Delete fs name).2.1, (m.Delete fs name).2.2) := by
  unfold mountManager.Delete
  split
  · split
    · exact ManagedInv_remove m fs name hn h
    · exact h
  · exact h

theorem ManagedInv_DeleteIfNotManaged (m : mountManager) (fs : FS) (name : String)
    (hn : cleanName name = true) (h : ManagedInv (m, fs)) :
    ManagedInv ((m.DeleteIfNotManaged fs name).2.1, (m.DeleteIfNotManaged fs name).2.2) := by
  unfold mountManager.DeleteIfNotManaged
  split
  · exact ManagedInv_Delete m fs name hn h
  · exact h

theorem ManagedInv_createManaged (m : mountManager) (fs : FS) (name : String) (opts : Opts)
    (r : mount × mountManager × FS) (hn : cleanName name = true) (h : ManagedInv (m, fs))
    (hr : m.createManaged fs name opts = some r) : ManagedInv (r.2.1, r.2.2) := by
  obtain ⟨h1, h2, h3, h4, h5, h6⟩ := createManaged_some m fs name opts r hr
  intro n c hg hm
  have hg1 : GoMap.get r.2.1.mounts n = some c := hg
  show cleanName n = true ∧
    ∃ o, FS.read r.2.2 (filepath.Join [r.2.1.root, ".meta", n]) = some (json.Marshal o)
      ∧ Opts.same o c.opts
  rw [h2]
  by_cases hnn : n = name
  · subst hnn
    rw [h3] at hg1
    have e := Option.some.inj hg1
    refine ⟨hn, opts, ?_, ?_⟩
    · rw [← createFilePath_eq m.root n hn, h6]
    · rw [← e, h1]
      exact fun _ => rfl
  · rw [h4 n hnn] at hg1
    obtain ⟨g1, o, g2, g3⟩ := h n c hg1 hm
    refine ⟨g1, o, ?_, g3⟩
    have hp : filepath.Join [m.root, ".meta", n] ≠ createFilePath m.root name := by
      rw [createFilePath_eq m.root name hn]
      exact fun e => hnn (Join_meta_name_inj m.root n name g1 hn e)
    have hs0 : FS.stat fs (filepath.Join [m.root, ".meta", n])
        = some (Node.file (json.Marshal o)) := (ReadFile_eq_some _ _ _).1 g2
    rw [ReadFile_eq_some, Stat_WriteFile_ne _ _ _ _ _ h5 hp]
    exact Stat_MkdirAll fs _ _ _ hs0

theorem ManagedInv_step (st st1 : mountManager × FS) (op : Op) (h : ManagedInv st)
    (hok : stepOK st op = true) (hs : step st op = some st1) : ManagedInv st1 := by
  obtain ⟨m, fs⟩ := st
  cases op with
  | Add name =>
    have e := (Option.some.inj hs).symm
    subst e
    exact ManagedInv_Add m fs name h
  | Create name opts =>
    unfold step at hs
    dsimp only at hs
    by_cases ha : ∃ c, GoMap.get m.mounts name = some c ∧ c.connections > 0
    · obtain ⟨c, hg, hc⟩ := ha
      have hok2 : (!c.managed || Opts.sameb c.opts opts) = true := by
        simpa [stepOK, hg, hc] using hok
      rw [Create_of_active m fs name opts c hg hc] at hs
      have e := (Option.some.inj hs).symm
      subst e
      refine ManagedInv_set m fs name _ h (fun hm => ⟨c, hg, hm, ?_⟩)
      have hm2 : c.managed = true := hm
      rw [hm2] at hok2
      exact (Opts.sameb_iff _ _).1 (by simpa using hok2)
    · have hna : m.IsActiveMount name = false := by
        cases hg : GoMap.get m.mounts name with
        | none => exact IsActiveMount_of_absent m name hg
        | some c =>
          rw [IsActiveMount_of_get m name c hg]
          simpa using fun hc => ha ⟨c, hg, hc⟩
      have hcl : cleanName name = true := by
        cases hg : GoMap.get m.mounts name with
        | none => simpa [stepOK, hg] using hok
        | some c =>
          have hc : ¬ c.connections > 0 := fun hc => ha ⟨c, hg, hc⟩
          simpa [stepOK, hg, hc] using hok
      rw [Create_of_inactive m fs name opts hna] at hs
      cases hc : m.createManaged fs name opts with
      | none => simp [hc] at hs
      | some r =>
        simp only [hc] at hs
        have e := (Option.some.inj hs).symm
        subst e
        exact ManagedInv_createManaged m fs name opts r hcl h hc
  | Increment name =>
    have e := (Option.some.inj hs).symm
    subst e
    exact ManagedInv_Increment m fs name h
  | Decrement name =>
    have e := (Option.some.inj hs).symm
    subst e
    exact ManagedInv_Decrement m fs name h
  | Delete name =>
    have e := (Option.some.inj hs).symm
    subst e
    exact ManagedInv_Delete m fs name hok h
  | DeleteIfNotManaged name =>
    have e := (Option.some.inj hs).symm
    subst e
    exact ManagedInv_DeleteIfNotManaged m fs name hok h

theorem ManagedInv_run (ops : List Op) (st st1 : mountManager × FS) (h : ManagedInv st)
    (hok : runOK st ops = true) (hr : run st ops = some st1) : ManagedInv st1 := by
  induction ops generalizing st with
  | nil =>
    have e := (Option.some.inj hr).symm
    subst e
    exact h
  | cons op ops ih =>
    unfold run at hr
    unfold runOK at hok
    cases hs : step st op with
    | none => simp [hs] at hr
    | some st2 =>
      simp only [hs, Bool.and_eq_true] at hr hok
      exact ih st2 (ManagedInv_step st st2 op h hok.1 hs) hok.2 hr

theorem Idle_createManaged (m : mountManager) (fs : FS) (name : String) (opts : Opts)
    (r : mount × mountManager × FS) (h : Idle m) (hr : m.createManaged fs name opts = some r) :
    Idle r.2.1 := by
  obtain ⟨h1, _, h3, h4, _, _⟩ := createManaged_some m fs name opts r hr
  intro n c hg
  by_cases hn : n = name
  · subst hn
    rw [h3] at hg
    have e := Option.some.inj hg
    rw [← e, h1]
  · rw [h4 n hn] at hg
    exact h n c hg

theorem IsActiveMount_of_Idle (m : mountManager) (name : String) (h : Idle m) :
    m.IsActiveMount name = false := by
  cases hg : GoMap.get m.mounts name with
  | none => exact IsActiveMount_of_absent m name hg
  | some c =>
    rw [IsActiveMount_of_get m name c hg]
    have hc := h name c hg
    simpa using hc

theorem ManagedInv_loadEntry (st st1 : mountManager × FS) (path : String)
    (hp : filepath.Clean path = path)
    (h : ManagedInv st ∧ Idle st.1) (hl : loadEntry st path = some st1) :
    ManagedInv st1 ∧ Idle st1.1 := by
  obtain ⟨m, fs⟩ := st
  unfold loadEntry at hl
  dsimp only at hl
  rw [Stat_clean fs path hp, ReadFile_clean fs path hp] at hl
  cases hs : FS.stat fs path with
  | none => simp [hs] at hl
  | some nd =>
    cases nd with
    | dir =>
      simp only [hs] at hl
      cases hl
      exact h
    | locked =>
      have hr : FS.read fs path = none := by simp [FS.read, hs]
      simp only [hs, hr] at hl
      cases hl
      exact h
    | file d =>
      have hni : implicitDir path = false := by
        by_contra hi
        have hi2 : implicitDir path = true := by simpa using hi
        simp [FS.stat, hi2] at hs
      simp only [hs] at hl
      split at hl
      · cases hl; exact h
      · split at hl
        · rename_i opts _
          rw [Create_of_inactive m fs _ opts (IsActiveMount_of_Idle m _ h.2)] at hl
          split at hl
          · rename_i r hc
            cases hl
            exact ⟨ManagedInv_createManaged m fs _ opts r (cleanName_Base path hni) h.1 hc,
              Idle_createManaged m fs _ opts r h.2 hc⟩
          · cases hl
        · cases hl; exact h

theorem ManagedInv_loadEntries (ps : List String) (st st1 : mountManager × FS)
    (hps : ∀ p ∈ ps, filepath.Clean p = p)
    (h : ManagedInv st ∧ Idle st.1) (hl : loadEntries ps st = some st1) :
    ManagedInv st1 ∧ Idle st1.1 := by
  induction ps generalizing st with
  | nil =>
    have e := (Option.some.inj hl).symm
    subst e
    exact h
  | cons p ps ih =>
    unfold loadEntries at hl
    cases hs : loadEntry st p with
    | none => simp [hs] at hl
    | some st2 =>
      simp only [hs] at hl
      exact ih st2 (fun q hq => hps q (by simp [hq]))
        (ManagedInv_loadEntry st st2 p (hps p (by simp)) h hs) hl

theorem ManagedInv_NewVolumeManager (root : String) (fs : FS) (st : mountManager × FS)
    (h : NewVolumeManager root fs = some st) : ManagedInv st := by
  have h0 : ∀ fs1 : FS, ManagedInv ({ root := root, mounts := [] }, fs1) := by
    intro fs1 n c hg
    cases hg
  have h1 : Idle { root := root, mounts := [] } := by
    intro n c hg
    cases hg
  unfold NewVolumeManager at h
  dsimp only at h
  split at h
  · cases h; exact h0 _
  · exact (ManagedInv_loadEntries _ _ st
      (walkOrder_clean fs _ (Clean_Join_meta root)) ⟨h0 fs, h1⟩ h).1

/-- C2, amended: in every state reached from a newly constructed registry by
a sequence of `Add`, `Create`, `Increment`, `Decrement`, `Delete` and
`DeleteIfNotManaged` calls in which `Delete`, `DeleteIfNotManaged` and
`Create` on a name without connections are given clean relative names, and
`Create` is not called on a record that has `connections > 0`, is managed and
has options that differ, as a map, from the options given, every record with
`managed = true` has a metadata file at `Join(root, ".meta", name)` whose
decoded JSON content is, as a map, `GetOptions(name)`. -/
theorem managed_files_invariant (root : String) (fs : FS) (ops : List Op)
    (st0 st : mountManager × FS) (h0 : NewVolumeManager root fs = some st0)
    (hok : runOK st0 ops = true) (hr : run st0 ops = some st) : ManagedFilesOK st :=
  ManagedFilesOK_of_Inv st
    (ManagedInv_run ops st0 st (ManagedInv_NewVolumeManager root fs st0 h0) hok hr)

/-- The witness of C2, amended: on a new registry over `/tmp/r1`,
`Create("tenantA/v6", opts)`, `Increment("tenantA/v6")` and the same `Create`
again on the now active managed record; then `Add("./v9")` and
`Create("./v9", opts)` on the active record that is not managed. -/
theorem managed_files_invariant_witness :
    (run demoNew [Op.Create "tenantA/v6" demoOpts, Op.Increment "tenantA/v6",
        Op.Create "tenantA/v6" demoOpts, Op.Add "./v9", Op.Create "./v9" demoOpts]).isSome
        = true
      ∧ ∀ st, run demoNew [Op.Create "tenantA/v6" demoOpts, Op.Increment "tenantA/v6",
          Op.Create "tenantA/v6" demoOpts, Op.Add "./v9", Op.Create "./v9" demoOpts] = some st →
        ManagedFilesOK st :=
  ⟨by decide, fun st hst =>
    managed_files_invariant "/tmp/r1" demoFS
      [Op.Create "tenantA/v6" demoOpts, Op.Increment "tenantA/v6",
        Op.Create "tenantA/v6" demoOpts, Op.Add "./v9", Op.Create "./v9" demoOpts]
      demoNew st (by decide) (by decide) hst⟩

/-- The counterexample to C2: after `Create("v1", {share: a})`,
`Increment("v1")` and `Create("v1", {share: b})` on a new registry over
`/tmp/r1` the record `v1` is managed with the options `{share: b}`, and its
metadata file still holds `{share: a}`. -/
theorem managed_file_stale_after_active_Create :
    NewVolumeManager "/tmp/r1" demoFS = some demoNew
      ∧ run demoNew [Op.Create "v1" (some [("share", "a")]), Op.Increment "v1",
          Op.Create "v1" (some [("share", "b")])] = some demoStale
      ∧ ¬ ManagedFilesOK demoStale := by
  refine ⟨by decide, by decide, ?_⟩
  intro h
  obtain ⟨o, ho, hsame⟩ := h "v1" _ rfl rfl
  have h1 : metaFileOpts demoStale "v1" = some (some [("share", "a")]) := by decide
  rw [h1] at ho
  have e := Option.some.inj ho
  subst e
  have h2 := hsame "share"
  revert h2
  decide

/-- Why the names must be clean: after `Create("v1", {share: a})` and
`Create("./v1", {share: b})` on a new registry over `/tmp/r1` both records are
managed, they share the file `/tmp/r1/.meta/v1`, and it holds `{share: b}`
while the record `v1` has `{share: a}`. -/
theorem managed_file_shared_by_unclean_name :
    run demoNew [Op.Create "v1" (some [("share", "a")]),
        Op.Create "./v1" (some [("share", "b")])] = some demoShared
      ∧ ¬ ManagedFilesOK demoShared := by
  refine ⟨by decide, ?_⟩
  intro h
  obtain ⟨o, ho, hsame⟩ := h "v1" _ rfl rfl
  have h1 : metaFileOpts demoShared "v1" = some (some [("share", "b")]) := by decide
  rw [h1] at ho
  have e := Option.some.inj ho
  subst e
  have h2 := hsame "share"
  revert h2
  decide

/-- Why the names given to `Delete` must be clean: after
`Create("v1", {share: a})`, `Add("./v1")`, `Decrement("./v1")` and
`Delete("./v1")` on a new registry over `/tmp/r1` the record `v1` is still
managed and its metadata file is gone. -/
theorem managed_file_removed_by_unclean_name :
    run demoNew [Op.Create "v1" (some [("share", "a")]), Op.Add "./v1", Op.Decrement "./v1",
        Op.Delete "./v1"] = some demoRemoved
      ∧ ¬ ManagedFilesOK demoRemoved := by
  refine ⟨by decide, ?_⟩
  intro h
  obtain ⟨o, ho, _⟩ := h "v1" _ rfl rfl
  have h1 : metaFileOpts demoRemoved "v1" = none := by decide
  rw [h1] at ho
  cases ho

/-! ## Add and Decrement, Create and the count -/

theorem Delete_of_idle (m : mountManager) (fs : FS) (name : String) (c : mount)
    (hg : GoMap.get m.mounts name = some c) (hc : c.connections < 1) :
    m.Delete fs name =
      (none, { m with mounts := GoMap.del m.mounts name },
        os.Remove fs (filepath.Join [m.root, ".meta", name])) := by
  simp [mountManager.Delete, mountManager.HasMount, mountManager.Count, hg, hc]

theorem Add_Decrement_get (m : mountManager) (name : String) (hlo : 0 ≤ m.Count name)
    (hhi : m.Count name < maxInt) :
    ∃ c, GoMap.get ((m.Add name).Decrement name).2.mounts name = some c
      ∧ c.connections = m.Count name := by
  cases hg : GoMap.get m.mounts name with
  | none =>
    have h1 : GoMap.get (m.Add name).mounts name
        = some { name := name, hostdir := mountpoint m.root name, connections := 1,
                 opts := none, managed := false } := by
      rw [Add_of_absent m name hg, GoMap.get_set_self]
    have h2 := Decrement_get_of_pos (m.Add name) name _ h1 (by simp)
    refine ⟨_, h2, ?_⟩
    simp [mountManager.Count, hg]
  | some c =>
    rw [Count_of_get m name c hg] at hlo hhi
    have h1 : GoMap.get (m.Add name).mounts name
        = some { c with connections := c.connections + 1 } := by
      rw [Add_of_present m name c hg, GoMap.get_set_self, wrapInt_succ _ hlo hhi]
    have h2 := Decrement_get_of_pos (m.Add name) name _ h1
      (by show c.connections + 1 > 0; omega)
    refine ⟨_, h2, ?_⟩
    rw [Count_of_get m name c hg]
    show c.connections + 1 - 1 = c.connections
    omega

/-- C11, amended: in every registry state, reached from a newly constructed
registry or not, and for every name with `0 ≤ Count(name) < 2^63 - 1`: after
`Add(name)` and then `Decrement(name)` the name is present and `Count(name)`
is what it was before the `Add`, which is 0 when the name was absent; when
that count is 0, `Delete(name)` then returns nil and the name is no longer in
the registry. -/
theorem Add_Decrement_restores (m : mountManager) (name : String)
    (hlo : 0 ≤ m.Count name) (hhi : m.Count name < maxInt) :
    ((m.Add name).Decrement name).2.HasMount name = true
      ∧ ((m.Add name).Decrement name).2.Count name = m.Count name
      ∧ (m.HasMount name = false → m.Count name = 0)
      ∧ (m.Count name = 0 → ∀ fs1 : FS,
          (((m.Add name).Decrement name).2.Delete fs1 name).1 = none
            ∧ (((m.Add name).Decrement name).2.Delete fs1 name).2.1.HasMount name
                = false) := by
  obtain ⟨c, hg, hc⟩ := Add_Decrement_get m name hlo hhi
  refine ⟨?_, ?_, ?_, ?_⟩
  · exact (HasMount_eq_true _ name).2 ⟨c, hg⟩
  · rw [Count_of_get _ name c hg, hc]
  · intro hm
    rw [HasMount_eq_false] at hm
    simp [mountManager.Count, hm]
  · intro h0c fs1
    have hlt : c.connections < 1 := by rw [hc, h0c]; decide
    rw [Delete_of_idle _ fs1 name c hg hlt]
    exact ⟨rfl, by simp [mountManager.HasMount, GoMap.get_del_self]⟩

/-- The witness of C11: on the registry that holds `v1` without connections
and `v2` with two, `Add` and `Decrement` of `v2` leave its count at 2, and of
the absent `v9` leave the record `v9` with the count 0, which `Delete`
removes. -/
theorem Add_Decrement_restores_witness :
    (0 ≤ demoTwo.Count "v2" ∧ demoTwo.Count "v2" < maxInt
        ∧ ((demoTwo.Add "v2").Decrement "v2").2.Count "v2" = 2)
      ∧ (0 ≤ demoTwo.Count "v9" ∧ demoTwo.Count "v9" < maxInt
        ∧ ((demoTwo.Add "v9").Decrement "v9").2.HasMount "v9" = true
        ∧ (((demoTwo.Add "v9").Decrement "v9").2.Delete demoFS "v9").2.1.HasMount "v9"
            = false) :=
  ⟨⟨by decide, by decide,
      (Add_Decrement_restores demoTwo "v2" (by decide) (by decide)).2.1⟩,
    ⟨by decide, by decide,
      (Add_Decrement_restores demoTwo "v9" (by decide) (by decide)).1,
      ((Add_Decrement_restores demoTwo "v9" (by decide) (by decide)).2.2.2
        (by decide) demoFS).2⟩⟩

/-- C11, counterexample: 2^63 - 1 calls of `Add("v2")` on a new registry over
`/tmp/r1` leave `Count("v2") = 2^63 - 1`. `Add("v2")` then wraps the counter
to -2^63, `Decrement("v2")` finds it not positive and leaves it: the count is
-2^63, not what it was before the `Add`. And from that state, with the
negative count -2^63, `Add("v2")` gives -2^63 + 1 and `Decrement("v2")` leaves
it again. -/
theorem Add_Decrement_loses_Count_at_maxInt :
    (NewVolumeManager "/tmp/r1" demoFS).bind
        (fun st0 => run st0
          (Op.Add "v2" :: List.replicate 9223372036854775806 (Op.Add "v2")))
        = some (demoFull, demoNew.2)
      ∧ demoFull.Count "v2" = 9223372036854775807
      ∧ ((demoFull.Add "v2").Decrement "v2").2.Count "v2" = -9223372036854775808
      ∧ ((demoFull.Add "v2").Decrement "v2").2 = demoWrapped
      ∧ ((demoWrapped.Add "v2").Decrement "v2").2.Count "v2" = -9223372036854775807 :=
  ⟨run_to_demoFull, by decide, by decide, by decide, by decide⟩

theorem Create_Count (m : mountManager) (fs : FS) (name : String) (opts : Opts)
    (r : mount × mountManager × FS) (c : mount) (hc0 : 0 ≤ c.connections)
    (hg : GoMap.get m.mounts name = some c) (hr : m.Create fs name opts = some r) :
    r.2.1.Count name = m.Count name := by
  rw [Count_of_get m name c hg]
  by_cases hc : c.connections > 0
  · rw [Create_of_active m fs name opts c hg hc] at hr
    have e := (Option.some.inj hr).symm
    subst e
    rw [Count_of_get _ name _ (GoMap.get_set_self _ _ _)]
  · have hna : m.IsActiveMount name = false := by
      rw [IsActiveMount_of_get m name c hg]; simpa using hc
    rw [Create_of_inactive m fs name opts hna] at hr
    obtain ⟨h1, _, h3, _⟩ := createManaged_some m fs name opts r hr
    rw [Count_of_get _ name _ h3, h1]
    show (0 : Int) = c.connections
    omega

/-- C19, amended: in every registry state, reached from a newly constructed
registry or not, for a name that is present with `Count(name) ≥ 0`, a
`Create(name, opts)` that returns leaves `Count(name)` as it was: the branch
for an active record keeps the counter, and the other branch sets to 0 a
counter that was 0. -/
theorem Create_keeps_Count (st : mountManager × FS) (name : String) (opts : Opts)
    (r : mount × mountManager × FS)
    (hp : st.1.HasMount name = true) (h0 : 0 ≤ st.1.Count name)
    (hc : st.1.Create st.2 name opts = some r) :
    r.2.1.Count name = st.1.Count name := by
  obtain ⟨c, hg⟩ := (HasMount_eq_true st.1 name).1 hp
  rw [Count_of_get st.1 name c hg] at h0
  exact Create_Count st.1 st.2 name opts r c h0 hg hc

/-- The witness of C19: after `Create("v1", ...)` and two `Increment("v1")` on
a new registry over `/tmp/r1`, a second `Create("v1", ...)` keeps the count 2;
and after `Create("tenantA/v6", ...)` alone it keeps the count 0. -/
theorem Create_keeps_Count_witness :
    ((demoStale.1.Increment "v1").2.Create demoStale.2 "v1" demoOpts).isSome = true
      ∧ (demoNested.Create demoNestedFS "tenantA/v6" none).isSome = true
      ∧ (∀ r, (demoStale.1.Increment "v1").2.Create demoStale.2 "v1" demoOpts = some r →
        r.2.1.Count "v1" = 2)
      ∧ (∀ r, demoNested.Create demoNestedFS "tenantA/v6" none = some r →
          r.2.1.Count "tenantA/v6" = 0) :=
  ⟨by decide, by decide, fun r hr =>
    Create_keeps_Count ((demoStale.1.Increment "v1").2, demoStale.2) "v1" demoOpts r
      (by decide) (by decide) hr,
   fun r hr =>
    Create_keeps_Count (demoNested, demoNestedFS) "tenantA/v6" none r
      (by decide) (by decide) hr⟩

/-- C19, counterexample: 2^63 calls of `Add("v2")` on a new registry over
`/tmp/r1` leave the record `v2` with the counter -2^63. `Create("v2", opts)`
finds it not active, writes the metadata file and puts a fresh record with no
connections in the map: `Count("v2")` goes from -2^63 to 0. -/
theorem Create_resets_wrapped_Count :
    (NewVolumeManager "/tmp/r1" demoFS).bind
        (fun st0 => run st0
          (Op.Add "v2" :: (List.replicate 9223372036854775806 (Op.Add "v2") ++ [Op.Add "v2"])))
        = some (demoWrapped, demoNew.2)
      ∧ demoWrapped.HasMount "v2" = true
      ∧ demoWrapped.Count "v2" = -9223372036854775808
      ∧ (demoWrapped.Create demoNew.2 "v2" demoOpts).map (fun r => r.2.1.Count "v2")
          = some 0 :=
  ⟨run_to_demoWrapped, by decide, by decide, by decide⟩

/-! ## Operations on one name leave the other names alone -/

theorem get_Increment_ne (m : mountManager) (name other : String) (hne : other ≠ name) :
    GoMap.get (m.Increment name).2.mounts other = GoMap.get m.mounts other := by
  cases hg : GoMap.get m.mounts name with
  | none => simp [mountManager.Increment, hg]
  | some c => rw [Increment_of_present m name c hg]; exact GoMap.get_set_ne _ _ _ _ hne

theorem get_Add_ne (m : mountManager) (name other : String) (hne : other ≠ name) :
    GoMap.get (m.Add name).mounts other = GoMap.get m.mounts other := by
  cases hg : GoMap.get m.mounts name with
  | none => rw [Add_of_absent m name hg]; exact GoMap.get_set_ne _ _ _ _ hne
  | some c => rw [Add_of_present m name c hg]; exact GoMap.get_set_ne _ _ _ _ hne

theorem get_Decrement_ne (m : mountManager) (name other : String) (hne : other ≠ name) :
    GoMap.get (m.Decrement name).2.mounts other = GoMap.get m.mounts other := by
  unfold mountManager.Decrement
  cases hg : GoMap.get m.mounts name with
  | none => rfl
  | some c =>
    by_cases hc : c.connections > 0
    · simp only [hc, if_true]
      exact GoMap.get_set_ne _ _ _ _ hne
    · simp only [hc, if_false]

theorem get_Delete_ne (m : mountManager) (fs : FS) (name other : String) (hne : other ≠ name) :
    GoMap.get (m.Delete fs name).2.1.mounts other = GoMap.get m.mounts other := by
  unfold mountManager.Delete
  split
  · split
    · exact GoMap.get_del_ne _ _ _ hne
    · rfl
  · rfl

theorem get_DeleteIfNotManaged_ne (m : mountManager) (fs : FS) (name other : String)
    (hne : other ≠ name) :
    GoMap.get (m.DeleteIfNotManaged fs name).2.1.mounts other = GoMap.get m.mounts other := by
  unfold mountManager.DeleteIfNotManaged
  split
  · exact get_Delete_ne m fs name other hne
  · rfl

theorem get_Create_ne (m : mountManager) (fs : FS) (name other : String) (opts : Opts)
    (r : mount × mountManager × FS) (hne : other ≠ name)
    (hr : m.Create fs name opts = some r) :
    GoMap.get r.2.1.mounts other = GoMap.get m.mounts other := by
  by_cases ha : m.IsActiveMount name = true
  · unfold mountManager.IsActiveMount at ha
    cases hg : GoMap.get m.mounts name with
    | none => simp [hg] at ha
    | some c =>
      have hc : c.connections > 0 := by simpa [hg] using ha
      rw [Create_of_active m fs name opts c hg hc] at hr
      have e := (Option.some.inj hr).symm
      subst e
      exact GoMap.get_set_ne _ _ _ _ hne
  · have ha2 : m.IsActiveMount name = false := by simpa using ha
    rw [Create_of_inactive m fs name opts ha2] at hr
    exact (createManaged_some m fs name opts r hr).2.2.2.1 other hne

/-- C18: for an operation `Add`, `Create`, `Increment`, `Decrement`, `Delete`
or `DeleteIfNotManaged` on a name, and every other name, the lookup of the
other name gives the same result before and after: it is present or absent as
before, and when present its record (options, connections, managed flag, host
directory) is the same. -/
theorem other_names_untouched (st st1 : mountManager × FS) (op : Op) (other : String)
    (hne : other ≠ op.name) (hs : step st op = some st1) :
    GoMap.get st1.1.mounts other = GoMap.get st.1.mounts other
      ∧ st1.1.HasMount other = st.1.HasMount other := by
  have key : GoMap.get st1.1.mounts other = GoMap.get st.1.mounts other := by
    cases op with
    | Add name =>
      have e := (Option.some.inj hs).symm
      subst e
      exact get_Add_ne _ name other hne
    | Create name opts =>
      unfold step at hs
      cases hc : st.1.Create st.2 name opts with
      | none => simp [hc] at hs
      | some r =>
        simp only [hc] at hs
        have e := (Option.some.inj hs).symm
        subst e
        exact get_Create_ne _ _ name other opts r hne hc
    | Increment name =>
      have e := (Option.some.inj hs).symm
      subst e
      exact get_Increment_ne _ name other hne
    | Decrement name =>
      have e := (Option.some.inj hs).symm
      subst e
      exact get_Decrement_ne _ name other hne
    | Delete name =>
      have e := (Option.some.inj hs).symm
      subst e
      exact get_Delete_ne _ _ name other hne
    | DeleteIfNotManaged name =>
      have e := (Option.some.inj hs).symm
      subst e
      exact get_DeleteIfNotManaged_ne _ _ name other hne
  refine ⟨key, ?_⟩
  unfold mountManager.HasMount
  rw [key]

/-- The witness of C18: `Delete("v1")` on a registry holding `v1` and `v2`
leaves the record of `v2` as it was. -/
theorem other_names_untouched_witness :
    GoMap.get (demoTwo.Delete demoFS "v1").2.1.mounts "v2" = GoMap.get demoTwo.mounts "v2" :=
  (other_names_untouched (demoTwo, demoFS)
    ((demoTwo.Delete demoFS "v1").2.1, (demoTwo.Delete demoFS "v1").2.2) (Op.Delete "v1") "v2"
    (by decide) rfl).1

/-! ## The option queries -/

theorem Opts.len_pos_iff (o : Opts) :
    (o ≠ none ∧ Opts.len o > 0) ↔ ∃ key v, Opts.get o key = some v := by
  constructor
  · rintro ⟨h1, h2⟩
    cases o with
    | none => exact absurd rfl h1
    | some l =>
      cases l with
      | nil => simp [Opts.len, GoMap.len, GoMap.keys] at h2
      | cons e rest =>
        obtain ⟨k, v⟩ := e
        exact ⟨k, v, by simp [Opts.get, GoMap.get]⟩
  · rintro ⟨key, v, h⟩
    by_contra hn
    rw [Opts.get_of_len_zero o key hn] at h
    cases h

theorem HasOptions_eq_true (m : mountManager) (name : String) :
    m.HasOptions name = true ↔
      ∃ c, GoMap.get m.mounts name = some c ∧ c.opts ≠ none ∧ Opts.len c.opts > 0 := by
  unfold mountManager.HasOptions
  cases hg : GoMap.get m.mounts name with
  | none => simp
  | some c => simp

theorem GetOptions_of_nonempty (m : mountManager) (name : String) (c : mount)
    (hg : GoMap.get m.mounts name = some c) (h : c.opts ≠ none ∧ Opts.len c.opts > 0) :
    m.GetOptions name = c.opts := by
  have ho : m.HasOptions name = true := (HasOptions_eq_true m name).2 ⟨c, hg, h.1, h.2⟩
  simp [mountManager.GetOptions, ho, hg]

theorem GetOptions_of_not_HasOptions (m : mountManager) (name : String)
    (h : m.HasOptions name = false) : m.GetOptions name = some [] := by
  simp [mountManager.GetOptions, h]

/-- C16: `HasOption(name, key)` is true exactly when a record for `name`
exists and `key` is a key of its options; `GetOption(name, key)` is the value
of that key when `HasOption` is true and the empty string otherwise;
`GetOptions(name)` is the options of the record when they are not empty, and
an empty map when the record is absent or its options are nil or empty, so it
always has the bindings of the record's options; `HasOptions(name)` is true
exactly when the record exists and its options bind some key. -/
theorem option_queries_spec (m : mountManager) (name key : String) :
    (m.HasOption name key = true ↔
        ∃ c v, GoMap.get m.mounts name = some c ∧ Opts.get c.opts key = some v)
      ∧ (∀ c v, GoMap.get m.mounts name = some c → Opts.get c.opts key = some v →
          m.GetOption name key = v)
      ∧ (m.HasOption name key = false → m.GetOption name key = "")
      ∧ (∀ c, GoMap.get m.mounts name = some c → (∃ k v, Opts.get c.opts k = some v) →
          m.GetOptions name = c.opts)
      ∧ (∀ c, GoMap.get m.mounts name = some c → (¬ ∃ k v, Opts.get c.opts k = some v) →
          m.GetOptions name = some [])
      ∧ (GoMap.get m.mounts name = none → m.GetOptions name = some [])
      ∧ (∀ c, GoMap.get m.mounts name = some c → Opts.same (m.GetOptions name) c.opts)
      ∧ (m.HasOptions name = true ↔
          ∃ c k v, GoMap.get m.mounts name = some c ∧ Opts.get c.opts k = some v) := by
  have hopt : m.HasOptions name = true ↔
      ∃ c k v, GoMap.get m.mounts name = some c ∧ Opts.get c.opts k = some v := by
    rw [HasOptions_eq_true]
    constructor
    · rintro ⟨c, hg, h1, h2⟩
      obtain ⟨k, v, hk⟩ := (Opts.len_pos_iff c.opts).1 ⟨h1, h2⟩
      exact ⟨c, k, v, hg, hk⟩
    · rintro ⟨c, k, v, hg, hk⟩
      obtain ⟨h1, h2⟩ := (Opts.len_pos_iff c.opts).2 ⟨k, v, hk⟩
      exact ⟨c, hg, h1, h2⟩
  refine ⟨HasOption_eq_true m name key, GetOption_of_get m name key,
    GetOption_of_not_HasOption m name key, ?_, ?_, ?_, ?_, hopt⟩
  · intro c hg hne
    exact GetOptions_of_nonempty m name c hg ((Opts.len_pos_iff c.opts).2 hne)
  · intro c hg hno
    apply GetOptions_of_not_HasOptions
    cases hb : m.HasOptions name with
    | false => rfl
    | true =>
      obtain ⟨c1, k, v, hg1, hk⟩ := hopt.1 hb
      rw [hg] at hg1
      cases hg1
      exact absurd ⟨k, v, hk⟩ hno
  · intro hg
    apply GetOptions_of_not_HasOptions
    simp [mountManager.HasOptions, hg]
  · intro c hg k
    exact (GetOptions_same m name c hg k).symm

/-- The witness of C16: the queries on the record `v1` of `demoBool`, on a
record without options and on an absent name. -/
theorem option_queries_spec_witness :
    demoBool.HasOption "v1" "share" = true
      ∧ demoBool.GetOption "v1" "share" = "a/b"
      ∧ demoBool.GetOption "v1" "missing" = ""
      ∧ demoBool.GetOptions "v1" = some [("share", "a/b"), ("create", "TRUE"), ("flag", "1")]
      ∧ demoIdle.GetOptions "v4" = some []
      ∧ demoIdle.GetOptions "v1" = some []
      ∧ demoIdle.HasOptions "v4" = false :=
  ⟨(option_queries_spec demoBool "v1" "share").1.2 ⟨_, "a/b", rfl, rfl⟩,
   (option_queries_spec demoBool "v1" "share").2.1 _ "a/b" rfl rfl,
   (option_queries_spec demoBool "v1" "missing").2.2.1 (by decide),
   (option_queries_spec demoBool "v1" "share").2.2.2.1 _ rfl ⟨"share", "a/b", rfl⟩,
   (option_queries_spec demoIdle "v4" "share").2.2.2.2.1 _ rfl (by rintro ⟨k, v, h⟩; cases h),
   (option_queries_spec demoIdle "v1" "share").2.2.2.2.2.1 rfl,
   by decide⟩

/-! ## The file Create writes and the file Delete removes -/

theorem Clean_Clean_append (p q : List Char) (hp : p ≠ []) :
    filepath.Clean ⟨(filepath.Clean ⟨p⟩).data ++ '/' :: q⟩ = filepath.Clean ⟨p ++ '/' :: q⟩ := by
  obtain ⟨h1, h2, h3⟩ := stackOf_Clean p hp
  generalize (filepath.Clean ⟨p⟩).data = c at h1 h2 h3 ⊢
  rw [Clean_mk _ (by simp [h1]), Clean_mk _ (by simp [hp]), isRooted_append _ _ h1,
    isRooted_append _ _ hp, stackOf_append_sep _ _ h1, stackOf_append_sep _ _ hp, h2, h3]

theorem Join_Clean (p : List Char) (b : String) (hp : p ≠ []) :
    filepath.Join [filepath.Clean ⟨p⟩, b] = filepath.Clean ⟨p ++ '/' :: b.data⟩ := by
  have h1 := (stackOf_Clean p hp).1
  have hne : filepath.Clean ⟨p⟩ ≠ "" := fun e => h1 (congrArg String.data e)
  simp only [filepath.Join, hne, if_false]
  exact Clean_Clean_append p b.data hp

/-- A path that does not end in a separator is its last element after a
directory part that is empty or ends in a separator. -/
theorem last_elem_cases (x : List Char) (hx : x ≠ []) (hl : x.getLast? ≠ some '/') :
    ∃ pre b, x = pre ++ b ∧ b ≠ [] ∧ '/' ∉ b ∧ (pre = [] ∨ ∃ q, pre = q ++ ['/']) := by
  rcases List.eq_nil_or_concat (splitSep x) with h0 | ⟨init, b, hib⟩
  · exact absurd h0 (splitSep_ne_nil x)
  · rw [List.concat_eq_append] at hib
    have hb : b ∈ splitSep x := by rw [hib]; simp
    have hnb := no_sep_of_mem_splitSep x b hb
    have hd : x = joinSep (init ++ [b]) := by rw [← hib, joinSep_splitSep]
    cases init with
    | nil =>
      have hxb : x = b := by simpa [joinSep] using hd
      exact ⟨[], b, by simpa using hxb, by rw [← hxb]; exact hx, hnb, Or.inl rfl⟩
    | cons i0 is =>
      have hd2 : x = joinSep (i0 :: is) ++ '/' :: b := by
        rw [hd, joinSep_append _ _ (by simp) (by simp)]
        rfl
      refine ⟨joinSep (i0 :: is) ++ ['/'], b, by rw [hd2]; simp, ?_, hnb,
        Or.inr ⟨_, rfl⟩⟩
      intro hbe
      apply hl
      rw [hd2, hbe]
      simp

theorem foldl_splitSep_extra_sep (r : Bool) (out : List (List Char)) (pre b : List Char)
    (hpre : pre = [] ∨ ∃ q, pre = q ++ ['/']) :
    (splitSep (pre ++ '/' :: b)).foldl (cleanStep r) out
      = (splitSep (pre ++ b)).foldl (cleanStep r) out := by
  rcases hpre with h | ⟨q, h⟩
  · subst h
    simp [splitSep, cleanStep_nil]
  · subst h
    have e1 : q ++ ['/'] ++ '/' :: b = q ++ '/' :: ('/' :: b) := by simp
    have e2 : q ++ ['/'] ++ b = q ++ '/' :: b := by simp
    rw [e1, e2, splitSep_append_sep, splitSep_append_sep, List.foldl_append, List.foldl_append]
    simp [splitSep, cleanStep_nil]

/-- For a name that does not end in a separator the file `Create` writes,
`Join(Join(root, ".meta", dir), Base(name))`, is the file `Delete` removes,
`Join(root, ".meta", name)`. -/
theorem createFilePath_eq_of_last (root n : String) (hn : n ≠ "")
    (hl : n.data.getLast? ≠ some '/') :
    createFilePath root n = filepath.Join [root, ".meta", n] := by
  obtain ⟨pre, b, hx, hb, hnb, hpre⟩ := last_elem_cases n.data (data_ne_nil n hn) hl
  have hn2 : n = ⟨pre ++ b⟩ := by cases n; simp only at hx; rw [hx]
  subst hn2
  have hsplit : filepath.Split ⟨pre ++ b⟩ = (⟨pre⟩, ⟨b⟩) := by
    rcases hpre with h | ⟨q, h⟩
    · subst h
      simpa using Split_elem b hnb
    · subst h
      have := Split_append_elem q b hnb
      simpa using this
  have hbase : filepath.Base ⟨pre ++ b⟩ = ⟨b⟩ := Base_of_last pre b hb hnb hpre
  have hm := metaChars_ne_nil root
  unfold createFilePath
  rw [hsplit, hbase, Join_meta_sub, Join_meta_sub]
  show filepath.Join [filepath.Clean ⟨metaChars root ++ '/' :: pre⟩, ⟨b⟩]
    = filepath.Clean ⟨metaChars root ++ '/' :: (pre ++ b)⟩
  rw [Join_Clean _ _ (by simp [hm])]
  show filepath.Clean ⟨metaChars root ++ '/' :: pre ++ '/' :: b⟩ = _
  have e1 : metaChars root ++ '/' :: pre ++ '/' :: b = metaChars root ++ '/' :: (pre ++ '/' :: b) := by
    simp
  rw [e1, Clean_mk _ (by simp [hm]), Clean_mk _ (by simp [hm]), isRooted_append _ _ hm,
    isRooted_append _ _ hm, stackOf_append_sep _ _ hm, stackOf_append_sep _ _ hm,
    foldl_splitSep_extra_sep _ _ pre b hpre]

/-- C17, amended: for every non-empty volume name that does not end in a
separator (separators inside the name, also repeated ones, are allowed) the
path `Create` writes, `Join(Join(root, ".meta", dir(n)), Base(n))`, is the
path `Delete` unlinks, `Join(root, ".meta", n)`; and after a `Create(n, opts)`
on an absent name that returned, `Delete(n)` returns nil, takes the name out
of the registry and leaves no regular file at the path that `Create` wrote. -/
theorem Create_Delete_same_file (m : mountManager) (fs : FS) (n : String) (opts : Opts)
    (hn : n ≠ "") (hl : n.data.getLast? ≠ some '/') :
    createFilePath m.root n = filepath.Join [m.root, ".meta", n]
      ∧ (GoMap.get m.mounts n = none → ∀ r, m.Create fs n opts = some r →
          ioutil.ReadFile r.2.2 (createFilePath m.root n) = some (json.Marshal opts)
            ∧ (r.2.1.Delete r.2.2 n).1 = none
            ∧ (r.2.1.Delete r.2.2 n).2.1.HasMount n = false
            ∧ ioutil.ReadFile (r.2.1.Delete r.2.2 n).2.2 (createFilePath m.root n) = none) := by
  have hpath := createFilePath_eq_of_last m.root n hn hl
  refine ⟨hpath, ?_⟩
  intro hg r hr
  rw [Create_of_inactive m fs n opts (IsActiveMount_of_absent m n hg)] at hr
  obtain ⟨h1, h2, h3, _, _, h6⟩ := createManaged_some m fs n opts r hr
  have hlt : r.1.connections < 1 := by rw [h1]; show (0 : Int) < 1; decide
  rw [Delete_of_idle r.2.1 r.2.2 n r.1 h3 hlt]
  refine ⟨by rw [ReadFile_createFilePath]; exact h6, rfl,
    by simp [mountManager.HasMount, GoMap.get_del_self], ?_⟩
  rw [ReadFile_createFilePath]
  show FS.read (os.Remove r.2.2 (filepath.Join [r.2.1.root, ".meta", n])) _ = none
  rw [h2, hpath]
  exact ReadFile_Remove _ _

/-- The witness of C17, amended: the name `tenantA//v6`, with a repeated
separator, on the new registry over `/tmp/r1`. -/
theorem Create_Delete_same_file_witness :
    createFilePath "/tmp/r1" "tenantA//v6" = "/tmp/r1/.meta/tenantA/v6"
      ∧ filepath.Join ["/tmp/r1", ".meta", "tenantA//v6"] = "/tmp/r1/.meta/tenantA/v6"
      ∧ (demoNew.1.Create demoNew.2 "tenantA//v6" demoOpts).isSome = true
      ∧ createFilePath demoNew.1.root "tenantA//v6"
          = filepath.Join [demoNew.1.root, ".meta", "tenantA//v6"] :=
  ⟨by decide, by decide, by decide,
   (Create_Delete_same_file demoNew.1 demoNew.2 "tenantA//v6" demoOpts (by decide)
      (by decide)).1⟩

/-- The counterexample to C17: for the name `v7/`, with a trailing separator,
`Create` writes `/tmp/r1/.meta/v7/v7` and `Delete` unlinks `/tmp/r1/.meta/v7`;
after `Create("v7/", ...)` and `Delete("v7/")` on a new registry over
`/tmp/r1` the file that `Create` wrote is still there. -/
theorem Create_Delete_differ_on_trailing_separator :
    createFilePath "/tmp/r1" "v7/" = "/tmp/r1/.meta/v7/v7"
      ∧ filepath.Join ["/tmp/r1", ".meta", "v7/"] = "/tmp/r1/.meta/v7"
      ∧ run demoNew [Op.Create "v7/" demoOpts] = some demoTrailing
      ∧ (demoTrailing.1.Delete demoTrailing.2 "v7/").1 = none
      ∧ ioutil.ReadFile (demoTrailing.1.Delete demoTrailing.2 "v7/").2.2
          "/tmp/r1/.meta/v7/v7" = some (FileData.json demoOpts) := by
  decide

/-! ## Names that leave the metadata directory -/

theorem render_snoc (r : Bool) (es : List (List Char)) (x : List Char) :
    render r (es ++ [x]) = renderFront r es ++ x := by
  unfold renderFront
  by_cases he : es = []
  · subst he
    cases r <;> simp [render, joinSep]
  · rw [if_neg he, render_append r es [x] he (by simp)]
    simp [joinSep]

theorem isRooted_metaChars (root : String) :
    isRooted (metaChars root) = if root = "" then false else isRooted root.data := by
  unfold metaChars
  split
  · rfl
  · rename_i hr
    exact isRooted_append _ _ (data_ne_nil root hr)

theorem stackOf_metaChars (root : String) :
    stackOf (metaChars root)
      = ['.', 'm', 'e', 't', 'a'] :: (if root = "" then [] else stackOf root.data) := by
  have hm : normalElem ['.', 'm', 'e', 't', 'a'] = true := by decide
  have hs : splitSep ['.', 'm', 'e', 't', 'a'] = [['.', 'm', 'e', 't', 'a']] := by decide
  unfold metaChars
  split
  · decide
  · rename_i hr
    rw [stackOf_append_sep _ _ (data_ne_nil root hr), hs, List.foldl_cons, List.foldl_nil,
      cleanStep_normal _ _ _ hm]

theorem Join_root_elem (root : String) (b : List Char) (hb : normalElem b = true)
    (hnb : '/' ∉ b) :
    filepath.Join [root, ⟨b⟩]
      = ⟨render (if root = "" then false else isRooted root.data)
          ((if root = "" then [] else stackOf root.data).reverse ++ [b])⟩ := by
  have hbne : b ≠ [] := ((normalElem_iff b).1 hb).1
  have hsb : splitSep b = [b] := splitSep_of_no_sep b hnb
  by_cases hr : root = ""
  · subst hr
    have h1 : filepath.Join ["", (⟨b⟩ : String)] = filepath.Clean ⟨b⟩ := by
      simp [filepath.Join, mk_ne_empty b hbne, joinWithSep]
    rw [h1, Clean_mk b hbne]
    have h2 : stackOf b = [b] := by
      unfold stackOf
      rw [hsb, List.foldl_cons, List.foldl_nil, cleanStep_normal _ _ _ hb]
    have h3 : isRooted b = false := by
      cases b with
      | nil => exact absurd rfl hbne
      | cons c cs =>
        have hc : c ≠ '/' := fun e => hnb (by simp [e])
        simp [isRooted, hc]
    rw [h2, h3]
    rfl
  · have hd := data_ne_nil root hr
    have h1 : filepath.Join [root, (⟨b⟩ : String)] = filepath.Clean ⟨root.data ++ '/' :: b⟩ := by
      simp [filepath.Join, hr, joinWithSep]
    rw [h1, Clean_mk _ (by simp [hd]), isRooted_append _ _ hd, stackOf_append_sep _ _ hd, hsb,
      List.foldl_cons, List.foldl_nil, cleanStep_normal _ _ _ hb]
    simp [hr]

theorem Join_meta_render (root : String) :
    filepath.Join [root, ".meta"]
      = ⟨render (if root = "" then false else isRooted root.data)
          ((if root = "" then [] else stackOf root.data).reverse ++ [['.', 'm', 'e', 't', 'a']])⟩ := by
  rw [Join_meta, Clean_mk _ (metaChars_ne_nil root), isRooted_metaChars, stackOf_metaChars]
  simp

/-- The file `Create` writes for the name `../b` is `Join(root, b)`, the host
directory of the volume `b`. -/
theorem createFilePath_dotdot (root : String) (b : List Char) (hb : normalElem b = true)
    (hnb : '/' ∉ b) :
    createFilePath root ⟨'.' :: '.' :: '/' :: b⟩ = filepath.Join [root, ⟨b⟩] := by
  have hbne : b ≠ [] := ((normalElem_iff b).1 hb).1
  have hsb : splitSep b = [b] := splitSep_of_no_sep b hnb
  have hm := metaChars_ne_nil root
  have hsplit : filepath.Split ⟨'.' :: '.' :: '/' :: b⟩ = (⟨['.', '.', '/']⟩, ⟨b⟩) :=
    Split_append_elem ['.', '.'] b hnb
  have hbase : filepath.Base ⟨'.' :: '.' :: '/' :: b⟩ = ⟨b⟩ :=
    Base_of_last ['.', '.', '/'] b hbne hnb (Or.inr ⟨['.', '.'], rfl⟩)
  unfold createFilePath
  rw [hsplit, hbase, Join_meta_sub]
  show filepath.Join [filepath.Clean ⟨metaChars root ++ '/' :: ['.', '.', '/']⟩, ⟨b⟩] = _
  rw [Join_Clean _ _ (by simp [hm]), Join_root_elem root b hb hnb]
  show filepath.Clean ⟨metaChars root ++ '/' :: ['.', '.', '/'] ++ '/' :: b⟩ = _
  have e1 : metaChars root ++ '/' :: ['.', '.', '/'] ++ '/' :: b
      = metaChars root ++ '/' :: ('.' :: '.' :: '/' :: '/' :: b) := by simp
  have e2 : splitSep ('.' :: '.' :: '/' :: '/' :: b) = [['.', '.'], [], b] := by
    have : splitSep (['.', '.'] ++ '/' :: ([] ++ '/' :: b)) = [['.', '.'], [], b] := by
      rw [splitSep_append_sep, splitSep_append_sep, hsb]
      rfl
    simpa using this
  rw [e1, Clean_mk _ (by simp [hm]), isRooted_append _ _ hm, stackOf_append_sep _ _ hm, e2,
    isRooted_metaChars, stackOf_metaChars]
  have hdd : ∀ (r : Bool) (out : List (List Char)),
      cleanStep r (['.', 'm', 'e', 't', 'a'] :: out) ['.', '.'] = out := by
    intro r out
    simp [cleanStep]
  simp only [List.foldl_cons, List.foldl_nil, hdd, cleanStep_nil, cleanStep_normal _ _ _ hb]
  simp

/-- The host directory `Join(root, b)` is not below the metadata directory. -/
theorem Join_root_elem_not_below (root : String) (b : List Char) (hb : normalElem b = true)
    (hnb : '/' ∉ b) :
    ¬ pathBelow (filepath.Join [root, ".meta"]) (filepath.Join [root, ⟨b⟩]) := by
  rintro ⟨rest, h⟩
  rw [Join_root_elem root b hb hnb, Join_meta_render] at h
  simp only [render_snoc, List.append_assoc, List.append_cancel_left_eq] at h
  apply hnb
  rw [h]
  simp

/-- The file of a clean name is below the metadata directory. -/
theorem createFilePath_below (root n : String) (hn : cleanName n = true) :
    pathBelow (filepath.Join [root, ".meta"]) (createFilePath root n) := by
  refine ⟨n.data, ?_⟩
  rw [createFilePath_eq root n hn, Join_meta_name root n hn]

/-- The store over the metadata directory writes the file that `Create`
writes. -/
theorem storeFilePath_meta (root name : String) :
    storeFilePath (filepath.Join [root, ".meta"]) name = createFilePath root name := by
  unfold storeFilePath createFilePath
  rw [Join_meta, Join_Clean _ _ (metaChars_ne_nil root), Join_meta_sub]

theorem store_Add_meta (root : String) (fs : FS) (name : String) (opts : Opts) :
    (NewVolumeStore (filepath.Join [root, ".meta"])).Add fs name opts
      = ioutil.WriteFile
          (os.MkdirAll fs (filepath.Join [root, ".meta", (filepath.Split name).1])).1
          (createFilePath root name) (json.Marshal opts) := by
  have h1 : filepath.Join [filepath.Join [root, ".meta"], (filepath.Split name).1]
      = filepath.Join [root, ".meta", (filepath.Split name).1] := by
    rw [Join_meta, Join_Clean _ _ (metaChars_ne_nil root), Join_meta_sub]
  unfold mountStore.Add NewVolumeStore createFilePath
  dsimp only
  rw [h1]

/-- For a name that does not end in a separator the store writes the file
`Join(root, name)`, whatever the name. -/
theorem storeFilePath_eq_of_last (root n : String) (hr : root ≠ "") (hn : n ≠ "")
    (hl : n.data.getLast? ≠ some '/') :
    storeFilePath root n = filepath.Join [root, n] := by
  obtain ⟨pre, b, hx, hb, hnb, hpre⟩ := last_elem_cases n.data (data_ne_nil n hn) hl
  have hn2 : n = ⟨pre ++ b⟩ := by cases n; simp only at hx; rw [hx]
  subst hn2
  have hsplit : filepath.Split ⟨pre ++ b⟩ = (⟨pre⟩, ⟨b⟩) := by
    rcases hpre with h | ⟨q, h⟩
    · subst h
      simpa using Split_elem b hnb
    · subst h
      have := Split_append_elem q b hnb
      simpa using this
  have hbase : filepath.Base ⟨pre ++ b⟩ = ⟨b⟩ := Base_of_last pre b hb hnb hpre
  have hd := data_ne_nil root hr
  have hj : ∀ t : String, filepath.Join [root, t] = filepath.Clean ⟨root.data ++ '/' :: t.data⟩ := by
    intro t
    simp [filepath.Join, hr, joinWithSep]
  unfold storeFilePath
  rw [hsplit, hbase, hj, hj]
  show filepath.Join [filepath.Clean ⟨root.data ++ '/' :: pre⟩, ⟨b⟩]
    = filepath.Clean ⟨root.data ++ '/' :: (pre ++ b)⟩
  rw [Join_Clean _ _ (by simp [hd])]
  show filepath.Clean ⟨root.data ++ '/' :: pre ++ '/' :: b⟩ = _
  have e1 : root.data ++ '/' :: pre ++ '/' :: b = root.data ++ '/' :: (pre ++ '/' :: b) := by
    simp
  rw [e1, Clean_mk _ (by simp [hd]), Clean_mk _ (by simp [hd]), isRooted_append _ _ hd,
    isRooted_append _ _ hd, stackOf_append_sep _ _ hd, stackOf_append_sep _ _ hd,
    foldl_splitSep_extra_sep _ _ pre b hpre]

/-- C14, amended: the persistence operations do not look at the form of the
name and reject none. On a name without an active record `Create`, and on
every name `Add` of the store over the metadata directory, makes the directory
and writes the options to one file, and panics exactly when that write fails;
a store over any non-empty path writes the file `Join(path, name)` for a name
that does not end in a separator. For a clean name the file is below the
metadata directory. For a name `../b`, with `b` a plain element, the file is
`Join(root, b)`, which is not below the metadata directory: when the operation
returns, that file holds the options, and `Create` has registered the record
under the name `../b`. -/
theorem names_are_not_validated (m : mountManager) (fs : FS) (name : String) (opts : Opts)
    (b : List Char) (hb : normalElem b = true) (hnb : '/' ∉ b) :
    (m.IsActiveMount name = false →
        (m.Create fs name opts = none ↔
          ioutil.WriteFile
            (os.MkdirAll fs (filepath.Join [m.root, ".meta", (filepath.Split name).1])).1
            (createFilePath m.root name) (json.Marshal opts) = none))
      ∧ (NewVolumeStore (filepath.Join [m.root, ".meta"])).Add fs name opts
          = ioutil.WriteFile
              (os.MkdirAll fs (filepath.Join [m.root, ".meta", (filepath.Split name).1])).1
              (createFilePath m.root name) (json.Marshal opts)
      ∧ (∀ path : String, path ≠ "" → name ≠ "" → name.data.getLast? ≠ some '/' →
          storeFilePath path name = filepath.Join [path, name])
      ∧ (cleanName name = true →
          pathBelow (filepath.Join [m.root, ".meta"]) (createFilePath m.root name))
      ∧ createFilePath m.root ⟨'.' :: '.' :: '/' :: b⟩ = filepath.Join [m.root, ⟨b⟩]
      ∧ ¬ pathBelow (filepath.Join [m.root, ".meta"]) (filepath.Join [m.root, ⟨b⟩])
      ∧ (m.IsActiveMount ⟨'.' :: '.' :: '/' :: b⟩ = false →
          ∀ r, m.Create fs ⟨'.' :: '.' :: '/' :: b⟩ opts = some r →
            ioutil.ReadFile r.2.2 (filepath.Join [m.root, ⟨b⟩]) = some (json.Marshal opts)
              ∧ r.2.1.HasMount ⟨'.' :: '.' :: '/' :: b⟩ = true)
      ∧ (∀ fs2, (NewVolumeStore (filepath.Join [m.root, ".meta"])).Add fs
            ⟨'.' :: '.' :: '/' :: b⟩ opts = some fs2 →
          ioutil.ReadFile fs2 (filepath.Join [m.root, ⟨b⟩]) = some (json.Marshal opts)) := by
  refine ⟨?_, store_Add_meta m.root fs name opts, ?_, createFilePath_below m.root name,
    createFilePath_dotdot m.root b hb hnb, Join_root_elem_not_below m.root b hb hnb, ?_, ?_⟩
  · intro hi
    rw [Create_of_inactive m fs name opts hi, createManaged_eq]
    simp
  · intro path hp hn hl
    exact storeFilePath_eq_of_last path name hp hn hl
  · intro hi r hc
    rw [Create_of_inactive m fs _ opts hi] at hc
    obtain ⟨_, _, hg, _, _, hrd⟩ := createManaged_some m fs _ opts r hc
    rw [createFilePath_dotdot m.root b hb hnb] at hrd
    exact ⟨by rw [ReadFile_Join]; exact hrd, by simp [mountManager.HasMount, hg]⟩
  · intro fs2 ha
    rw [store_Add_meta, createFilePath_dotdot m.root b hb hnb] at ha
    rw [ReadFile_Join]
    exact ReadFile_WriteFile _ _ _ _ ha

theorem names_are_not_validated_witness :
    normalElem ['x'] = true ∧ '/' ∉ ['x']
      ∧ demoNew.1.IsActiveMount "../x" = false
      ∧ (demoNew.1.Create demoNew.2 "../x" demoOpts).isSome = true
      ∧ ((NewVolumeStore (filepath.Join [demoNew.1.root, ".meta"])).Add demoNew.2 "../x"
          demoOpts).isSome = true
      ∧ createFilePath demoNew.1.root "../x" = filepath.Join [demoNew.1.root, "x"]
      ∧ ¬ pathBelow (filepath.Join [demoNew.1.root, ".meta"])
          (filepath.Join [demoNew.1.root, "x"]) :=
  ⟨by decide, by decide, by decide, by decide, by decide,
    (names_are_not_validated demoNew.1 demoNew.2 "../x" demoOpts ['x'] (by decide)
      (by decide)).2.2.2.2.1,
    (names_are_not_validated demoNew.1 demoNew.2 "../x" demoOpts ['x'] (by decide)
      (by decide)).2.2.2.2.2.1⟩

/-- C14, counterexample: with the root `/tmp/r1` and the metadata directory
`/tmp/r1/.meta` in place, `Create("../x", opts)` and `Create("a/../../x",
opts)` return a record, and `Add("../x", opts)` of the store over
`/tmp/r1/.meta` returns: each has written the options to `/tmp/r1/x`, outside
the metadata directory, where no file has been written. -/
theorem Create_and_Add_write_outside_the_metadata_root :
    (demoNew.1.Create demoNew.2 "../x" demoOpts).map (fun r => r.2) = some demoEscaped
      ∧ ioutil.ReadFile demoEscaped.2 "/tmp/r1/x" = some (FileData.json demoOpts)
      ∧ demoEscaped.1.HasMount "../x" = true
      ∧ filepath.walkOrder demoEscaped.2 "/tmp/r1/.meta" = ["/tmp/r1/.meta"]
      ∧ (demoNew.1.Create demoNew.2 "a/../../x" demoOpts).map (fun r => r.2.2)
          = some demoEscaped.2
      ∧ (NewVolumeStore "/tmp/r1/.meta").Add demoNew.2 "../x" demoOpts = some demoEscaped.2 := by
  decide

/-! ## Reload: one record per file -/

/-- C12 at two inputs. `Create("a/x", {share: a})` and `Create("b/x",
{share: b})` on a new registry over `/tmp/r1` leave two decodable files,
`.meta/a/x` and `.meta/b/x`; a second registry over the same root has one
record, `x`, with the options of `b/x`, and none under `a/x` or `b/x`: the walk
hands `Create` the base name of each file. And after `Create("a/a", opts)`,
which leaves the one file `.meta/a/a`, the second registry is not produced at
all: the walk calls `Create("a", opts)`, whose write to the directory `.meta/a`
fails. -/
theorem reload_merges_files_with_one_base_name :
    ((NewVolumeManager "/tmp/r1" demoFS).bind
        (fun st => run st [Op.Create "a/x" (some [("share", "a")]),
          Op.Create "b/x" (some [("share", "b")])])).map (fun st => st.2) = some demoTwinsFS
      ∧ decodableFiles demoTwinsFS "/tmp/r1/.meta" = ["/tmp/r1/.meta/a/x", "/tmp/r1/.meta/b/x"]
      ∧ (NewVolumeManager "/tmp/r1" demoTwinsFS).map
          (fun st => (st.1.mounts.length, st.1.HasMount "a/x", st.1.HasMount "b/x"))
          = some (1, false, false)
      ∧ (NewVolumeManager "/tmp/r1" demoTwinsFS).map
          (fun st => (st.1.HasMount "x", st.1.GetOptions "x"))
          = some (true, some [("share", "b")])
      ∧ ((NewVolumeManager "/tmp/r1" demoFS).bind
          (fun st => run st [Op.Create "a/a" demoOpts])).map (fun st => st.2)
          = some demoSelfNestedFS
      ∧ decodableFiles demoSelfNestedFS "/tmp/r1/.meta" = ["/tmp/r1/.meta/a/a"]
      ∧ NewVolumeManager "/tmp/r1" demoSelfNestedFS = none := by
  decide

/-! ## Cleaned paths and their elements -/

theorem clean_eq_of_elems (k1 k2 : String) (h1 : filepath.Clean k1 = k1)
    (h2 : filepath.Clean k2 = k2) (hr : isRooted k1.data = isRooted k2.data)
    (hp : pathElems k1 = pathElems k2) : k1 = k2 := by
  obtain ⟨e1, p1⟩ := clean_repr k1 h1
  obtain ⟨e2, p2⟩ := clean_repr k2 h2
  rw [e1, e2, ← p1, ← p2, hr, hp]

theorem no_sep_pathElems (k : String) : ∀ e ∈ pathElems k, '/' ∉ e := by
  intro e he
  unfold pathElems at he
  exact no_sep_of_mem_splitSep k.data e (List.mem_filter.1 he).1

theorem cleanName_last (n : String) (hn : cleanName n = true) :
    n ≠ "" ∧ n.data.getLast? ≠ some '/' := by
  have h := (cleanName_iff n).1 hn
  constructor
  · intro he
    subst he
    exact absurd hn (by decide)
  · intro hl
    obtain ⟨ys, hys⟩ := List.getLast?_eq_some_iff.1 hl
    have h2 : splitSep n.data = splitSep ys ++ splitSep [] := by
      rw [hys]
      exact splitSep_append_sep ys []
    have h3 : ([] : List Char) ∈ splitSep n.data := by
      rw [h2]
      simp [splitSep]
    exact absurd (h [] h3) (by decide)

/-- The file the store writes for a clean name: a cleaned path, rooted as the
store is, its elements those of the store followed by those of the name. -/
theorem storeFilePath_clean (R n : String) (hR : filepath.Clean R = R)
    (hn : cleanName n = true) :
    storeFilePath R n = filepath.Join [R, n]
      ∧ filepath.Clean (storeFilePath R n) = storeFilePath R n
      ∧ isRooted (storeFilePath R n).data = isRooted R.data
      ∧ pathElems (storeFilePath R n) = pathElems R ++ splitSep n.data := by
  have hRne := Clean_ne_empty R hR
  have hd := data_ne_nil R hRne
  obtain ⟨hnne, hl⟩ := cleanName_last n hn
  have h1 := storeFilePath_eq_of_last R n hRne hnne hl
  have h2 : filepath.Join [R, n] = filepath.Clean ⟨R.data ++ '/' :: n.data⟩ := by
    simp [filepath.Join, hRne, joinWithSep]
  have hne2 : R.data ++ '/' :: n.data ≠ [] := by simp
  obtain ⟨_, s2, s3⟩ := stackOf_Clean (R.data ++ '/' :: n.data) hne2
  have hc : filepath.Clean (storeFilePath R n) = storeFilePath R n := by
    rw [h1, h2]
    exact Clean_idem _ hne2
  refine ⟨h1, hc, ?_, ?_⟩
  · rw [h1, h2, s2, isRooted_append _ _ hd]
  · rw [(clean_repr _ hc).2, (clean_repr R hR).2, h1, h2, s3, stackOf_append_sep _ _ hd,
      foldl_cleanStep_normal _ _ _ ((cleanName_iff n).1 hn)]
    simp

theorem Rel_entry (R k : String) (es : List (List Char)) (hR : filepath.Clean R = R)
    (hk : filepath.Clean k = k) (hr : isRooted k.data = isRooted R.data)
    (hp : pathElems k = pathElems R ++ es) (hne : es ≠ []) :
    filepath.Rel R k = some ⟨joinSep es⟩ := by
  have hkR : k ≠ R := by
    intro h
    rw [h] at hp
    exact hne (List.self_eq_append_right.1 hp)
  unfold filepath.Rel
  simp only [hR, hk, if_neg hkR, hp, relElems_append, hr]
  simp

/-- Two entries below a store with the same relative name are the same path. -/
theorem entry_name_inj (R k1 k2 : String) (x1 x2 : List (List Char) × String)
    (h1 : entryBelow R k1 = some x1) (h2 : entryBelow R k2 = some x2)
    (hj : joinSep x1.1 = joinSep x2.1) : k1 = k2 := by
  obtain ⟨_, c1, r1, p1, n1, a1⟩ := entryBelow_some R k1 x1 h1
  obtain ⟨_, c2, r2, p2, n2, a2⟩ := entryBelow_some R k2 x2 h2
  have s1 : ∀ e ∈ x1.1, '/' ∉ e := by
    intro e he
    exact no_sep_pathElems k1 e (by rw [p1]; exact List.mem_append_right _ he)
  have s2 : ∀ e ∈ x2.1, '/' ∉ e := by
    intro e he
    exact no_sep_pathElems k2 e (by rw [p2]; exact List.mem_append_right _ he)
  have he : x1.1 = x2.1 := by
    rw [← splitSep_joinSep x1.1 n1 s1, ← splitSep_joinSep x2.1 n2 s2, hj]
  exact clean_eq_of_elems k1 k2 c1 c2 (r1.trans r2.symm) (by rw [p1, p2, he])

/-! ## The metadata store: what `GetMounts` returns -/

theorem Stat_Mkdir_file (fs : FS) (q p : String) (d : FileData)
    (h : FS.stat (FS.mkdir fs q).1 p = some (Node.file d)) :
    FS.stat fs p = some (Node.file d) := by
  unfold FS.mkdir at h
  cases hq : FS.stat fs q with
  | some _ =>
    rw [hq] at h
    exact h
  | none =>
    rw [hq] at h
    dsimp only at h
    split at h
    · by_cases hpq : p = q
      · subst hpq
        unfold FS.stat at h
        split at h
        · cases h
        · split at h
          · cases h
          · rw [GoMap.get_set_self] at h
            cases h
      · rw [Stat_set_ne _ _ _ _ hpq] at h
        exact h
    · exact h

theorem Stat_mkdirAllElems_file (r : Bool) (es : List (List Char)) (fs : FS) (p : String)
    (d : FileData) (h : FS.stat (mkdirAllElems r es fs).1 p = some (Node.file d)) :
    FS.stat fs p = some (Node.file d) := by
  induction es generalizing fs with
  | nil => exact h
  | cons e rest ih =>
    unfold mkdirAllElems at h
    split at h
    · exact h
    · exact h
    · exact h
    · split at h
      · rename_i fs1 heq
        apply ih fs
        rw [heq]
        exact Stat_Mkdir_file fs1 _ p d h
      · rename_i fs1 heq
        apply ih fs
        rw [heq]
        exact h

theorem Stat_MkdirAll_file (fs : FS) (q p : String) (d : FileData)
    (h : FS.stat (os.MkdirAll fs q).1 p = some (Node.file d)) :
    FS.stat fs p = some (Node.file d) := by
  unfold os.MkdirAll at h
  split at h
  · exact h
  · exact Stat_mkdirAllElems_file _ _ fs p d h

theorem storeEntry_cases (m : mountStore) (fs : FS) (M : GoMap Opts) (p : String)
    (hc : filepath.Clean p = p) (h : FS.stat fs p ≠ none) :
    (storeEntry m fs M p = some M ∧ ∀ o, FS.read fs p ≠ some (FileData.json o))
      ∨ ∃ o, FS.read fs p = some (FileData.json o)
          ∧ storeEntry m fs M p
              = some (GoMap.set M ((filepath.Rel m.metaDataPath p).getD "") o) := by
  unfold storeEntry
  rw [Stat_clean fs p hc, ReadFile_clean fs p hc]
  cases hs : FS.stat fs p with
  | none => exact absurd hs h
  | some nd =>
    cases nd with
    | dir =>
      left
      simp [FS.read, hs]
    | locked =>
      left
      simp [FS.read, hs]
    | file d =>
      have hr : FS.read fs p = some d := by simp [FS.read, hs]
      cases d with
      | json o =>
        right
        exact ⟨o, hr, by simp [hr, json.Unmarshal]⟩
      | garbage b =>
        left
        simp [hr, json.Unmarshal]

/-- The map after the callback has run along a list of paths that exist: a
name is bound as before when no decodable file in the list has it as its
relative path, and otherwise to the options of such a file. -/
theorem storeEntries_get (m : mountStore) (fs : FS) (ps : List String) (M : GoMap Opts)
    (hc : ∀ p ∈ ps, filepath.Clean p = p) (hs : ∀ p ∈ ps, FS.stat fs p ≠ none) :
    ∃ M2, storeEntries m fs ps M = some M2 ∧ ∀ key,
      ((¬ ∃ p ∈ ps, ∃ o, FS.read fs p = some (FileData.json o)
            ∧ (filepath.Rel m.metaDataPath p).getD "" = key)
          ∧ GoMap.get M2 key = GoMap.get M key)
        ∨ ∃ p ∈ ps, ∃ o, FS.read fs p = some (FileData.json o)
            ∧ (filepath.Rel m.metaDataPath p).getD "" = key ∧ GoMap.get M2 key = some o := by
  induction ps generalizing M with
  | nil =>
    refine ⟨M, rfl, fun key => Or.inl ⟨?_, rfl⟩⟩
    simp
  | cons p ps ih =>
    have hp := hs p (List.mem_cons_self _ _)
    have hps : ∀ p1 ∈ ps, FS.stat fs p1 ≠ none := fun p1 h1 => hs p1 (List.mem_cons_of_mem _ h1)
    have hcs : ∀ p1 ∈ ps, filepath.Clean p1 = p1 := fun p1 h1 => hc p1 (List.mem_cons_of_mem _ h1)
    rcases storeEntry_cases m fs M p (hc p (List.mem_cons_self _ _)) hp with
      ⟨he, hno⟩ | ⟨o, hr, he⟩
    · obtain ⟨M2, hM2, hk⟩ := ih M hcs hps
      refine ⟨M2, by simp only [storeEntries, he, hM2], ?_⟩
      intro key
      rcases hk key with ⟨h1, h2⟩ | ⟨p1, hp1, o1, h1, h2, h3⟩
      · left
        refine ⟨?_, h2⟩
        rintro ⟨p1, hp1, o1, hr1, hn1⟩
        rcases List.mem_cons.1 hp1 with e | e
        · subst e
          exact hno o1 hr1
        · exact h1 ⟨p1, e, o1, hr1, hn1⟩
      · right
        exact ⟨p1, List.mem_cons_of_mem _ hp1, o1, h1, h2, h3⟩
    · obtain ⟨M2, hM2, hk⟩ :=
        ih (GoMap.set M ((filepath.Rel m.metaDataPath p).getD "") o) hcs hps
      refine ⟨M2, by simp only [storeEntries, he, hM2], ?_⟩
      intro key
      rcases hk key with ⟨h1, h2⟩ | ⟨p1, hp1, o1, h1, h2, h3⟩
      · by_cases hkey : (filepath.Rel m.metaDataPath p).getD "" = key
        · right
          refine ⟨p, List.mem_cons_self _ _, o, hr, hkey, ?_⟩
          rw [h2, hkey, GoMap.get_set_self]
        · left
          refine ⟨?_, ?_⟩
          · rintro ⟨p1, hp1, o1, hr1, hn1⟩
            rcases List.mem_cons.1 hp1 with e | e
            · subst e
              exact hkey hn1
            · exact h1 ⟨p1, e, o1, hr1, hn1⟩
          · rw [h2]
            exact GoMap.get_set_ne _ _ _ _ (fun e => hkey e.symm)
      · right
        exact ⟨p1, List.mem_cons_of_mem _ hp1, o1, h1, h2, h3⟩

/-- Every path of the walk over an existing directory exists. -/
theorem Stat_of_mem_walkOrder (fs : FS) (R p : String) (hR : filepath.Clean R = R)
    (hd : FS.stat fs R = some Node.dir)
    (hp : p ∈ filepath.walkOrder fs R) : FS.stat fs p ≠ none := by
  rcases (mem_walkOrder fs R p hR hd).1 hp with e | ⟨hg, es, he⟩
  · rw [e, hd]
    simp
  · have hc := (entryBelow_some R p _ he).2.1
    unfold FS.stat
    rw [if_neg (Clean_ne_empty p hc)]
    split
    · simp
    · exact hg

/-- A path of the walk that holds a file is an entry below the root, and its
relative name is the text of its elements. -/
theorem file_of_walkOrder (fs : FS) (R p : String) (d : FileData)
    (hR : filepath.Clean R = R) (hd : FS.stat fs R = some Node.dir)
    (hp : p ∈ filepath.walkOrder fs R) (hr : FS.read fs p = some d) :
    ∃ es, entryBelow R p = some (es, p)
      ∧ (filepath.Rel R p).getD "" = ⟨joinSep es⟩ := by
  rcases (mem_walkOrder fs R p hR hd).1 hp with e | ⟨hg, es, he⟩
  · subst e
    rw [(ReadFile_eq_some fs p d).1 hr] at hd
    cases hd
  · obtain ⟨_, c, r, pe, ne, _⟩ := entryBelow_some R p _ he
    refine ⟨es, he, ?_⟩
    rw [Rel_entry R p es hR c r pe ne]
    rfl

theorem mem_walkOrder_of_file (fs : FS) (R p : String) (d : FileData)
    (es : List (List Char)) (hR : filepath.Clean R = R) (hd : FS.stat fs R = some Node.dir)
    (he : entryBelow R p = some (es, p)) (hr : FS.read fs p = some d) :
    p ∈ filepath.walkOrder fs R := by
  refine (mem_walkOrder fs R p hR hd).2 (Or.inr ⟨?_, es, he⟩)
  have hs := (ReadFile_eq_some fs p d).1 hr
  unfold FS.stat at hs
  split at hs
  · cases hs
  · split at hs
    · cases hs
    · rw [hs]
      simp

/-- `GetMounts` over an existing directory returns, and its map binds a name
exactly as the decodable file with that relative path says. -/
theorem GetMounts_get (R : String) (fs : FS) (hR : filepath.Clean R = R)
    (hd : FS.stat fs R = some Node.dir) :
    ∃ M, (NewVolumeStore R).GetMounts fs = some (M, fs) ∧ ∀ key,
      ((¬ ∃ p es o, entryBelow R p = some (es, p) ∧ (⟨joinSep es⟩ : String) = key
            ∧ FS.read fs p = some (FileData.json o))
          ∧ GoMap.get M key = none)
        ∨ ∃ p es o, entryBelow R p = some (es, p) ∧ (⟨joinSep es⟩ : String) = key
            ∧ FS.read fs p = some (FileData.json o) ∧ GoMap.get M key = some o := by
  obtain ⟨M, hM, hk⟩ := storeEntries_get (NewVolumeStore R) fs (filepath.walkOrder fs R) []
    (walkOrder_clean fs R hR) (fun p hp => Stat_of_mem_walkOrder fs R p hR hd hp)
  refine ⟨M, ?_, ?_⟩
  · unfold mountStore.GetMounts
    show (match os.Stat fs R with
      | none => some ([], (os.Mkdir fs R).1)
      | some _ =>
        match storeEntries (NewVolumeStore R) fs (filepath.walkOrder fs R) [] with
        | some mounts => some (mounts, fs)
        | none => none) = some (M, fs)
    rw [Stat_clean fs R hR, hd]
    simp only [hM]
  · intro key
    rcases hk key with ⟨h1, h2⟩ | ⟨p, hp, o, h1, h2, h3⟩
    · left
      refine ⟨?_, h2⟩
      rintro ⟨p, es, o, he, hj, hr⟩
      apply h1
      refine ⟨p, mem_walkOrder_of_file fs R p _ es hR hd he hr, o, hr, ?_⟩
      obtain ⟨_, c, r, pe, ne, _⟩ := entryBelow_some R p _ he
      show (filepath.Rel R p).getD "" = key
      rw [Rel_entry R p es hR c r pe ne]
      exact hj
    · right
      obtain ⟨es, he, hn⟩ := file_of_walkOrder fs R p _ hR hd hp h1
      refine ⟨p, es, o, he, ?_, h1, h3⟩
      rw [← hn]
      exact h2

/-- The round trip of the store over a directory named by its cleaned path. -/
theorem round_trip_of_clean (R : String) (fs fs2 : FS) (name : String) (opts : Opts)
    (hR : filepath.Clean R = R) (hd : FS.stat fs R = some Node.dir)
    (hn : cleanName name = true)
    (ha : (NewVolumeStore R).Add fs name opts = some fs2) :
    ∃ M M2, (NewVolumeStore R).GetMounts fs = some (M, fs)
      ∧ (NewVolumeStore R).GetMounts fs2 = some (M2, fs2)
      ∧ GoMap.get M2 name = some opts
      ∧ ∀ other, other ≠ name → GoMap.get M2 other = GoMap.get M other := by
  obtain ⟨hq1, hqc, hqr, hqp⟩ := storeFilePath_clean R name hR hn
  have hw : ioutil.WriteFile
      (os.MkdirAll fs (filepath.Join [R, (filepath.Split name).1])).1
      (storeFilePath R name) (json.Marshal opts) = some fs2 := ha
  have hNne : splitSep name.data ≠ [] := splitSep_ne_nil _
  have hqe : entryBelow R (storeFilePath R name) = some (splitSep name.data, storeFilePath R name) :=
    entryBelow_of_elems R _ _ hqc hqr hqp hNne ((cleanName_iff name).1 hn)
  have hjn : (⟨joinSep (splitSep name.data)⟩ : String) = name := by
    rw [joinSep_splitSep]
  have hqR : storeFilePath R name ≠ R := by
    intro h
    rw [h] at hqp
    exact hNne (List.self_eq_append_right.1 hqp)
  have hd2 : FS.stat fs2 R = some Node.dir := by
    rw [Stat_WriteFile_ne _ _ R _ _ hw (fun e => hqR e.symm)]
    exact Stat_MkdirAll fs _ R _ hd
  have hrq : FS.read fs2 (storeFilePath R name) = some (FileData.json opts) :=
    ReadFile_WriteFile _ _ _ _ hw
  have hframe : ∀ p d, p ≠ storeFilePath R name →
      (FS.read fs p = some d ↔ FS.read fs2 p = some d) := by
    intro p d hp
    rw [ReadFile_eq_some, ReadFile_eq_some, Stat_WriteFile_ne _ _ p _ _ hw hp]
    exact ⟨fun h => Stat_MkdirAll fs _ p _ h, fun h => Stat_MkdirAll_file fs _ p d h⟩
  have hother : ∀ p es other, other ≠ name → entryBelow R p = some (es, p) →
      (⟨joinSep es⟩ : String) = other → p ≠ storeFilePath R name := by
    intro p es other hne he hj hp
    subst hp
    rw [hqe] at he
    have h2 : splitSep name.data = es := congrArg Prod.fst (Option.some.inj he)
    rw [← h2, hjn] at hj
    exact hne hj.symm
  obtain ⟨M, hM, hk⟩ := GetMounts_get R fs hR hd
  obtain ⟨M2, hM2, hk2⟩ := GetMounts_get R fs2 hR hd2
  refine ⟨M, M2, hM, hM2, ?_, ?_⟩
  · rcases hk2 name with ⟨h1, _⟩ | ⟨p, es, o, he, hj, hr, hg⟩
    · exact absurd ⟨_, _, opts, hqe, hjn, hrq⟩ h1
    · have hp : p = storeFilePath R name :=
        entry_name_inj R p _ _ _ he hqe (by
          show joinSep es = joinSep (splitSep name.data)
          rw [joinSep_splitSep, ← hj])
      subst hp
      rw [hrq] at hr
      rw [hg]
      cases hr
      rfl
  · intro other hne
    rcases hk other with ⟨h1, g1⟩ | ⟨p, es, o, he, hj, hr, hg⟩
    · rcases hk2 other with ⟨_, g2⟩ | ⟨p2, es2, o2, he2, hj2, hr2, _⟩
      · rw [g1, g2]
      · have hp2 := hother p2 es2 other hne he2 hj2
        exact absurd ⟨p2, es2, o2, he2, hj2, (hframe p2 _ hp2).2 hr2⟩ h1
    · have hp := hother p es other hne he hj
      rcases hk2 other with ⟨h2, _⟩ | ⟨p2, es2, o2, he2, hj2, hr2, hg2⟩
      · exact absurd ⟨p, es, o, he, hj, (hframe p _ hp).1 hr⟩ h2
      · have hpp : p2 = p :=
          entry_name_inj R p2 p _ _ he2 he (by
            show joinSep es2 = joinSep es
            have := hj2.trans hj.symm
            exact congrArg String.data this)
        subst hpp
        have hr3 := (hframe p2 _ hp).1 hr
        rw [hr2] at hr3
        rw [hg, hg2]
        cases hr3
        rfl

theorem Clean_Clean (p : String) : filepath.Clean (filepath.Clean p) = filepath.Clean p := by
  by_cases h : p = ""
  · subst h
    decide
  · exact Clean_idem p.data (data_ne_nil p h)

/-- Joining a name to a path and to the cleaned path gives the same path. -/
theorem Join_Clean_left (R s : String) (h : R ≠ "") :
    filepath.Join [R, s] = filepath.Join [filepath.Clean R, s] := by
  have hd := data_ne_nil R h
  obtain ⟨h1, h2, h3⟩ := stackOf_Clean R.data hd
  have e : (⟨R.data⟩ : String) = R := rfl
  rw [e] at h1 h2 h3
  have hc : filepath.Clean R ≠ "" := fun e1 => h1 (by rw [e1])
  unfold filepath.Join
  rw [if_neg h, if_neg hc]
  show filepath.Clean ⟨R.data ++ '/' :: s.data⟩
    = filepath.Clean ⟨(filepath.Clean R).data ++ '/' :: s.data⟩
  rw [Clean_mk _ (by simp [hd]), Clean_mk _ (by simp [h1]), isRooted_append _ _ hd,
    isRooted_append _ _ h1, stackOf_append_sep _ _ hd, stackOf_append_sep _ _ h1, h2, h3]

theorem Rel_Clean_left (R p : String) :
    filepath.Rel R p = filepath.Rel (filepath.Clean R) p := by
  unfold filepath.Rel
  rw [Clean_Clean]

/-- The store writes the same file whether its directory is named by a path
or by the cleaned path. -/
theorem Add_Clean (R : String) (fs : FS) (name : String) (opts : Opts) (h : R ≠ "") :
    (NewVolumeStore R).Add fs name opts = (NewVolumeStore (filepath.Clean R)).Add fs name opts := by
  unfold mountStore.Add NewVolumeStore
  simp only
  rw [Join_Clean_left R _ h]

theorem storeEntry_Clean (R : String) (fs : FS) (M : GoMap Opts) (p : String) :
    storeEntry (NewVolumeStore R) fs M p = storeEntry (NewVolumeStore (filepath.Clean R)) fs M p := by
  unfold storeEntry NewVolumeStore
  simp only
  rw [Rel_Clean_left]

theorem storeEntries_Clean (R : String) (fs : FS) (ps : List String) (M : GoMap Opts) :
    storeEntries (NewVolumeStore R) fs ps M
      = storeEntries (NewVolumeStore (filepath.Clean R)) fs ps M := by
  induction ps generalizing M with
  | nil => rfl
  | cons p ps ih =>
    simp only [storeEntries]
    rw [storeEntry_Clean]
    cases storeEntry (NewVolumeStore (filepath.Clean R)) fs M p with
    | none => rfl
    | some M1 => exact ih M1

theorem storeEntry_dir (m : mountStore) (fs : FS) (M : GoMap Opts) (p : String)
    (h : os.Stat fs p = some Node.dir) : storeEntry m fs M p = some M := by
  unfold storeEntry
  rw [h]

/-- The store over an existing directory reads the same map whether the
directory is named by a path or by the cleaned path. -/
theorem GetMounts_Clean (R : String) (fs : FS) (hd : os.Stat fs R = some Node.dir) :
    (NewVolumeStore R).GetMounts fs = (NewVolumeStore (filepath.Clean R)).GetMounts fs := by
  obtain ⟨_, _, hc⟩ := Stat_some fs R _ hd
  have hd2 : os.Stat fs (filepath.Clean R) = some Node.dir := by
    rw [Stat_clean fs _ (Clean_Clean R)]
    exact hc
  have hw : ∀ P : String, os.Stat fs P = some Node.dir →
      filepath.walkOrder fs P
        = P :: (sortEntries ((GoMap.keys fs).filterMap
            (entryBelow (filepath.Clean P)))).map Prod.snd := by
    intro P hP
    unfold filepath.walkOrder
    rw [hP]
  unfold mountStore.GetMounts
  show (match os.Stat fs R with
    | none => some ([], (os.Mkdir fs R).1)
    | some _ =>
      match storeEntries (NewVolumeStore R) fs (filepath.walkOrder fs R) [] with
      | some mounts => some (mounts, fs)
      | none => none)
    = (match os.Stat fs (filepath.Clean R) with
    | none => some ([], (os.Mkdir fs (filepath.Clean R)).1)
    | some _ =>
      match storeEntries (NewVolumeStore (filepath.Clean R)) fs
          (filepath.walkOrder fs (filepath.Clean R)) [] with
      | some mounts => some (mounts, fs)
      | none => none)
  rw [hd, hd2, hw R hd, hw _ hd2, Clean_Clean]
  simp only [storeEntries, storeEntry_dir _ fs _ _ hd, storeEntry_dir _ fs _ _ hd2]
  rw [storeEntries_Clean]

theorem foldl_resolveStep_mono (fs fs2 : FS) (r : Bool)
    (hm : ∀ q, FS.stat fs q = some Node.dir → FS.stat fs2 q = some Node.dir)
    (es out out2 : List (List Char))
    (h : es.foldl (resolveStep fs r) (some out) = some out2) :
    es.foldl (resolveStep fs2 r) (some out) = some out2 := by
  induction es generalizing out with
  | nil => exact h
  | cons e es ih =>
    rw [List.foldl_cons] at h ⊢
    by_cases hn : normalElem e = true
    · have h1 : ∀ f : FS, resolveStep f r (some out) e = some (e :: out) := by
        intro f
        simp [resolveStep, hn]
      rw [h1] at h ⊢
      exact ih _ h
    · by_cases hd : FS.stat fs ⟨render r out.reverse⟩ = some Node.dir
      · have h1 : resolveStep fs r (some out) e = some (cleanStep r out e) := by
          simp [resolveStep, hn, hd]
        have h2 : resolveStep fs2 r (some out) e = some (cleanStep r out e) := by
          simp [resolveStep, hn, hm _ hd]
        rw [h1] at h
        rw [h2]
        exact ih _ h
      · have h1 : resolveStep fs r (some out) e = none := by
          simp [resolveStep, hn, hd]
        rw [h1, foldl_resolveStep_none] at h
        exact absurd h (by simp)

/-- A directory that a path names is still named by it when no directory has
gone. -/
theorem Stat_dir_mono (fs fs2 : FS) (p : String)
    (hm : ∀ q, FS.stat fs q = some Node.dir → FS.stat fs2 q = some Node.dir)
    (h : os.Stat fs p = some Node.dir) : os.Stat fs2 p = some Node.dir := by
  obtain ⟨hp, hr, hc⟩ := Stat_some fs p _ h
  have hr2 : os.resolve fs2 p = some (filepath.Clean p) := by
    unfold os.resolve at hr ⊢
    rw [if_neg hp] at hr ⊢
    cases hf : (splitSep p.data).foldl (resolveStep fs (isRooted p.data)) (some []) with
    | none =>
      rw [hf] at hr
      exact absurd hr (by simp)
    | some out =>
      rw [hf] at hr
      rw [foldl_resolveStep_mono fs fs2 _ hm _ _ _ hf]
      exact hr
  unfold os.Stat
  rw [hr2]
  exact hm _ hc

/-- The file the store writes replaces no directory. -/
theorem Stat_dir_Add (R : String) (fs fs2 : FS) (name : String) (opts : Opts)
    (ha : (NewVolumeStore R).Add fs name opts = some fs2) (q : String)
    (h : FS.stat fs q = some Node.dir) : FS.stat fs2 q = some Node.dir := by
  have hw : ioutil.WriteFile
      (os.MkdirAll fs (filepath.Join [R, (filepath.Split name).1])).1
      (storeFilePath R name) (json.Marshal opts) = some fs2 := ha
  have h1 := Stat_MkdirAll fs (filepath.Join [R, (filepath.Split name).1]) q _ h
  by_cases hq : q = storeFilePath R name
  · rw [hq] at h1
    exact absurd h1 (WriteFile_some _ _ _ _ hw).2.1
  · rw [Stat_WriteFile_ne _ _ q _ _ hw hq]
    exact h1

/-- C13: for a store over an existing directory, however its path is written,
a clean relative name and options `opts`: when `Add(name, opts)` returns,
`GetMounts()` before and after it returns, the map after it binds `name` (the
whole relative path) to `opts`, and every other name is bound after the `Add`
exactly as it was before. -/
theorem store_round_trip (R : String) (fs fs2 : FS) (name : String) (opts : Opts)
    (hd : os.Stat fs R = some Node.dir) (hn : cleanName name = true)
    (ha : (NewVolumeStore R).Add fs name opts = some fs2) :
    ∃ M M2, (NewVolumeStore R).GetMounts fs = some (M, fs)
      ∧ (NewVolumeStore R).GetMounts fs2 = some (M2, fs2)
      ∧ GoMap.get M2 name = some opts
      ∧ ∀ other, other ≠ name → GoMap.get M2 other = GoMap.get M other := by
  obtain ⟨hne, _, hc⟩ := Stat_some fs R _ hd
  have hd2 : os.Stat fs2 R = some Node.dir :=
    Stat_dir_mono fs fs2 R (Stat_dir_Add R fs fs2 name opts ha) hd
  rw [GetMounts_Clean R fs hd, GetMounts_Clean R fs2 hd2]
  rw [Add_Clean R fs name opts hne] at ha
  exact round_trip_of_clean (filepath.Clean R) fs fs2 name opts (Clean_Clean R) hc hn ha

/-- The witness of C13: the store over `/tmp/r1/.meta/`, its path written with
a trailing separator, and the name `tenantA/v6`. -/
theorem store_round_trip_witness :
    os.Stat demoNew.2 "/tmp/r1/.meta/" = some Node.dir
      ∧ cleanName "tenantA/v6" = true
      ∧ (NewVolumeStore "/tmp/r1/.meta/").Add demoNew.2 "tenantA/v6" demoOpts = some demoNestedFS
      ∧ ∃ M M2, (NewVolumeStore "/tmp/r1/.meta/").GetMounts demoNew.2 = some (M, demoNew.2)
          ∧ (NewVolumeStore "/tmp/r1/.meta/").GetMounts demoNestedFS = some (M2, demoNestedFS)
          ∧ GoMap.get M2 "tenantA/v6" = some demoOpts
          ∧ ∀ other, other ≠ "tenantA/v6" → GoMap.get M2 other = GoMap.get M other :=
  ⟨by decide, by decide, by decide,
    store_round_trip "/tmp/r1/.meta/" demoNew.2 demoNestedFS "tenantA/v6" demoOpts
      (by decide) (by decide) (by decide)⟩

/-! ## The order of the walk -/

theorem ltChars_iff (a b : List Char) : ltChars a b = true ↔ a < b := by
  induction a generalizing b with
  | nil =>
    cases b with
    | nil => simp [ltChars]
    | cons b bs => simp [ltChars, List.nil_lt_cons]
  | cons a as ih =>
    cases b with
    | nil =>
      simp only [ltChars, Bool.false_eq_true, false_iff]
      intro h
      cases h
    | cons b bs =>
      have hab : (a.val < b.val) = (a < b) := rfl
      have hba : (b.val < a.val) = (b < a) := rfl
      simp only [ltChars, hab, hba]
      constructor
      · intro h
        split at h
        · rename_i h1
          exact List.Lex.rel h1
        · rename_i h1
          split at h
          · cases h
          · rename_i h2
            have e : a = b := le_antisymm (not_lt.1 h2) (not_lt.1 h1)
            subst e
            exact List.Lex.cons ((ih bs).1 h)
      · intro h
        cases h with
        | rel h1 => simp [h1]
        | cons h3 => simp [(ih bs).2 h3]

theorem ltChars_eq_false (a b : List Char) : ltChars a b = false ↔ ¬ a < b := by
  rw [← ltChars_iff]
  simp

theorem ltElems_iff (x y : List (List Char)) : ltElems x y = true ↔ x < y := by
  induction x generalizing y with
  | nil =>
    cases y with
    | nil => simp [ltElems]
    | cons b bs => simp [ltElems, List.nil_lt_cons]
  | cons a as ih =>
    cases y with
    | nil =>
      simp only [ltElems, Bool.false_eq_true, false_iff]
      intro h
      cases h
    | cons b bs =>
      simp only [ltElems]
      constructor
      · intro h
        split at h
        · rename_i h1
          exact List.Lex.rel ((ltChars_iff a b).1 h1)
        · rename_i h1
          split at h
          · cases h
          · rename_i h2
            have g1 : ¬ a < b := fun e => h1 ((ltChars_iff a b).2 e)
            have g2 : ¬ b < a := fun e => h2 ((ltChars_iff b a).2 e)
            have e : a = b := le_antisymm (not_lt.1 g2) (not_lt.1 g1)
            subst e
            exact List.Lex.cons ((ih bs).1 h)
      · intro h
        cases h with
        | rel h1 => simp [(ltChars_iff a b).2 h1]
        | cons h3 =>
          have e1 : ltChars a a = false := (ltChars_eq_false a a).2 (lt_irrefl a)
          simp [e1, (ih bs).2 h3]

/-- What comes before `y` comes before everything that does not come before
`y`. -/
theorem ltElems_of_not_lt (x y z : List (List Char)) (h1 : ltElems x y = true)
    (h2 : ¬ ltElems z y = true) : ltElems x z = true := by
  rw [ltElems_iff] at h1 h2 ⊢
  exact lt_of_lt_of_le h1 (not_lt.1 h2)

theorem filter_insertEntry_neg (q : List (List Char) × String → Bool)
    (x : List (List Char) × String) (l : List (List (List Char) × String))
    (hx : q x = false) : (insertEntry x l).filter q = l.filter q := by
  induction l with
  | nil => simp [insertEntry, hx]
  | cons y ys ih =>
    unfold insertEntry
    split
    · simp [hx]
    · simp only [List.filter_cons, ih]

theorem filter_insertEntry_pos (q : List (List Char) × String → Bool)
    (x : List (List Char) × String) (l : List (List (List Char) × String))
    (hx : q x = true) (hs : l.Pairwise (fun a b => ¬ ltElems b.1 a.1 = true)) :
    (insertEntry x l).filter q = insertEntry x (l.filter q) := by
  induction l with
  | nil => simp [insertEntry, hx]
  | cons y ys ih =>
    have hys := (List.pairwise_cons.1 hs)
    by_cases hlt : ltElems x.1 y.1 = true
    · have hall : ∀ z ∈ (y :: ys).filter q, ltElems x.1 z.1 = true := by
        intro z hz
        rcases List.mem_cons.1 (List.mem_filter.1 hz).1 with e | e
        · rw [e]
          exact hlt
        · exact ltElems_of_not_lt _ _ _ hlt (hys.1 z e)
      have h1 : insertEntry x (y :: ys) = x :: y :: ys := by simp [insertEntry, hlt]
      rw [h1, List.filter_cons, if_pos hx]
      cases hf : (y :: ys).filter q with
      | nil => simp [insertEntry]
      | cons z zs =>
        have hz : ltElems x.1 z.1 = true := hall z (by rw [hf]; exact List.mem_cons_self _ _)
        simp [insertEntry, hz]
    · have h1 : insertEntry x (y :: ys) = y :: insertEntry x ys := by simp [insertEntry, hlt]
      rw [h1, List.filter_cons, List.filter_cons, ih hys.2]
      by_cases hy : q y = true
      · simp [hy, insertEntry, hlt]
      · simp [hy]

theorem sorted_insertEntry (x : List (List Char) × String)
    (l : List (List (List Char) × String))
    (hs : l.Pairwise (fun a b => ¬ ltElems b.1 a.1 = true)) :
    (insertEntry x l).Pairwise (fun a b => ¬ ltElems b.1 a.1 = true) := by
  induction l with
  | nil => simp [insertEntry]
  | cons y ys ih =>
    have hys := (List.pairwise_cons.1 hs)
    by_cases hlt : ltElems x.1 y.1 = true
    · have h1 : insertEntry x (y :: ys) = x :: y :: ys := by simp [insertEntry, hlt]
      rw [h1]
      refine List.pairwise_cons.2 ⟨?_, hs⟩
      intro z hz hzx
      have hxz : ltElems x.1 z.1 = true := by
        rcases List.mem_cons.1 hz with e | e
        · rw [e]
          exact hlt
        · exact ltElems_of_not_lt _ _ _ hlt (hys.1 z e)
      rw [ltElems_iff] at hzx hxz
      exact lt_asymm hzx hxz
    · have h1 : insertEntry x (y :: ys) = y :: insertEntry x ys := by simp [insertEntry, hlt]
      rw [h1]
      refine List.pairwise_cons.2 ⟨?_, ih hys.2⟩
      intro z hz
      rcases (mem_insertEntry x z ys).1 hz with e | e
      · rw [e]
        exact hlt
      · exact hys.1 z e

theorem sorted_sortEntries (l : List (List (List Char) × String)) :
    (sortEntries l).Pairwise (fun a b => ¬ ltElems b.1 a.1 = true) := by
  induction l with
  | nil => simp [sortEntries]
  | cons x xs ih => exact sorted_insertEntry x _ ih

/-- Sorting what is left after a filter is filtering what was sorted. -/
theorem sortEntries_filter (q : List (List Char) × String → Bool)
    (l : List (List (List Char) × String)) :
    sortEntries (l.filter q) = (sortEntries l).filter q := by
  induction l with
  | nil => simp [sortEntries]
  | cons x xs ih =>
    by_cases hx : q x = true
    · rw [List.filter_cons, if_pos hx]
      simp only [sortEntries]
      rw [ih, filter_insertEntry_pos q x _ hx (sorted_sortEntries xs)]
    · have hx2 : q x = false := by simpa using hx
      rw [List.filter_cons, if_neg hx]
      simp only [sortEntries]
      rw [ih, filter_insertEntry_neg q x _ hx2]

/-! ## The walk without one file -/

theorem GoMap.keys_del {V : Type} (m : GoMap V) (k : String) :
    GoMap.keys (GoMap.del m k) = (GoMap.keys m).filter (fun k1 => decide (k1 ≠ k)) := by
  induction m with
  | nil => rfl
  | cons e rest ih =>
    obtain ⟨k0, v⟩ := e
    unfold GoMap.del at ih ⊢
    by_cases h : k0 = k
    · subst h
      simp only [List.filter_cons, GoMap.keys, ne_eq, not_true_eq_false, decide_False,
        Bool.false_eq_true, if_false, ih, List.filter_filter, Bool.and_self]
    · simp only [List.filter_cons, GoMap.keys, ne_eq, h, not_false_eq_true, decide_True,
        if_true, ih, List.filter_filter]
      congr 1
      apply List.filter_congr
      intro x _
      exact Bool.and_comm _ _

theorem filterMap_entryBelow_filter (R k : String) (l : List String) :
    (l.filter (fun k1 => decide (k1 ≠ k))).filterMap (entryBelow R)
      = (l.filterMap (entryBelow R)).filter (fun x => decide (x.2 ≠ k)) := by
  induction l with
  | nil => rfl
  | cons a as ih =>
    by_cases h : a = k
    · subst h
      rw [List.filter_cons, if_neg (by simp), ih, List.filterMap_cons]
      cases he : entryBelow R a with
      | none => rfl
      | some x =>
        have hx := (entryBelow_some R a x he).1
        simp [hx]
    · rw [List.filter_cons, if_pos (by simpa using h), List.filterMap_cons, List.filterMap_cons]
      cases he : entryBelow R a with
      | none => exact ih
      | some x =>
        have hx := (entryBelow_some R a x he).1
        simp only [ih, List.filter_cons, hx, ne_eq, h, not_false_eq_true, decide_True, if_true]

theorem map_snd_filter (k : String) (l : List (List (List Char) × String)) :
    (l.filter (fun x => decide (x.2 ≠ k))).map Prod.snd
      = (l.map Prod.snd).filter (fun k1 => decide (k1 ≠ k)) := by
  induction l with
  | nil => rfl
  | cons a as ih =>
    rw [List.map_cons, List.filter_cons, List.filter_cons]
    by_cases h : a.2 = k
    · rw [if_neg (by simp [h]), if_neg (by simp [h])]
      exact ih
    · rw [if_pos (by simp [h]), if_pos (by simp [h]), List.map_cons, ih]

/-- Without the entry `k`, the walk over a directory other than `k` visits the
same paths in the same order, `k` apart. -/
theorem walkOrder_del (fs : FS) (R k : String) (hR : filepath.Clean R = R) (hne : R ≠ k)
    (hd : FS.stat fs R = some Node.dir) :
    filepath.walkOrder (GoMap.del fs k) R
      = (filepath.walkOrder fs R).filter (fun k1 => decide (k1 ≠ k)) := by
  unfold filepath.walkOrder
  rw [Stat_clean _ R hR, Stat_clean _ R hR, Stat_del_ne fs R k hne, hd, hR]
  simp only
  rw [List.filter_cons, if_pos (by simpa using hne), GoMap.keys_del, filterMap_entryBelow_filter,
    sortEntries_filter, map_snd_filter]

/-! ## Loading a metadata directory: what `Create` does during the walk -/

theorem MkdirAll_of_exists (fs : FS) (p : String) (hc : filepath.Clean p = p)
    (h : FS.stat fs p ≠ none) : (os.MkdirAll fs p).1 = fs := by
  unfold os.MkdirAll
  rw [if_neg (Clean_ne_empty p hc)]
  obtain ⟨e1, e2⟩ := clean_repr p hc
  cases hr : (pathElems p).reverse with
  | nil => rfl
  | cons e rest =>
    have h1 : (e :: rest).reverse = pathElems p := by
      rw [← hr, List.reverse_reverse]
    have h2 : (⟨render (isRooted p.data) (e :: rest).reverse⟩ : String) = p := by
      rw [h1, e2]
      exact e1.symm
    unfold mkdirAllElems
    rw [h2]
    cases hs : FS.stat fs p with
    | none => exact absurd hs h
    | some nd =>
      cases nd <;> rfl

theorem cleanName_of_plain (b : String) (h : plainName b) : cleanName b = true := by
  rw [cleanName_iff, splitSep_of_no_sep _ h.2]
  intro e he
  rw [List.mem_singleton.1 he]
  exact h.1

/-- The file of a plain name lies directly in the metadata directory. -/
theorem createFilePath_plain (root b : String) (h : plainName b) :
    createFilePath root b = ⟨(filepath.Join [root, ".meta"]).data ++ '/' :: b.data⟩ := by
  rw [createFilePath_eq root b (cleanName_of_plain b h),
    Join_meta_name root b (cleanName_of_plain b h)]

theorem Base_createFilePath_plain (root b : String) (h : plainName b) :
    filepath.Base (createFilePath root b) = b := by
  rw [createFilePath_plain root b h]
  have hb : b.data ≠ [] := ((normalElem_iff _).1 h.1).1
  have := Base_of_last ((filepath.Join [root, ".meta"]).data ++ ['/']) b.data hb h.2
    (Or.inr ⟨_, rfl⟩)
  simpa using this

theorem createFilePath_ne_meta (root b : String) (h : plainName b) :
    filepath.Join [root, ".meta"] ≠ createFilePath root b := by
  rw [createFilePath_plain root b h]
  intro e
  have := congrArg (fun s => s.data.length) e
  simp at this

/-- During the walk `Create` on a plain name without an active record is one
write, directly in the metadata directory. -/
theorem createManaged_plain (m : mountManager) (fs : FS) (b : String) (opts : Opts)
    (hb : plainName b) (hm : FS.stat fs (filepath.Join [m.root, ".meta"]) ≠ none) :
    m.createManaged fs b opts =
      (ioutil.WriteFile fs (createFilePath m.root b) (json.Marshal opts)).map
        (fun fs2 =>
          (freshRecord m.root b opts,
           { m with mounts := GoMap.set m.mounts b (freshRecord m.root b opts) }, fs2)) := by
  have h1 : filepath.Split b = ("", b) := Split_elem b.data hb.2
  have h2 : filepath.Join [m.root, ".meta", (filepath.Split b).1] = filepath.Join [m.root, ".meta"] := by
    rw [h1, Join_meta_sub, Join_meta]
    exact Clean_append_sep _ (metaChars_ne_nil m.root)
  rw [createManaged_eq, h2, MkdirAll_of_exists fs _ (Clean_Join_meta m.root) hm]
  rfl

theorem renderFront_cases (r : Bool) (xs : List (List Char)) :
    renderFront r xs = [] ∨ ∃ q, renderFront r xs = q ++ ['/'] := by
  unfold renderFront
  by_cases h : xs = []
  · cases r
    · left
      simp [h]
    · right
      exact ⟨[], by simp [h]⟩
  · right
    exact ⟨render r xs, by simp [h]⟩

/-- The base name of a cleaned path whose last element is a kept one. -/
theorem Base_clean (p : String) (hc : filepath.Clean p = p) (xs : List (List Char))
    (e : List Char) (hp : pathElems p = xs ++ [e]) (he : normalElem e = true) :
    filepath.Base p = ⟨e⟩ ∧ plainName ⟨e⟩ := by
  obtain ⟨e1, e2⟩ := clean_repr p hc
  have hs : '/' ∉ e := no_sep_pathElems p e (by rw [hp]; simp)
  refine ⟨?_, he, hs⟩
  rw [e1, ← e2, hp, render_snoc]
  exact Base_of_last _ e ((normalElem_iff e).1 he).1 hs (renderFront_cases _ xs)

theorem plain_Base_meta (root : String) : plainName (filepath.Base (filepath.Join [root, ".meta"])) := by
  have h := Join_meta_render root
  have hc := Clean_Join_meta root
  have hm : normalElem ['.', 'm', 'e', 't', 'a'] = true := by decide
  have hp : pathElems (filepath.Join [root, ".meta"])
      = (if root = "" then [] else stackOf root.data).reverse ++ [['.', 'm', 'e', 't', 'a']] := by
    rw [(clean_repr _ hc).2]
    have h3 := stackOf_metaChars root
    have h4 := (stackOf_Clean (metaChars root) (metaChars_ne_nil root)).2.2
    rw [Join_meta, h4, h3]
    simp
  obtain ⟨b1, b2⟩ := Base_clean _ hc _ _ hp hm
  rw [b1]
  exact b2

theorem plain_Base_entry (R p : String) (x : List (List Char) × String)
    (h : entryBelow R p = some x) : plainName (filepath.Base p) := by
  obtain ⟨_, c, _, pe, ne, hn⟩ := entryBelow_some R p x h
  rcases List.eq_nil_or_concat x.1 with e | ⟨init, l, hl⟩
  · exact absurd e ne
  · rw [List.concat_eq_append] at hl
    have hp : pathElems p = (pathElems R ++ init) ++ [l] := by
      rw [pe, hl, List.append_assoc]
    have hln : normalElem l = true := hn l (by rw [hl]; simp)
    obtain ⟨b1, b2⟩ := Base_clean p c _ l hp hln
    rw [b1]
    exact b2

/-- Every path of the walk over the metadata directory has a plain base name. -/
theorem plain_Base_walkOrder (fs : FS) (root p : String)
    (hp : p ∈ filepath.walkOrder fs (filepath.Join [root, ".meta"])) :
    plainName (filepath.Base p) := by
  unfold filepath.walkOrder at hp
  split at hp
  · cases hp
  · rw [List.mem_singleton.1 hp]
    exact plain_Base_meta root
  · rw [List.mem_singleton.1 hp]
    exact plain_Base_meta root
  · rename_i hd
    have hd2 := hd
    rw [Stat_clean fs _ (Clean_Join_meta root)] at hd2
    rcases (mem_walkOrder fs _ p (Clean_Join_meta root) hd2).1
        (by unfold filepath.walkOrder; rw [hd]; exact hp) with
      e | ⟨_, es, he⟩
    · rw [e]
      exact plain_Base_meta root
    · exact plain_Base_entry _ p _ he

/-! ## Loading with and without a file that does not decode -/

theorem WriteFile_eq_ite (fs : FS) (q : String) (data : FileData) :
    ioutil.WriteFile fs q data
      = if (FS.stat fs q ≠ some Node.dir ∧ FS.stat fs q ≠ some Node.locked) ∧ q ≠ ""
          ∧ FS.stat fs (filepath.Dir q) = some Node.dir
        then some (GoMap.set fs q (Node.file data)) else none := by
  unfold ioutil.WriteFile
  cases hs : FS.stat fs q with
  | none => simp
  | some nd =>
    cases nd with
    | dir => simp
    | locked => simp
    | file d => simp

theorem Stat_set_self_eq (f1 f2 : FS) (q : String) (v : Node) :
    FS.stat (GoMap.set f1 q v) q = FS.stat (GoMap.set f2 q v) q := by
  unfold FS.stat
  rw [GoMap.get_set_self, GoMap.get_set_self]

theorem Stat_set_self_file (f : FS) (q : String) (v : Node) (hq : q ≠ "")
    (hnd : FS.stat f q ≠ some Node.dir) : FS.stat (GoMap.set f q v) q = some v := by
  unfold FS.stat at hnd ⊢
  rw [if_neg hq] at hnd ⊢
  split
  · rename_i hi
    rw [if_pos hi] at hnd
    exact absurd rfl hnd
  · exact GoMap.get_set_self _ _ _

theorem Stat_set_same (f : FS) (k : String) (v : Node) (h : FS.stat f k = some v) (p : String) :
    FS.stat (GoMap.set f k v) p = FS.stat f p := by
  by_cases hp : p = k
  · subst hp
    unfold FS.stat at h ⊢
    split
    · rfl
    · rename_i hne
      rw [if_neg hne] at h
      split
      · rfl
      · rename_i hi
        rw [if_neg hi] at h
        rw [GoMap.get_set_self, h]
  · exact Stat_set_ne f p k v hp

theorem GoMap.get_set_same {V : Type} (m : GoMap V) (k : String) (v : V)
    (h : GoMap.get m k = some v) (n : String) : GoMap.get (GoMap.set m k v) n = GoMap.get m n := by
  by_cases hn : n = k
  · subst hn
    rw [GoMap.get_set_self, h]
  · exact GoMap.get_set_ne _ _ _ _ hn

theorem GoMap.get_set_ext {V : Type} (m1 m2 : GoMap V) (k : String) (v : V)
    (h : ∀ n, GoMap.get m1 n = GoMap.get m2 n) (n : String) :
    GoMap.get (GoMap.set m1 k v) n = GoMap.get (GoMap.set m2 k v) n := by
  by_cases hn : n = k
  · subst hn
    rw [GoMap.get_set_self, GoMap.get_set_self]
  · rw [GoMap.get_set_ne _ _ _ _ hn, GoMap.get_set_ne _ _ _ _ hn]
    exact h n

/-- The callback at a file that decodes, during the walk: one write directly
in the metadata directory, and the fresh record under the base name. -/
theorem loadEntry_json_plain (st : mountManager × FS) (p : String) (o : Opts)
    (hi : Idle st.1) (hm : FS.stat st.2 (filepath.Join [st.1.root, ".meta"]) ≠ none)
    (hb : plainName (filepath.Base p)) (hc : filepath.Clean p = p)
    (hs : FS.stat st.2 p = some (Node.file (FileData.json o))) :
    loadEntry st p
      = (ioutil.WriteFile st.2 (createFilePath st.1.root (filepath.Base p)) (json.Marshal o)).map
          (fun fs2 =>
            ({ st.1 with
               mounts :=
                 GoMap.set st.1.mounts (filepath.Base p)
                   (freshRecord st.1.root (filepath.Base p) o) }, fs2)) := by
  have hr : FS.read st.2 p = some (FileData.json o) := (ReadFile_eq_some _ _ _).2 hs
  unfold loadEntry
  rw [Stat_clean _ p hc, ReadFile_clean _ p hc]
  simp only [hs, hr, json.Unmarshal]
  rw [Create_of_inactive _ _ _ _ (IsActiveMount_of_Idle st.1 _ hi),
    createManaged_plain st.1 st.2 _ o hb hm]
  cases ioutil.WriteFile st.2 (createFilePath st.1.root (filepath.Base p)) (json.Marshal o) <;> rfl

theorem loadEntry_not_json (st : mountManager × FS) (p : String) (nd : Node)
    (hc : filepath.Clean p = p)
    (hs : FS.stat st.2 p = some nd) (hn : ∀ o, nd ≠ Node.file (FileData.json o)) :
    loadEntry st p = some st := by
  unfold loadEntry
  rw [Stat_clean _ p hc, ReadFile_clean _ p hc]
  cases nd with
  | dir => simp [hs]
  | locked =>
    have hr : FS.read st.2 p = none := by simp [FS.read, hs]
    simp [hs, hr]
  | file d =>
    cases d with
    | json o => exact absurd rfl (hn o)
    | garbage b =>
      have hr : FS.read st.2 p = some (FileData.garbage b) := (ReadFile_eq_some _ _ _).2 hs
      simp [hs, hr, json.Unmarshal]

theorem SkipSim_dir (root k : String) (st st2 : mountManager × FS) (h : SkipSim root k st st2)
    (p : String) : FS.stat st.2 p = some Node.dir ↔ FS.stat st2.2 p = some Node.dir := by
  obtain ⟨_, _, _, _, _, _, hst, hk⟩ := h
  by_cases hp : p = k
  · subst hp
    rcases hk with ⟨⟨b, h1⟩, h2⟩ | ⟨o, h1, h2, _⟩
    · rw [h1, h2]
      simp
    · rw [h1, h2]
  · rw [hst p hp]

theorem SkipSim_locked (root k : String) (st st2 : mountManager × FS)
    (h : SkipSim root k st st2) (p : String) :
    FS.stat st.2 p = some Node.locked ↔ FS.stat st2.2 p = some Node.locked := by
  obtain ⟨_, _, _, _, _, _, hst, hk⟩ := h
  by_cases hp : p = k
  · subst hp
    rcases hk with ⟨⟨b, h1⟩, h2⟩ | ⟨o, h1, h2, _⟩
    · rw [h1, h2]
      simp
    · rw [h1, h2]
  · rw [hst p hp]

theorem Idle_of_ext (m1 m2 : mountManager) (h : ∀ n, GoMap.get m1.mounts n = GoMap.get m2.mounts n)
    (hi : Idle m1) : Idle m2 := by
  intro n c hg
  rw [← h n] at hg
  exact hi n c hg

theorem Idle_of_set (m m2 : mountManager) (b : String) (c : mount)
    (hm : m2.mounts = GoMap.set m.mounts b c) (hc : c.connections ≤ 0) (h : Idle m) :
    Idle m2 := by
  intro n c1 hg
  rw [hm] at hg
  by_cases hn : n = b
  · subst hn
    rw [GoMap.get_set_self] at hg
    rw [← Option.some.inj hg]
    exact hc
  · rw [GoMap.get_set_ne _ _ _ _ hn] at hg
    exact h n c1 hg

theorem Stat_ne_empty (fs : FS) (p : String) (h : FS.stat fs p ≠ none) : p ≠ "" := by
  intro e
  subst e
  exact h (stat_empty fs)

/-- One step of the two loads at a path other than `k`: both panic, or both go
on and stand to each other as before. -/
theorem SkipSim_loadEntry (root k : String) (st st2 : mountManager × FS) (p : String)
    (h : SkipSim root k st st2) (hp : p ≠ k) (hb : plainName (filepath.Base p))
    (hcp : filepath.Clean p = p) :
    (loadEntry st p = none ∧ loadEntry st2 p = none)
      ∨ ∃ s s2, loadEntry st p = some s ∧ loadEntry st2 p = some s2 ∧ SkipSim root k s s2 := by
  have hdir := SkipSim_dir root k st st2 h
  have hlock := SkipSim_locked root k st st2 h
  have hsim := h
  obtain ⟨hr1, hr2, hext, hidle, hm1, hm2, hst, hkk⟩ := h
  have hsp := hst p hp
  cases hs : FS.stat st.2 p with
  | none =>
    left
    have hs2 : FS.stat st2.2 p = none := by rw [← hsp, hs]
    exact ⟨by simp [loadEntry, Stat_clean _ p hcp, hs],
      by simp [loadEntry, Stat_clean _ p hcp, hs2]⟩
  | some nd =>
    have hs2 : FS.stat st2.2 p = some nd := by rw [← hsp, hs]
    by_cases hj : ∃ o, nd = Node.file (FileData.json o)
    · obtain ⟨o, hnd⟩ := hj
      subst hnd
      have hidle2 : Idle st2.1 := Idle_of_ext st.1 st2.1 hext hidle
      have e1 := loadEntry_json_plain st p o hidle (by rw [hr1]; exact hm1) hb hcp hs
      have e2 := loadEntry_json_plain st2 p o hidle2 (by rw [hr2]; exact hm2) hb hcp hs2
      rw [hr1] at e1
      rw [hr2] at e2
      have hqm := createFilePath_ne_meta root _ hb
      have hqb := Base_createFilePath_plain root _ hb
      obtain ⟨q, hq⟩ : ∃ q, q = createFilePath root (filepath.Base p) := ⟨_, rfl⟩
      rw [← hq] at e1 e2 hqm hqb
      rw [WriteFile_eq_ite] at e1 e2
      by_cases hc : (FS.stat st.2 q ≠ some Node.dir ∧ FS.stat st.2 q ≠ some Node.locked)
          ∧ q ≠ "" ∧ FS.stat st.2 (filepath.Dir q) = some Node.dir
      · have hc2 : (FS.stat st2.2 q ≠ some Node.dir ∧ FS.stat st2.2 q ≠ some Node.locked)
            ∧ q ≠ "" ∧ FS.stat st2.2 (filepath.Dir q) = some Node.dir :=
          ⟨⟨fun e => hc.1.1 ((hdir q).2 e), fun e => hc.1.2 ((hlock q).2 e)⟩, hc.2.1,
            (hdir _).1 hc.2.2⟩
        rw [if_pos hc, Option.map_some'] at e1
        rw [if_pos hc2, Option.map_some'] at e2
        right
        refine ⟨_, _, e1, e2, hr1, hr2, ?_, ?_, ?_, ?_, ?_, ?_⟩
        · exact fun n => GoMap.get_set_ext _ _ _ _ hext n
        · exact Idle_of_set st.1 _ _ _ rfl (le_refl _) hidle
        · show FS.stat (GoMap.set st.2 q _) _ ≠ none
          rw [Stat_set_ne _ _ _ _ hqm]
          exact hm1
        · show FS.stat (GoMap.set st2.2 q _) _ ≠ none
          rw [Stat_set_ne _ _ _ _ hqm]
          exact hm2
        · intro p1 hp1
          show FS.stat (GoMap.set st.2 q _) p1 = FS.stat (GoMap.set st2.2 q _) p1
          by_cases hpq : p1 = q
          · rw [hpq]
            exact Stat_set_self_eq _ _ _ _
          · rw [Stat_set_ne _ _ _ _ hpq, Stat_set_ne _ _ _ _ hpq]
            exact hst p1 hp1
        · have hdq : filepath.Dir q ≠ q := by
            intro e
            rw [e] at hc
            exact hc.1.1 hc.2.2
          by_cases hqk : q = k
          · right
            refine ⟨o, ?_, ?_, ?_, ?_, ?_, ?_⟩
            · show FS.stat (GoMap.set st.2 q _) k = _
              rw [← hqk]
              exact Stat_set_self_file _ _ _ hc.2.1 hc.1.1
            · show FS.stat (GoMap.set st2.2 q _) k = _
              rw [← hqk]
              exact Stat_set_self_file _ _ _ hc2.2.1 hc2.1.1
            · show FS.stat (GoMap.set st.2 q _) (filepath.Dir k) = _
              rw [← hqk, Stat_set_ne _ _ _ _ hdq]
              exact hc.2.2
            · rw [← hqk, hqb]
              exact hb
            · rw [← hqk, hqb]
              exact hq.symm
            · show GoMap.get (GoMap.set st.1.mounts _ _) (filepath.Base k) = _
              rw [← hqk, hqb, GoMap.get_set_self]
          · have hkq : k ≠ q := fun e => hqk e.symm
            rcases hkk with ⟨⟨b, a1⟩, a2⟩ | ⟨o2, a1, a2, a3, a4, a5, a6⟩
            · left
              refine ⟨⟨b, ?_⟩, ?_⟩
              · show FS.stat (GoMap.set st.2 q _) k = _
                rw [Stat_set_ne _ _ _ _ hkq]
                exact a1
              · show FS.stat (GoMap.set st2.2 q _) k = _
                rw [Stat_set_ne _ _ _ _ hkq]
                exact a2
            · right
              refine ⟨o2, ?_, ?_, ?_, a4, a5, ?_⟩
              · show FS.stat (GoMap.set st.2 q _) k = _
                rw [Stat_set_ne _ _ _ _ hkq]
                exact a1
              · show FS.stat (GoMap.set st2.2 q _) k = _
                rw [Stat_set_ne _ _ _ _ hkq]
                exact a2
              · show FS.stat (GoMap.set st.2 q _) (filepath.Dir k) = _
                have hne : filepath.Dir k ≠ q := by
                  intro e
                  rw [e] at a3
                  exact hc.1.1 a3
                rw [Stat_set_ne _ _ _ _ hne]
                exact a3
              · show GoMap.get (GoMap.set st.1.mounts _ _) (filepath.Base k) = _
                have hne : filepath.Base k ≠ filepath.Base p := by
                  intro e
                  apply hqk
                  rw [hq, ← e, a5]
                rw [GoMap.get_set_ne _ _ _ _ hne]
                exact a6
      · have hc2 : ¬ ((FS.stat st2.2 q ≠ some Node.dir ∧ FS.stat st2.2 q ≠ some Node.locked)
            ∧ q ≠ "" ∧ FS.stat st2.2 (filepath.Dir q) = some Node.dir) := by
          intro e
          exact hc ⟨⟨fun e1 => e.1.1 ((hdir q).1 e1), fun e1 => e.1.2 ((hlock q).1 e1)⟩, e.2.1,
            (hdir _).2 e.2.2⟩
        rw [if_neg hc] at e1
        rw [if_neg hc2] at e2
        left
        exact ⟨e1, e2⟩
    · right
      have hn : ∀ o, nd ≠ Node.file (FileData.json o) := fun o e => hj ⟨o, e⟩
      exact ⟨st, st2, loadEntry_not_json st p nd hcp hs hn,
        loadEntry_not_json st2 p nd hcp hs2 hn, hsim⟩

/-- The step of the first load at `k`: it goes on, and nothing has changed. -/
theorem SkipSim_visit (root k : String) (st st2 : mountManager × FS)
    (h : SkipSim root k st st2) (hck : filepath.Clean k = k) :
    ∃ s, loadEntry st k = some s ∧ SkipSim root k s st2 := by
  have hsim := h
  obtain ⟨hr1, hr2, hext, hidle, hm1, hm2, hst, hkk⟩ := h
  rcases hkk with ⟨⟨b, a1⟩, a2⟩ | ⟨o, a1, a2, a3, a4, a5, a6⟩
  · exact ⟨st, loadEntry_not_json st k _ hck a1 (by intro o e; cases e), hsim⟩
  · have hkne : k ≠ "" := Stat_ne_empty st.2 k (by rw [a1]; simp)
    have e1 := loadEntry_json_plain st k o hidle (by rw [hr1]; exact hm1) a4 hck a1
    rw [hr1, a5, WriteFile_eq_ite,
      if_pos ⟨⟨by rw [a1]; simp, by rw [a1]; simp⟩, hkne, a3⟩, Option.map_some'] at e1
    have hsame : ∀ p, FS.stat (GoMap.set st.2 k (Node.file (json.Marshal o))) p = FS.stat st.2 p :=
      Stat_set_same st.2 k _ a1
    refine ⟨_, e1, hr1, hr2, ?_, ?_, ?_, hm2, ?_, ?_⟩
    · intro n
      show GoMap.get (GoMap.set st.1.mounts _ _) n = _
      rw [GoMap.get_set_same _ _ _ a6]
      exact hext n
    · exact Idle_of_set st.1 _ _ _ rfl (le_refl _) hidle
    · show FS.stat (GoMap.set st.2 k _) _ ≠ none
      rw [hsame]
      exact hm1
    · intro p hp
      show FS.stat (GoMap.set st.2 k _) p = _
      rw [hsame]
      exact hst p hp
    · right
      refine ⟨o, ?_, a2, ?_, a4, a5, ?_⟩
      · show FS.stat (GoMap.set st.2 k _) k = _
        rw [hsame]
        exact a1
      · show FS.stat (GoMap.set st.2 k _) _ = _
        rw [hsame]
        exact a3
      · show GoMap.get (GoMap.set st.1.mounts _ _) _ = _
        rw [GoMap.get_set_self]

/-- The two loads along a walk: the first over all its paths, the second over
its paths other than `k`. Both panic, or both return and stand to each other
as before. -/
theorem SkipSim_loadEntries (root k : String) (ps : List String) :
    ∀ st st2, SkipSim root k st st2 →
      (∀ p ∈ ps, plainName (filepath.Base p) ∧ filepath.Clean p = p) →
      (loadEntries ps st = none
          ∧ loadEntries (ps.filter (fun p => decide (p ≠ k))) st2 = none)
        ∨ ∃ s s2, loadEntries ps st = some s
            ∧ loadEntries (ps.filter (fun p => decide (p ≠ k))) st2 = some s2
            ∧ SkipSim root k s s2 := by
  induction ps with
  | nil =>
    intro st st2 h _
    exact Or.inr ⟨st, st2, rfl, rfl, h⟩
  | cons p ps ih =>
    intro st st2 h hb
    have hbp := hb p (List.mem_cons_self _ _)
    have hbs : ∀ p1 ∈ ps, plainName (filepath.Base p1) ∧ filepath.Clean p1 = p1 :=
      fun p1 h1 => hb p1 (List.mem_cons_of_mem _ h1)
    by_cases hpk : p = k
    · subst hpk
      obtain ⟨s, hs, hsim⟩ := SkipSim_visit root p st st2 h hbp.2
      rw [List.filter_cons, if_neg (by simp)]
      simp only [loadEntries, hs]
      exact ih s st2 hsim hbs
    · rw [List.filter_cons, if_pos (by simpa using hpk)]
      rcases SkipSim_loadEntry root k st st2 p h hpk hbp.1 hbp.2 with
        ⟨h1, h2⟩ | ⟨s, s2, h1, h2, hsim⟩
      · left
        simp only [loadEntries, h1, h2, and_self]
      · simp only [loadEntries, h1, h2]
        exact ih s s2 hsim hbs

/-! ## Loading: every record comes from a file that decodes -/

theorem Supplied_loadEntry (fs0 : FS) (all : List String) (st s : mountManager × FS)
    (p : String) (h : Supplied fs0 all st) (hp : p ∈ all) (hb : plainName (filepath.Base p))
    (hcp : filepath.Clean p = p)
    (hl : loadEntry st p = some s) : Supplied fs0 all s ∧ s.1.root = st.1.root := by
  obtain ⟨hidle, hm, ha, hbq⟩ := h
  cases hs : FS.stat st.2 p with
  | none => simp [loadEntry, Stat_clean _ p hcp, hs] at hl
  | some nd =>
    by_cases hj : ∃ o, nd = Node.file (FileData.json o)
    · obtain ⟨o, hnd⟩ := hj
      subst hnd
      rw [loadEntry_json_plain st p o hidle hm hb hcp hs] at hl
      cases hw : ioutil.WriteFile st.2 (createFilePath st.1.root (filepath.Base p))
          (json.Marshal o) with
      | none =>
        rw [hw] at hl
        cases hl
      | some f2 =>
        rw [hw, Option.map_some'] at hl
        have hs2 := (Option.some.inj hl).symm
        subst hs2
        have hqm := createFilePath_ne_meta st.1.root _ hb
        have hqb := Base_createFilePath_plain st.1.root _ hb
        refine ⟨⟨?_, ?_, ?_, ?_⟩, rfl⟩
        · exact Idle_of_set st.1 _ _ _ rfl (le_refl _) hidle
        · show FS.stat f2 (filepath.Join [st.1.root, ".meta"]) ≠ none
          rw [Stat_WriteFile_ne _ _ _ _ _ hw hqm]
          exact hm
        · intro n hn
          by_cases hnb : n = filepath.Base p
          · by_cases hch : FS.stat st.2 p = FS.stat fs0 p
            · refine ⟨p, o, hp, ?_, hnb.symm⟩
              rw [ReadFile_eq_some, ← hch]
              exact hs
            · rw [hnb]
              exact ha _ (hbq p hch)
          · apply ha n
            have hn2 : GoMap.get (GoMap.set st.1.mounts (filepath.Base p)
                (freshRecord st.1.root (filepath.Base p) o)) n ≠ none := hn
            rw [GoMap.get_set_ne _ _ _ _ hnb] at hn2
            exact hn2
        · intro q hq
          show GoMap.get (GoMap.set st.1.mounts (filepath.Base p) _) (filepath.Base q) ≠ none
          by_cases hbq2 : filepath.Base q = filepath.Base p
          · rw [hbq2, GoMap.get_set_self]
            simp
          · rw [GoMap.get_set_ne _ _ _ _ hbq2]
            apply hbq q
            have hqq : q ≠ createFilePath st.1.root (filepath.Base p) := by
              intro e
              apply hbq2
              rw [e, hqb]
            have hq2 : FS.stat f2 q ≠ FS.stat fs0 q := hq
            rw [Stat_WriteFile_ne _ _ _ _ _ hw hqq] at hq2
            exact hq2
    · have hn : ∀ o, nd ≠ Node.file (FileData.json o) := fun o e => hj ⟨o, e⟩
      rw [loadEntry_not_json st p nd hcp hs hn] at hl
      have hs2 := (Option.some.inj hl).symm
      subst hs2
      exact ⟨⟨hidle, hm, ha, hbq⟩, rfl⟩

theorem Supplied_loadEntries (fs0 : FS) (all ps : List String) :
    ∀ st s, Supplied fs0 all st →
      (∀ p ∈ ps, p ∈ all ∧ plainName (filepath.Base p) ∧ filepath.Clean p = p) →
      loadEntries ps st = some s → Supplied fs0 all s := by
  induction ps with
  | nil =>
    intro st s h _ hl
    simp only [loadEntries] at hl
    rw [← Option.some.inj hl]
    exact h
  | cons p ps ih =>
    intro st s h hps hl
    simp only [loadEntries] at hl
    cases h1 : loadEntry st p with
    | none =>
      rw [h1] at hl
      cases hl
    | some s1 =>
      rw [h1] at hl
      have hp := hps p (List.mem_cons_self _ _)
      exact ih s1 s (Supplied_loadEntry fs0 all st s1 p h hp.1 hp.2.1 hp.2.2 h1).1
        (fun p1 h2 => hps p1 (List.mem_cons_of_mem _ h2)) hl

/-- Every record of a loaded registry has the base name of a file of the walk
that decodes. -/
theorem NewVolumeManager_supplied (root : String) (fs : FS) (st : mountManager × FS)
    (h : NewVolumeManager root fs = some st) (n : String) (hn : st.1.HasMount n = true) :
    ∃ p o, p ∈ filepath.walkOrder fs (filepath.Join [root, ".meta"])
      ∧ FS.read fs p = some (FileData.json o) ∧ filepath.Base p = n := by
  unfold NewVolumeManager at h
  dsimp only at h
  rw [Stat_clean fs _ (Clean_Join_meta root)] at h
  cases hs : FS.stat fs (filepath.Join [root, ".meta"]) with
  | none =>
    rw [hs] at h
    simp only at h
    rw [← Option.some.inj h] at hn
    simp [mountManager.HasMount, GoMap.get] at hn
  | some nd =>
    rw [hs] at h
    simp only at h
    have h0 : Supplied fs (filepath.walkOrder fs (filepath.Join [root, ".meta"]))
        (({ root := root, mounts := [] } : mountManager), fs) := by
      refine ⟨?_, ?_, ?_, ?_⟩
      · intro n1 c hg
        simp [GoMap.get] at hg
      · show FS.stat fs (filepath.Join [root, ".meta"]) ≠ none
        rw [hs]
        simp
      · intro n1 hg
        simp [GoMap.get] at hg
      · intro q hq
        exact absurd rfl hq
    obtain ⟨_, _, ha, _⟩ := Supplied_loadEntries fs _ _ _ st h0
      (fun p hp => ⟨hp, plain_Base_walkOrder fs root p hp,
        walkOrder_clean fs _ (Clean_Join_meta root) p hp⟩) h
    apply ha n
    rw [HasMount_eq_true] at hn
    obtain ⟨c, hc⟩ := hn
    rw [hc]
    simp

/-! ## A file that does not decode -/

theorem Stat_del_self_file (fs : FS) (k : String) (d : FileData)
    (hk : FS.stat fs k = some (Node.file d)) : FS.stat (GoMap.del fs k) k = none := by
  unfold FS.stat at hk ⊢
  split
  · rfl
  · rename_i hne
    rw [if_neg hne] at hk
    split
    · rename_i hi
      rw [if_pos hi] at hk
      cases hk
    · exact GoMap.get_del_self _ _

theorem Stat_del_self (fs : FS) (k : String) (nd : Node)
    (hk : FS.stat fs k = some nd) (hnd : nd ≠ Node.dir) : FS.stat (GoMap.del fs k) k = none := by
  unfold FS.stat at hk ⊢
  split
  · rfl
  · rename_i hne
    rw [if_neg hne] at hk
    split
    · rename_i hi
      rw [if_pos hi] at hk
      exact absurd (Option.some.inj hk).symm hnd
    · exact GoMap.get_del_self _ _

theorem ReadFile_del_json (fs : FS) (k : String) (nd : Node)
    (hk : FS.stat fs k = some nd) (hnd : nd ≠ Node.dir)
    (hnj : ∀ o, nd ≠ Node.file (FileData.json o)) (p : String) (o : Opts) :
    FS.read (GoMap.del fs k) p = some (FileData.json o)
      ↔ FS.read fs p = some (FileData.json o) := by
  rw [ReadFile_eq_some, ReadFile_eq_some]
  by_cases hp : p = k
  · subst hp
    rw [Stat_del_self fs p nd hk hnd, hk]
    constructor
    · intro h
      cases h
    · intro h
      exact absurd (Option.some.inj h) (hnj o)
  · rw [Stat_del_ne fs p k hp]

/-- The store reads the same map with and without a file that cannot be read
or does not decode. -/
theorem GetMounts_del (R : String) (fs : FS) (k : String) (nd : Node)
    (hR : filepath.Clean R = R) (hd : FS.stat fs R = some Node.dir)
    (hk : FS.stat fs k = some nd) (hnd : nd ≠ Node.dir)
    (hnj : ∀ o, nd ≠ Node.file (FileData.json o)) :
    ∃ S S2, (NewVolumeStore R).GetMounts fs = some (S, fs)
      ∧ (NewVolumeStore R).GetMounts (GoMap.del fs k) = some (S2, GoMap.del fs k)
      ∧ ∀ key, GoMap.get S key = GoMap.get S2 key := by
  have hRk : R ≠ k := by
    intro e
    rw [e, hk] at hd
    exact hnd (Option.some.inj hd)
  have hd2 : FS.stat (GoMap.del fs k) R = some Node.dir := by
    rw [Stat_del_ne fs R k hRk]
    exact hd
  obtain ⟨S, hS, h1⟩ := GetMounts_get R fs hR hd
  obtain ⟨S2, hS2, h2⟩ := GetMounts_get R (GoMap.del fs k) hR hd2
  refine ⟨S, S2, hS, hS2, ?_⟩
  intro key
  rcases h1 key with ⟨n1, g1⟩ | ⟨p, es, o, he, hj, hr, hg⟩
  · rcases h2 key with ⟨_, g2⟩ | ⟨p2, es2, o2, he2, hj2, hr2, _⟩
    · rw [g1, g2]
    · exact absurd
        ⟨p2, es2, o2, he2, hj2, (ReadFile_del_json fs k nd hk hnd hnj p2 o2).1 hr2⟩ n1
  · rcases h2 key with ⟨n2, _⟩ | ⟨p2, es2, o2, he2, hj2, hr2, hg2⟩
    · exact absurd ⟨p, es, o, he, hj, (ReadFile_del_json fs k nd hk hnd hnj p o).2 hr⟩ n2
    · have hpp : p2 = p :=
        entry_name_inj R p2 p _ _ he2 he (by
          show joinSep es2 = joinSep es
          exact congrArg String.data (hj2.trans hj.symm))
      subst hpp
      have hr3 := (ReadFile_del_json fs k nd hk hnd hnj p2 o2).1 hr2
      rw [hr] at hr3
      rw [hg, hg2]
      cases hr3
      rfl

/-- The load over a file system with a file `k` that does not decode and the
load over the file system without `k`: both panic, or both return and hold the
same records. -/
theorem NewVolumeManager_del (root : String) (fs : FS) (k bytes : String)
    (hk : FS.stat fs k = some (Node.file (FileData.garbage bytes))) :
    (NewVolumeManager root fs = none ∧ NewVolumeManager root (GoMap.del fs k) = none)
      ∨ ∃ s s2, NewVolumeManager root fs = some s
          ∧ NewVolumeManager root (GoMap.del fs k) = some s2
          ∧ s.1.root = s2.1.root ∧ ∀ n, GoMap.get s.1.mounts n = GoMap.get s2.1.mounts n := by
  have hk2 := Stat_del_self_file fs k _ hk
  have hM := Clean_Join_meta root
  unfold NewVolumeManager
  dsimp only
  rw [Stat_clean fs _ hM, Stat_clean (GoMap.del fs k) _ hM]
  by_cases hMk : filepath.Join [root, ".meta"] = k
  · right
    rw [hMk] at hM
    rw [hMk, hk, hk2]
    simp only
    have h1 : filepath.walkOrder fs k = [k] := by
      unfold filepath.walkOrder
      rw [Stat_clean fs k hM, hk]
    rw [h1]
    simp only [loadEntries]
    rw [loadEntry_not_json _ k _ hM hk (by intro o e; cases e)]
    exact ⟨_, _, rfl, rfl, rfl, fun n => rfl⟩
  · have hs2 := Stat_del_ne fs _ k hMk
    rw [hs2]
    cases hs : FS.stat fs (filepath.Join [root, ".meta"]) with
    | none =>
      right
      exact ⟨_, _, rfl, rfl, rfl, fun n => rfl⟩
    | some nd =>
      simp only
      have h0 : SkipSim root k (({ root := root, mounts := [] } : mountManager), fs)
          (({ root := root, mounts := [] } : mountManager), GoMap.del fs k) := by
        refine ⟨rfl, rfl, fun n => rfl, ?_, ?_, ?_, ?_, Or.inl ⟨⟨bytes, hk⟩, hk2⟩⟩
        · intro n1 c hg
          simp [GoMap.get] at hg
        · show FS.stat fs _ ≠ none
          rw [hs]
          simp
        · show FS.stat (GoMap.del fs k) _ ≠ none
          rw [hs2, hs]
          simp
        · intro p hp
          exact (Stat_del_ne fs p k hp).symm
      have hw : filepath.walkOrder (GoMap.del fs k) (filepath.Join [root, ".meta"])
          = (filepath.walkOrder fs (filepath.Join [root, ".meta"])).filter
              (fun p => decide (p ≠ k)) := by
        cases nd with
        | dir => exact walkOrder_del fs _ k hM hMk hs
        | file d =>
          unfold filepath.walkOrder
          rw [Stat_clean fs _ hM, Stat_clean (GoMap.del fs k) _ hM, hs2, hs]
          simp only
          rw [List.filter_cons, if_pos (by simpa using hMk)]
          rfl
        | locked =>
          unfold filepath.walkOrder
          rw [Stat_clean fs _ hM, Stat_clean (GoMap.del fs k) _ hM, hs2, hs]
          simp only
          rw [List.filter_cons, if_pos (by simpa using hMk)]
          rfl
      rw [hw]
      rcases SkipSim_loadEntries root k _ _ _ h0
          (fun p hp => ⟨plain_Base_walkOrder fs root p hp, walkOrder_clean fs _ hM p hp⟩) with
        ⟨a1, a2⟩ | ⟨s, s2, a1, a2, hsim⟩
      · exact Or.inl ⟨a1, a2⟩
      · exact Or.inr ⟨s, s2, a1, a2, hsim.1.trans hsim.2.1.symm, hsim.2.2.1⟩

/-- A regular file `k` whose bytes do not decode is passed over by
`NewVolumeManager`. Against the load over the file system without `k`: one
panics exactly when the other does; when they return, the two registries have
the same root and the same record under every name, so `HasMount` agrees on
every name; and every record of the loaded registry has the base name of a
path of the walk other than `k` whose file decodes. -/
theorem undecodable_file_is_skipped (root : String) (fs : FS) (k bytes : String)
    (hk : FS.stat fs k = some (Node.file (FileData.garbage bytes))) :
    (NewVolumeManager root fs = none ↔ NewVolumeManager root (GoMap.del fs k) = none)
      ∧ (∀ st st2, NewVolumeManager root fs = some st →
          NewVolumeManager root (GoMap.del fs k) = some st2 →
          st.1.root = st2.1.root
            ∧ (∀ n, GoMap.get st.1.mounts n = GoMap.get st2.1.mounts n)
            ∧ ∀ n, st.1.HasMount n = st2.1.HasMount n)
      ∧ (∀ st n, NewVolumeManager root fs = some st → st.1.HasMount n = true →
          ∃ p o, p ≠ k ∧ p ∈ filepath.walkOrder fs (filepath.Join [root, ".meta"])
            ∧ FS.read fs p = some (FileData.json o) ∧ filepath.Base p = n) := by
  have hmain := NewVolumeManager_del root fs k bytes hk
  refine ⟨?_, ?_, ?_⟩
  · rcases hmain with ⟨a1, a2⟩ | ⟨s, s2, a1, a2, _⟩
    · simp [a1, a2]
    · simp [a1, a2]
  · intro st st2 h1 h2
    rcases hmain with ⟨a1, _⟩ | ⟨s, s2, a1, a2, a3, a4⟩
    · rw [a1] at h1
      cases h1
    · rw [a1] at h1
      rw [a2] at h2
      have e1 := Option.some.inj h1
      have e2 := Option.some.inj h2
      subst e1
      subst e2
      refine ⟨a3, a4, ?_⟩
      intro n
      unfold mountManager.HasMount
      rw [a4 n]
  · intro st n h1 hn
    obtain ⟨p, o, hp, hr, hb⟩ := NewVolumeManager_supplied root fs st h1 n hn
    refine ⟨p, o, ?_, hp, hr, hb⟩
    intro e
    rw [e, (ReadFile_eq_some fs k _).2 hk] at hr
    cases hr

/-- Scenario S9: with `/tmp/r1/.meta/bad` holding `not-json` next to the
decodable file `v1`, the registry has `v1` and not `bad`. -/
theorem undecodable_file_is_skipped_at_S9 :
    os.Stat demoCorruptFS "/tmp/r1/.meta/bad"
        = some (Node.file (FileData.garbage "not-json"))
      ∧ (NewVolumeManager "/tmp/r1" demoCorruptFS).map
          (fun st => (st.1.HasMount "bad", st.1.HasMount "v1", st.1.GetOptions "v1"))
          = some (false, true, demoOpts)
      ∧ (NewVolumeManager "/tmp/r1" demoCorruptFS = none
          ↔ NewVolumeManager "/tmp/r1" (GoMap.del demoCorruptFS "/tmp/r1/.meta/bad") = none) :=
  ⟨by decide, by decide,
    (undecodable_file_is_skipped "/tmp/r1" demoCorruptFS "/tmp/r1/.meta/bad" "not-json"
      (by decide)).1⟩

/-! ## A file that cannot be read -/

/-- C15 at an input. Under `/tmp/r1/.meta` are the file `x`, which the process
may not open, and the decodable file `a/x`. `ioutil.ReadFile` fails on `x`,
and on its own `x` is passed over: without `a/x` the load returns the empty
registry. With both files `NewVolumeManager` does not return: the walk comes
to `a/x` first and calls `Create("x", opts)` with the base name, whose write
to `.meta/x` fails, and `Create` panics. Without the file `x` the load returns
a registry with the record `x`. The store reads the same map, `a/x` bound to
the options of its file, with and without the file `x`. -/
theorem unreadable_file_stops_the_load :
    os.Stat demoLockedFS "/tmp/r1/.meta/x" = some Node.locked
      ∧ ioutil.ReadFile demoLockedFS "/tmp/r1/.meta/x" = none
      ∧ filepath.walkOrder demoLockedFS "/tmp/r1/.meta"
          = ["/tmp/r1/.meta", "/tmp/r1/.meta/a", "/tmp/r1/.meta/a/x", "/tmp/r1/.meta/x"]
      ∧ (NewVolumeManager "/tmp/r1" (GoMap.del demoLockedFS "/tmp/r1/.meta/a/x")).map
          (fun st => st.1.mounts) = some []
      ∧ NewVolumeManager "/tmp/r1" demoLockedFS = none
      ∧ (NewVolumeManager "/tmp/r1" (GoMap.del demoLockedFS "/tmp/r1/.meta/x")).map
          (fun st => (st.1.HasMount "x", st.1.GetOptions "x", st.1.Count "x"))
          = some (true, some [("share", "a")], 0)
      ∧ ((NewVolumeStore "/tmp/r1/.meta").GetMounts demoLockedFS).map (fun r => r.1)
          = some [("a/x", some [("share", "a")])]
      ∧ ((NewVolumeStore "/tmp/r1/.meta").GetMounts
            (GoMap.del demoLockedFS "/tmp/r1/.meta/x")).map (fun r => r.1)
          = some [("a/x", some [("share", "a")])] := by
  refine ⟨by decide, by decide, by decide, by decide, by decide, by decide, by decide,
    by decide⟩

end Netshare
